import Mathlib

/-!
Verification of the ThunderClerk-AI extraction pipeline.

This file shallowly embeds the pure utility layer of the extension
(`utils.js`: `normalizeCalDate`, `extractJSON`, `extractTextBody`,
`isValidHostUrl`) and the post-processing steps of `background.js`
(`normalizeCalendarData`, `normalizeTaskData`, the year-advancement and
all-day end-date adjustment of `handleCalendar`, and the pre-network part
of `callOllama`), and proves the testable properties of the specification
against the embedding.

JavaScript strings are modelled as `List Char` (wrapped in `String` at the
record boundary); regular-expression operations used by the source are
embedded by their exact effect on the matched text.  JavaScript `\s` and
`trim` are modelled on the ASCII whitespace subset, which covers every
character the properties exercise.
-/

namespace TClerk

/-- The digit class of the regexes in `utils.js` (`\d` = `[0-9]`). -/
def isDig (c : Char) : Bool := 48 ≤ c.toNat && c.toNat ≤ 57

/-- ASCII whitespace, the model of JavaScript `\s` / `trim`. -/
def isWS (c : Char) : Bool :=
  c = ' ' || c = '\t' || c = '\n' || c = '\r' || c.toNat = 11 || c.toNat = 12

/-- The backtick character (used by the Markdown fence regexes). -/
def btick : Char := Char.ofNat 96

/-! ## Embedding of `normalizeCalDate` (utils.js lines 45-64)

The source removes every dash, then every colon, then one trailing `Z`
(case-insensitively), then a trailing sign-plus-four-digits offset, then a
trailing dot-plus-digits fractional-second suffix; it then looks for the
first `T`: if none remains the result is the first 8 characters plus
`T000000`, otherwise the result is the first 8 characters of the part
before the `T`, a `T`, and the first 6 characters after the `T`
right-padded with `0` to length 6.
-/

/-- The global dash removal (first `replace` of the pipeline). -/
def rmDash (cs : List Char) : List Char := cs.filter (fun c => !(c = '-' : Bool))

/-- The global colon removal (second `replace` of the pipeline). -/
def rmColon (cs : List Char) : List Char := cs.filter (fun c => !(c = ':' : Bool))

/-- The case-insensitive trailing-`Z` removal: remove one trailing `Z` or `z`. -/
def stripZ (cs : List Char) : List Char :=
  match cs.reverse with
  | c :: r => if c = 'Z' || c = 'z' then r.reverse else cs
  | [] => cs

/-- `.replace(/[+-]\d{4}$/, "")`: remove a trailing sign followed by exactly
four digits. -/
def stripOff (cs : List Char) : List Char :=
  match cs.reverse with
  | d1 :: d2 :: d3 :: d4 :: sg :: r =>
    if isDig d1 && isDig d2 && isDig d3 && isDig d4 && (sg = '+' || sg = '-') then
      r.reverse
    else cs
  | _ => cs

/-- `.replace(/\.\d+$/, "")`: remove a trailing dot followed by one or more
digits (the match is the maximal trailing digit run preceded by a dot). -/
def stripFrac (cs : List Char) : List Char :=
  let r := cs.reverse
  let k := (r.takeWhile isDig).length
  if 0 < k ∧ r.get? k = some '.' then (r.drop (k + 1)).reverse else cs

/-- The whole strip pipeline of `normalizeCalDate`, in source order. -/
def stripAll (cs : List Char) : List Char :=
  stripFrac (stripOff (stripZ (rmColon (rmDash cs))))

/-- `indexOf("T")`. -/
def idxT : List Char → Option Nat
  | [] => none
  | c :: cs => if c = 'T' then some 0 else (idxT cs).map (· + 1)

/-- `.padEnd(6, "0")`. -/
def padSix (cs : List Char) : List Char := cs ++ List.replicate (6 - cs.length) '0'

/-- `"T000000"` tail used for date-only input. -/
def tMidnight : List Char := 'T' :: ['0', '0', '0', '0', '0', '0']

/-- Core of `normalizeCalDate` on a non-empty string. -/
def normCore (cs : List Char) : List Char :=
  let s := stripAll cs
  match idxT s with
  | none => s.take 8 ++ tMidnight
  | some t => (s.take t).take 8 ++ 'T' :: padSix ((s.drop (t + 1)).take 6)

/-- `normalizeCalDate` (utils.js).  `none` models `null`/`undefined`; the
falsy guard `if (!dateStr) return dateStr` also passes `""` through. -/
def normalizeCalDate (x : Option String) : Option String :=
  x.map fun s => if s.data = [] then s else String.mk (normCore s.data)

/-- The canonical compact timestamp shape `YYYYMMDDTHHMMSS`:
15 characters, 8 digits, `T`, 6 digits. -/
def isCanonical (cs : List Char) : Bool :=
  cs.length = 15 && (cs.take 8).all isDig && cs.get? 8 = some 'T' &&
    (cs.drop 9).all isDig

/-- A date string is well-shaped for `normalizeCalDate` when, after the strip
pipeline, its date part is at least 8 digits and its time part (when a `T`
separator remains) is made of digits.  All input shapes supported by the
source (compact, ISO-dashed, trailing `Z`, signed offset, fractional seconds,
truncated time, date-only) satisfy this. -/
def goodShape (cs : List Char) : Bool :=
  let s := stripAll cs
  match idxT s with
  | none => 8 ≤ s.length && (s.take 8).all isDig
  | some t => 8 ≤ t && (s.take 8).all isDig && ((s.drop (t + 1)).take 6).all isDig

example : normalizeCalDate (some "2026-02-25T14:00:00") = some "20260225T140000" := by
  decide

example : normalizeCalDate (some "2026-02-25T09:30:00-0500") = some "20260225T093000" := by
  decide

example : normalizeCalDate (some "2026-02-25T14:00:00.000Z") = some "20260225T140000" := by
  decide

example : normalizeCalDate (some "2028-01-10T13::") = some "20280110T130000" := by
  decide

example : normalizeCalDate (some "2026-02-25") = some "20260225T000000" := by decide

example : goodShape "2026-02-25T14:00:00+0530".data = true := by decide

example : isCanonical "20260225T140000".data = true := by decide

/-! ### Helper lemmas -/

theorem dropSucc : ∀ (l : List Char) (n : Nat) (c : Char),
    l.get? n = some c → l.drop n = c :: l.drop (n + 1)
  | [], n, c, h => by simp at h
  | a :: l, 0, c, h => by simp_all
  | a :: l, n + 1, c, h => by
    simpa using dropSucc l n c (by simpa using h)

theorem takeWhile_app_all (p : Char → Bool) (xs ys : List Char)
    (h : xs.all p = true) : (xs ++ ys).takeWhile p = xs ++ ys.takeWhile p := by
  induction xs with
  | nil => simp
  | cons a l ih =>
    simp only [List.all_cons, Bool.and_eq_true] at h
    simp [List.takeWhile_cons, h.1, ih h.2]

theorem idxT_app (xs ys : List Char) (h : 'T' ∉ xs) :
    idxT (xs ++ 'T' :: ys) = some xs.length := by
  induction xs with
  | nil => simp [idxT]
  | cons a l ih =>
    simp only [List.mem_cons, not_or] at h
    simp [idxT, Ne.symm h.1, ih h.2]

theorem idxT_lt : ∀ (l : List Char) (t : Nat), idxT l = some t → t < l.length
  | [], t, h => by simp [idxT] at h
  | a :: l, t, h => by
    by_cases ha : a = 'T'
    · simp only [idxT, if_pos ha] at h
      injection h with h
      subst h
      simp
    · simp only [idxT, if_neg ha, Option.map_eq_some'] at h
      obtain ⟨u, hu, rfl⟩ := h
      have := idxT_lt l u hu
      simp; omega

theorem isDig_ne {c : Char} (h : isDig c = true) :
    c ≠ '-' ∧ c ≠ ':' ∧ c ≠ 'Z' ∧ c ≠ 'z' ∧ c ≠ '+' ∧ c ≠ '.' ∧ c ≠ 'T' := by
  refine ⟨?_, ?_, ?_, ?_, ?_, ?_, ?_⟩ <;> rintro rfl <;> revert h <;> decide

/-! ### The strip pipeline fixes canonical strings -/

theorem stripZ_of_digit_last (cs : List Char)
    (h : ∀ c, cs.reverse.head? = some c → isDig c = true) : stripZ cs = cs := by
  unfold stripZ
  split
  · next c r heq =>
    have hd : isDig c = true := h c (by rw [heq]; rfl)
    have := isDig_ne hd
    simp [this.2.2.1, this.2.2.2.1]
  · rfl

theorem stripOff_of_digit5 (cs : List Char)
    (h : ∀ c, cs.reverse.get? 4 = some c → isDig c = true) : stripOff cs = cs := by
  unfold stripOff
  split
  · next d1 d2 d3 d4 sg r heq =>
    have hd : isDig sg = true := h sg (by rw [heq]; rfl)
    have := isDig_ne hd
    simp [this.2.2.2.2.1, fun hm : sg = '-' => (this.1 hm)]
  · rfl

theorem stripFrac_of_T (cs : List Char) (k : Nat)
    (hk : (cs.reverse.takeWhile isDig).length = k)
    (hT : cs.reverse.get? k = some 'T') : stripFrac cs = cs := by
  simp only [stripFrac]
  rw [hk, hT]
  simp

theorem take_app_len {α : Type} (xs ys : List α) (n : Nat) (h : xs.length = n) :
    (xs ++ ys).take n = xs := by
  subst h
  induction xs with
  | nil => simp
  | cons a l ih => simp [ih]

theorem drop_app_len {α : Type} (xs ys : List α) (n m : Nat) (h : xs.length = n) :
    (xs ++ ys).drop (n + m) = ys.drop m := by
  subst h
  induction xs with
  | nil => simp
  | cons a l ih => simpa [Nat.succ_add] using ih

theorem get_app_len {α : Type} (xs ys : List α) (n : Nat) (h : xs.length = n) :
    (xs ++ ys).get? n = ys.head? := by
  subst h
  induction xs with
  | nil => cases ys <;> simp
  | cons a l ih => simpa using ih

/-- Splitting a canonical timestamp into its 8-digit date, `T`, and 6-digit
time components. -/
theorem canonical_split (cs : List Char) (h : isCanonical cs = true) :
    ∃ A B, cs = A ++ 'T' :: B ∧ A.length = 8 ∧ B.length = 6 ∧
      A.all isDig = true ∧ B.all isDig = true := by
  simp only [isCanonical, Bool.and_eq_true, decide_eq_true_eq] at h
  obtain ⟨⟨⟨hlen, h8⟩, hT⟩, h9⟩ := h
  refine ⟨cs.take 8, cs.drop 9, ?_, ?_, ?_, h8, h9⟩
  · conv_lhs => rw [← List.take_append_drop 8 cs]
    rw [dropSucc cs 8 'T' hT]
  · simp [hlen]
  · simp [hlen]

/-- Building a canonical timestamp from its components. -/
theorem canonical_build (X Y : List Char) (hX : X.length = 8)
    (hXd : X.all isDig = true) (hY : Y.length = 6) (hYd : Y.all isDig = true) :
    isCanonical (X ++ 'T' :: Y) = true := by
  simp only [isCanonical, Bool.and_eq_true, decide_eq_true_eq]
  refine ⟨⟨⟨?_, ?_⟩, ?_⟩, ?_⟩
  · simp [hX, hY]
  · rw [take_app_len X _ 8 hX]; exact hXd
  · rw [get_app_len X _ 8 hX]; rfl
  · rw [show (9 : Nat) = 8 + 1 by rfl, drop_app_len X _ 8 1 hX]
    simpa using hYd

/-- The strip pipeline leaves a canonical timestamp unchanged. -/
theorem stripAll_canonical (cs : List Char) (h : isCanonical cs = true) :
    stripAll cs = cs := by
  obtain ⟨A, B, hsplit, hA, hB, hAd, hBd⟩ := canonical_split cs h
  have hmem : ∀ c ∈ cs, isDig c = true ∨ c = 'T' := by
    intro c hc
    rw [hsplit] at hc
    rcases List.mem_append.1 hc with hc | hc
    · exact Or.inl (List.all_eq_true.1 hAd c hc)
    · rcases List.mem_cons.1 hc with rfl | hc
      · exact Or.inr rfl
      · exact Or.inl (List.all_eq_true.1 hBd c hc)
  have hBne : B ≠ [] := by intro hn; rw [hn] at hB; simp at hB
  have hrev : cs.reverse = B.reverse ++ 'T' :: A.reverse := by
    rw [hsplit]; simp
  have hnd : ∀ c ∈ cs, (c = '-') = False ∧ (c = ':') = False := by
    intro c hc
    rcases hmem c hc with hd | rfl
    · have := isDig_ne hd
      exact ⟨eq_false this.1, eq_false this.2.1⟩
    · exact ⟨by simp, by simp⟩
  have hdash : rmDash cs = cs := by
    apply List.filter_eq_self.2
    intro c hc
    simp [(hnd c hc).1]
  have hcolon : rmColon cs = cs := by
    apply List.filter_eq_self.2
    intro c hc
    simp [(hnd c hc).2]
  have hz : stripZ cs = cs := by
    apply stripZ_of_digit_last
    intro c hc
    rw [hrev] at hc
    rcases hBr : B.reverse with _ | ⟨c0, r0⟩
    · exact absurd (by simpa using congrArg List.reverse hBr) hBne
    · rw [hBr] at hc
      simp only [List.cons_append, List.head?_cons, Option.some.injEq] at hc
      have hc0 : c0 ∈ B.reverse := by rw [hBr]; exact List.mem_cons_self _ _
      rw [← hc]
      exact List.all_eq_true.1 hBd c0 (List.mem_reverse.1 hc0)
  have hoff : stripOff cs = cs := by
    apply stripOff_of_digit5
    intro c hc
    rw [hrev] at hc
    have hlen4 : 4 < B.reverse.length := by simp [hB]
    rw [List.get?_append hlen4] at hc
    have := List.get?_mem hc
    exact List.all_eq_true.1 hBd c (List.mem_reverse.1 this)
  have hfrac : stripFrac cs = cs := by
    apply stripFrac_of_T cs 6
    · rw [hrev, takeWhile_app_all isDig _ _ (by simpa using hBd)]
      have : List.takeWhile isDig ('T' :: A.reverse) = [] := by
        simp [List.takeWhile_cons]
        decide
      rw [this]
      simp [hB]
    · rw [hrev, List.get?_append_right (by simp [hB])]
      simp [hB]
  simp only [stripAll, hdash, hcolon, hz, hoff, hfrac]

/-- On a canonical timestamp, `indexOf("T")` is 8. -/
theorem idxT_canonical (cs : List Char) (h : isCanonical cs = true) :
    idxT cs = some 8 := by
  obtain ⟨A, B, hsplit, hA, _, hAd, _⟩ := canonical_split cs h
  rw [hsplit, idxT_app A B ?_, hA]
  intro hT
  have := isDig_ne (List.all_eq_true.1 hAd 'T' hT)
  exact this.2.2.2.2.2.2 rfl

/-- L2: `normalizeCalDate`'s core is the identity on canonical timestamps. -/
theorem normCore_canonical (cs : List Char) (h : isCanonical cs = true) :
    normCore cs = cs := by
  obtain ⟨A, B, hsplit, hA, hB, hAd, hBd⟩ := canonical_split cs h
  simp only [normCore, stripAll_canonical cs h, idxT_canonical cs h]
  rw [hsplit, List.take_take, show min 8 8 = 8 by decide,
    take_app_len A _ 8 hA,
    show (8 : Nat) + 1 = A.length + 1 by rw [hA],
    drop_app_len A _ A.length 1 rfl]
  simp only [List.drop_one, List.tail_cons]
  rw [List.take_of_length_le (by rw [hB]), padSix, hB]
  simp

/-- L1: on a well-shaped input, `normalizeCalDate`'s core yields a canonical
timestamp. -/
theorem normCore_good (cs : List Char) (h : goodShape cs = true) :
    isCanonical (normCore cs) = true := by
  simp only [goodShape] at h
  simp only [normCore]
  split at h
  · next heq =>
    simp only [Bool.and_eq_true, decide_eq_true_eq] at h
    have : List.take 8 (stripAll cs) ++ tMidnight =
        List.take 8 (stripAll cs) ++ 'T' :: ['0', '0', '0', '0', '0', '0'] := rfl
    rw [this]
    exact canonical_build _ _ (by simp; omega) h.2 (by decide) (by decide)
  · next t heq =>
    simp only [Bool.and_eq_true, decide_eq_true_eq] at h
    obtain ⟨⟨ht8, hd8⟩, htd⟩ := h
    have hlt : t < (stripAll cs).length := idxT_lt _ t heq
    rw [List.take_take, show min 8 t = 8 from Nat.min_eq_left ht8]
    apply canonical_build
    · simp; omega
    · exact hd8
    · simp only [padSix, List.length_append, List.length_replicate]
      have hle : (List.take 6 (List.drop (t + 1) (stripAll cs))).length ≤ 6 := by
        simp [List.length_take]
      omega
    · simp only [padSix, List.all_append, Bool.and_eq_true]
      refine ⟨htd, List.all_eq_true.2 fun x hx => ?_⟩
      rw [List.eq_of_mem_replicate hx]
      decide

/-! ## Reference definition of the date normalizer (spec §4.1)

The following definitions transcribe the specification's description of the
algorithm word by word: strip all dashes and colons (one pass), strip a
trailing `Z`, strip a trailing 4-digit signed offset, strip a trailing
fractional-second suffix; if no `T` separator remains, take the first 8
characters and append midnight, otherwise take 8 digits of date and up to 6
digits of time right-padded with zeros to 6 digits.  They are compared with
the source embedding in the `C2` theorem. -/

def refDashColon : List Char → List Char
  | [] => []
  | c :: cs => if c = '-' ∨ c = ':' then refDashColon cs else c :: refDashColon cs

def refStripZ (cs : List Char) : List Char :=
  if cs.getLast? = some 'Z' ∨ cs.getLast? = some 'z' then cs.dropLast else cs

def refStripOff (cs : List Char) : List Char :=
  match cs.reverse with
  | d1 :: d2 :: d3 :: d4 :: sg :: r =>
    if isDig d1 && isDig d2 && isDig d3 && isDig d4 && (sg = '+' || sg = '-') then
      r.reverse
    else cs
  | _ => cs

def refStripFrac (cs : List Char) : List Char :=
  let r := cs.reverse
  let k := (r.takeWhile isDig).length
  if 0 < k ∧ r.get? k = some '.' then (r.drop (k + 1)).reverse else cs

def notT (c : Char) : Bool := !(c = 'T' : Bool)

def refAssemble (s : List Char) : List Char :=
  let date := s.takeWhile notT
  let rest := s.dropWhile notT
  match rest with
  | [] => s.take 8 ++ tMidnight
  | _ :: time =>
    date.take 8 ++ 'T' :: (time.take 6 ++ List.replicate (6 - (time.take 6).length) '0')

def refNormalizeCalDate (x : Option String) : Option String :=
  x.map fun s =>
    if s.data = [] then s
    else String.mk (refAssemble (refStripFrac (refStripOff (refStripZ (refDashColon s.data)))))

theorem refDashColon_eq (cs : List Char) : refDashColon cs = rmColon (rmDash cs) := by
  induction cs with
  | nil => rfl
  | cons c l ih =>
    by_cases hd : c = '-'
    · simp [refDashColon, rmDash, rmColon, hd, ih]
    · by_cases hc : c = ':'
      · simp [refDashColon, rmDash, rmColon, hd, hc, ih]
      · simp [refDashColon, rmDash, rmColon, hd, hc, ih]

theorem refStripZ_eq (cs : List Char) : refStripZ cs = stripZ cs := by
  rcases hrev : cs.reverse with _ | ⟨c, r⟩
  · have h0 : cs = [] := by simpa using congrArg List.reverse hrev
    subst h0
    rfl
  · have hcs : cs = r.reverse ++ [c] := by
      have := congrArg List.reverse hrev
      simpa using this
    have hlast : cs.getLast? = some c := by rw [hcs, List.getLast?_concat]
    have hdl : cs.dropLast = r.reverse := by rw [hcs, List.dropLast_concat]
    simp only [stripZ, hrev]
    unfold refStripZ
    rw [hlast, hdl]
    by_cases hZ : c = 'Z' ∨ c = 'z'
    · rw [if_pos (by simpa using hZ), if_pos (by simpa using hZ)]
    · rw [if_neg (by simpa using hZ), if_neg (by simpa using hZ)]

theorem refStripOff_eq (cs : List Char) : refStripOff cs = stripOff cs := rfl

theorem refStripFrac_eq (cs : List Char) : refStripFrac cs = stripFrac cs := rfl

theorem idxT_none_spec (s : List Char) (h : idxT s = none) :
    s.takeWhile notT = s ∧ s.dropWhile notT = [] := by
  induction s with
  | nil => simp
  | cons c l ih =>
    by_cases hc : c = 'T'
    · simp [idxT, hc] at h
    · simp only [idxT, if_neg hc, Option.map_eq_none'] at h
      have := ih h
      simp [List.takeWhile_cons, List.dropWhile_cons, notT, hc, this.1, this.2]

theorem idxT_some_spec : ∀ (s : List Char) (t : Nat), idxT s = some t →
    s.takeWhile notT = s.take t ∧ s.dropWhile notT = s.drop t ∧
      s.get? t = some 'T'
  | [], t, h => by simp [idxT] at h
  | c :: l, t, h => by
    by_cases hc : c = 'T'
    · simp only [idxT, if_pos hc] at h
      injection h with h
      subst h
      subst hc
      simp [List.takeWhile_cons, List.dropWhile_cons, notT]
    · simp only [idxT, if_neg hc, Option.map_eq_some'] at h
      obtain ⟨u, hu, rfl⟩ := h
      obtain ⟨h1, h2, h3⟩ := idxT_some_spec l u hu
      have hnot : notT c = true := by simp [notT, hc]
      refine ⟨?_, ?_, ?_⟩
      · simp [List.takeWhile_cons, hnot, h1]
      · simp [List.dropWhile_cons, hnot, h2]
      · simpa using h3

theorem refAssemble_eq (s : List Char) :
    refAssemble s =
      (match idxT s with
       | none => s.take 8 ++ tMidnight
       | some t => (s.take t).take 8 ++ 'T' :: padSix ((s.drop (t + 1)).take 6)) := by
  rcases hidx : idxT s with _ | t
  · obtain ⟨h1, h2⟩ := idxT_none_spec s hidx
    simp only [refAssemble, h1, h2]
  · obtain ⟨h1, h2, h3⟩ := idxT_some_spec s t hidx
    simp only [refAssemble, h1, h2]
    rw [dropSucc s t 'T' h3]
    simp [padSix]

/-- C2: `normalizeCalDate` coincides with the specification's reference
algorithm (strip dashes and colons, trailing `Z`, trailing signed 4-digit
offset, trailing fractional seconds; date-only input gets `T000000`; the
time part is truncated to 6 digits and right-padded with zeros), with
`null`/`undefined`/`""` passed through unchanged. -/
theorem C2_normalizeCalDate_matches_reference (x : Option String) :
    normalizeCalDate x = refNormalizeCalDate x := by
  rcases x with _ | s
  · rfl
  · simp only [normalizeCalDate, refNormalizeCalDate, Option.map_some']
    by_cases hnil : s.data = []
    · simp [hnil]
    · simp only [if_neg hnil]
      congr 1
      rw [refAssemble_eq, refDashColon_eq, refStripZ_eq, refStripOff_eq,
        refStripFrac_eq]
      rfl

theorem normalizeCalDate_some (s : String) (h : ¬s.data = []) :
    normalizeCalDate (some s) = some (String.mk (normCore s.data)) := by
  simp [normalizeCalDate, h]

/-- C8: `normalizeCalDate` is idempotent on every supported date-string
shape: one application of the core yields a canonical timestamp, and a
second application leaves it unchanged. -/
theorem C8_normalizeCalDate_idempotent (s : String) (h : goodShape s.data = true) :
    normalizeCalDate (normalizeCalDate (some s)) = normalizeCalDate (some s) := by
  have hnil : ¬s.data = [] := by
    intro hn
    rw [show goodShape s.data = goodShape [] by rw [hn]] at h
    exact absurd h (by decide)
  have hcanon : isCanonical (normCore s.data) = true := normCore_good s.data h
  have hne : ¬(normCore s.data) = [] := by
    intro hn
    simp only [isCanonical, Bool.and_eq_true, decide_eq_true_eq] at hcanon
    rw [hn] at hcanon
    simp at hcanon
  rw [normalizeCalDate_some s hnil,
    normalizeCalDate_some (String.mk (normCore s.data)) hne]
  show some (String.mk (normCore (normCore s.data))) = some (String.mk (normCore s.data))
  rw [normCore_canonical _ hcanon]

/-- Witness for C8 at a concrete supported shape. -/
theorem C8_witness :
    goodShape "2026-02-25T14:00:00Z".data = true ∧
      normalizeCalDate (normalizeCalDate (some "2026-02-25T14:00:00Z")) =
        normalizeCalDate (some "2026-02-25T14:00:00Z") :=
  ⟨by decide, C8_normalizeCalDate_idempotent "2026-02-25T14:00:00Z" (by decide)⟩

theorem goodShape_ne_nil (s : String) (h : goodShape s.data = true) :
    ¬s.data = [] := by
  intro hn
  rw [show goodShape s.data = goodShape [] by rw [hn]] at h
  exact absurd h (by decide)

/-! ## Parsed model records and the post-processing of background.js

A JSON field of a record parsed from the model output is modelled by
`JField`: `absent` is a missing key; the other constructors are JSON
values.  Truthiness follows JavaScript.  `JRec` carries the fields that
`normalizeCalendarData` / `normalizeTaskData` read or write plus an opaque
list of all remaining fields. -/

inductive JField where
  | absent
  | jnull
  | jstr (s : String)
  | jbool (b : Bool)
  | jnum (n : Int)
deriving DecidableEq

def truthy : JField → Bool
  | .absent => false
  | .jnull => false
  | .jstr s => !(s = "" : Bool)
  | .jbool b => b
  | .jnum n => !(n = 0 : Bool)

/-- `normalizeCalDate` applied to a string field value; the total
restriction of `normFieldE` below to the region where the source does not
throw.  It is used only under hypotheses confining fields to absent, falsy
or string values, where it agrees with the error-propagating model (see
`normalizeCalendarDataE_agrees` / `normalizeTaskDataE_agrees`). -/
def normField : JField → JField
  | .jstr s => .jstr (if s.data = [] then s else String.mk (normCore s.data))
  | f => f

/-- Faithful model of one `normalizeCalDate(value)` call on a truthy field
value: a string is normalized, while a truthy non-string raises a TypeError
in the source (`.replace` is not a function), modelled as `none`. -/
def normFieldE : JField → Option JField
  | .jstr s => some (.jstr (if s.data = [] then s else String.mk (normCore s.data)))
  | _ => none

/-- One `if (data.f) data.f = normalizeCalDate(data.f)` step: falsy values
are left untouched, truthy ones are normalized with the error propagated. -/
def stepE (f : JField) : Option JField :=
  if truthy f then normFieldE f else some f

structure JRec where
  startDate : JField := .absent
  endDate : JField := .absent
  dueDate : JField := .absent
  initialDate : JField := .absent
  InitialDate : JField := .absent
  forceAllDay : JField := .absent
  others : List (String × JField) := []
deriving DecidableEq

/-- Error-propagating embedding of `normalizeCalendarData` (background.js
lines 109-114): a truthy non-string date field makes the call throw before
any record is returned. -/
def normalizeCalendarDataE (r : JRec) : Option JRec :=
  (stepE r.startDate).bind fun sd =>
    (stepE r.endDate).bind fun ed =>
      some { r with startDate := sd, endDate := ed,
                    forceAllDay := .jbool (truthy r.forceAllDay) }

/-- Error-propagating embedding of `normalizeTaskData` (background.js lines
116-124): the `delete data.InitialDate` is modelled by setting the field to
`absent`; a truthy non-string date field makes the call throw. -/
def normalizeTaskDataE (r : JRec) : Option JRec :=
  (stepE r.dueDate).bind fun dd =>
    (stepE r.initialDate).bind fun idf =>
      if truthy r.InitialDate then
        (normFieldE r.InitialDate).bind fun i2 =>
          some { r with dueDate := dd, initialDate := i2, InitialDate := .absent }
      else some { r with dueDate := dd, initialDate := idf }

/-- The total restriction of `normalizeCalendarDataE` to the non-throwing
region (fields absent, falsy or strings), where the two agree
(`normalizeCalendarDataE_agrees`). -/
def normalizeCalendarData (r : JRec) : JRec :=
  let r1 := if truthy r.startDate then { r with startDate := normField r.startDate } else r
  let r2 := if truthy r1.endDate then { r1 with endDate := normField r1.endDate } else r1
  { r2 with forceAllDay := .jbool (truthy r2.forceAllDay) }

/-- The total restriction of `normalizeTaskDataE` to the non-throwing
region (fields absent, falsy or strings), where the two agree
(`normalizeTaskDataE_agrees`). -/
def normalizeTaskData (r : JRec) : JRec :=
  let r1 := if truthy r.dueDate then { r with dueDate := normField r.dueDate } else r
  let r2 := if truthy r1.initialDate then
    { r1 with initialDate := normField r1.initialDate } else r1
  if truthy r2.InitialDate then
    { r2 with initialDate := normField r2.InitialDate, InitialDate := .absent }
  else r2

theorem stepE_eq (f : JField) (h : truthy f = true → ∃ s, f = .jstr s) :
    stepE f = some (if truthy f then normField f else f) := by
  by_cases ht : truthy f = true
  · obtain ⟨s, rfl⟩ := h ht
    rw [stepE, if_pos ht, if_pos ht]
    rfl
  · rw [stepE, if_neg ht, if_neg ht]

theorem recExt (a b : JRec) (h1 : a.startDate = b.startDate)
    (h2 : a.endDate = b.endDate) (h3 : a.dueDate = b.dueDate)
    (h4 : a.initialDate = b.initialDate) (h5 : a.InitialDate = b.InitialDate)
    (h6 : a.forceAllDay = b.forceAllDay) (h7 : a.others = b.others) : a = b := by
  cases a
  cases b
  simp only [JRec.mk.injEq]
  exact ⟨h1, h2, h3, h4, h5, h6, h7⟩

theorem ncd_start (r : JRec) : (normalizeCalendarData r).startDate =
    if truthy r.startDate then normField r.startDate else r.startDate := by
  simp only [normalizeCalendarData]
  split_ifs <;> rfl

theorem ncd_end (r : JRec) : (normalizeCalendarData r).endDate =
    if truthy r.endDate then normField r.endDate else r.endDate := by
  simp only [normalizeCalendarData]
  split_ifs <;> rfl

theorem ncd_force (r : JRec) :
    (normalizeCalendarData r).forceAllDay = .jbool (truthy r.forceAllDay) := by
  simp only [normalizeCalendarData]
  split_ifs <;> rfl

theorem ntd_due (r : JRec) : (normalizeTaskData r).dueDate =
    if truthy r.dueDate then normField r.dueDate else r.dueDate := by
  simp only [normalizeTaskData]
  split_ifs <;> rfl

theorem ntd_initial (r : JRec) : (normalizeTaskData r).initialDate =
    if truthy r.InitialDate then normField r.InitialDate
    else if truthy r.initialDate then normField r.initialDate else r.initialDate := by
  simp only [normalizeTaskData]
  split_ifs <;> rfl

theorem ntd_Initial (r : JRec) : (normalizeTaskData r).InitialDate =
    if truthy r.InitialDate then .absent else r.InitialDate := by
  simp only [normalizeTaskData]
  split_ifs <;> rfl

theorem ntd_rest (r : JRec) : (normalizeTaskData r).startDate = r.startDate ∧
    (normalizeTaskData r).endDate = r.endDate ∧
    (normalizeTaskData r).forceAllDay = r.forceAllDay ∧
    (normalizeTaskData r).others = r.others := by
  simp only [normalizeTaskData]
  split_ifs <;> exact ⟨rfl, rfl, rfl, rfl⟩

theorem ncd_rest (r : JRec) : (normalizeCalendarData r).dueDate = r.dueDate ∧
    (normalizeCalendarData r).initialDate = r.initialDate ∧
    (normalizeCalendarData r).InitialDate = r.InitialDate ∧
    (normalizeCalendarData r).others = r.others := by
  simp only [normalizeCalendarData]
  split_ifs <;> exact ⟨rfl, rfl, rfl, rfl⟩

theorem normalizeCalendarDataE_agrees (r : JRec)
    (hs : truthy r.startDate = true → ∃ s, r.startDate = .jstr s)
    (he : truthy r.endDate = true → ∃ s, r.endDate = .jstr s) :
    normalizeCalendarDataE r = some (normalizeCalendarData r) := by
  unfold normalizeCalendarDataE
  rw [stepE_eq r.startDate hs, Option.some_bind, stepE_eq r.endDate he, Option.some_bind]
  refine congrArg some (recExt _ _ ?_ ?_ ?_ ?_ ?_ ?_ ?_)
  · exact (ncd_start r).symm
  · exact (ncd_end r).symm
  · exact (ncd_rest r).1.symm
  · exact (ncd_rest r).2.1.symm
  · exact (ncd_rest r).2.2.1.symm
  · exact (ncd_force r).symm
  · exact (ncd_rest r).2.2.2.symm

theorem normalizeTaskDataE_agrees (r : JRec)
    (hd : truthy r.dueDate = true → ∃ s, r.dueDate = .jstr s)
    (hi : truthy r.initialDate = true → ∃ s, r.initialDate = .jstr s)
    (hI : truthy r.InitialDate = true → ∃ s, r.InitialDate = .jstr s) :
    normalizeTaskDataE r = some (normalizeTaskData r) := by
  unfold normalizeTaskDataE
  rw [stepE_eq r.dueDate hd, Option.some_bind, stepE_eq r.initialDate hi, Option.some_bind]
  by_cases hIt : truthy r.InitialDate = true
  · obtain ⟨s, hs⟩ := hI hIt
    rw [if_pos hIt, hs, show normFieldE (.jstr s) = some (normField (.jstr s)) from rfl,
      Option.some_bind]
    refine congrArg some (recExt _ _ ?_ ?_ ?_ ?_ ?_ ?_ ?_)
    · exact (ntd_rest r).1.symm
    · exact (ntd_rest r).2.1.symm
    · exact (ntd_due r).symm
    · rw [ntd_initial r, if_pos hIt, hs]
    · rw [ntd_Initial r, if_pos hIt]
    · exact (ntd_rest r).2.2.1.symm
    · exact (ntd_rest r).2.2.2.symm
  · rw [if_neg hIt]
    refine congrArg some (recExt _ _ ?_ ?_ ?_ ?_ ?_ ?_ ?_)
    · exact (ntd_rest r).1.symm
    · exact (ntd_rest r).2.1.symm
    · exact (ntd_due r).symm
    · rw [ntd_initial r, if_neg hIt]
    · rw [ntd_Initial r, if_neg hIt]
    · exact (ntd_rest r).2.2.1.symm
    · exact (ntd_rest r).2.2.2.symm

/-- A date field as it may arrive from the model in a supported shape:
absent, or a string whose stripped form is at least 8 digits of date with a
digit time part. -/
def dateOk (f : JField) : Prop :=
  f = .absent ∨ ∃ s : String, f = .jstr s ∧ goodShape s.data = true

/-- A date field as the spec's invariant requires after post-processing:
absent or canonical `YYYYMMDDTHHMMSS`. -/
def canonOk (f : JField) : Prop :=
  f = .absent ∨ ∃ s : String, f = .jstr s ∧ isCanonical s.data = true

theorem step_date (f : JField) (h : dateOk f) :
    canonOk (if truthy f then normField f else f) := by
  rcases h with rfl | ⟨s, rfl, hg⟩
  · simp [truthy, dateOk, canonOk]
  · have hne : ¬s.data = [] := goodShape_ne_nil s hg
    have hs : ¬s = "" := by
      intro hn
      rw [hn] at hne
      exact hne rfl
    have ht : truthy (.jstr s) = true := by simp [truthy, hs]
    rw [if_pos ht]
    refine Or.inr ⟨String.mk (normCore s.data), ?_, normCore_good s.data hg⟩
    show JField.jstr (if s.data = [] then s else String.mk (normCore s.data)) = _
    rw [if_neg hne]

/-- C5 counterexample: the pipeline post-processes a task record whose
`dueDate` is the (model-emitted) string `"hello"` into one whose `dueDate`
is `"helloT000000"`, which is present but not canonical; moreover the
post-processed task record has no `forceAllDay` field at all, while the
claim requires it to be present and boolean for task records. -/
theorem C5_counterexample :
    (normalizeTaskData { dueDate := .jstr "hello" }).dueDate = .jstr "helloT000000" ∧
      isCanonical "helloT000000".data = false ∧
      (.jstr "helloT000000" : JField) ≠ .absent ∧
      (normalizeTaskData { dueDate := .jstr "hello" }).forceAllDay = .absent := by
  refine ⟨?_, by decide, by decide, ?_⟩ <;> decide

/-- C5 (amended): after post-processing, every date field that arrived
absent or as a string in a supported shape is absent or canonical; event
records always get a boolean `forceAllDay`; task records keep no
(truthy-valued) `InitialDate`. -/
theorem C5_postprocessed_invariant (r : JRec) :
    (dateOk r.startDate → dateOk r.endDate →
      canonOk (normalizeCalendarData r).startDate ∧
        canonOk (normalizeCalendarData r).endDate ∧
        ∃ b, (normalizeCalendarData r).forceAllDay = .jbool b) ∧
    (dateOk r.dueDate → dateOk r.initialDate → dateOk r.InitialDate →
      canonOk (normalizeTaskData r).dueDate ∧
        canonOk (normalizeTaskData r).initialDate ∧
        (normalizeTaskData r).InitialDate = .absent) := by
  constructor
  · intro hs he
    refine ⟨?_, ?_, ?_⟩
    · rw [ncd_start]; exact step_date _ hs
    · rw [ncd_end]; exact step_date _ he
    · exact ⟨_, ncd_force r⟩
  · intro hd hi hI
    refine ⟨?_, ?_, ?_⟩
    · rw [ntd_due]; exact step_date _ hd
    · rw [ntd_initial]
      rcases hI with hIa | ⟨s, hIs, hg⟩
      · rw [hIa, if_neg (show ¬truthy JField.absent = true by decide)]
        exact step_date _ hi
      · have hne : ¬s.data = [] := goodShape_ne_nil s hg
        have hs' : ¬s = "" := fun hn => hne (by rw [hn])
        rw [hIs, if_pos (by simp [truthy, hs'])]
        refine Or.inr ⟨String.mk (normCore s.data), ?_, normCore_good s.data hg⟩
        show JField.jstr (if s.data = [] then s else String.mk (normCore s.data)) = _
        rw [if_neg hne]
    · rw [ntd_Initial]
      rcases hI with hIa | ⟨s, hIs, hg⟩
      · rw [hIa, if_neg (show ¬truthy JField.absent = true by decide)]
      · have hne : ¬s.data = [] := goodShape_ne_nil s hg
        have hs' : ¬s = "" := fun hn => hne (by rw [hn])
        rw [hIs, if_pos (by simp [truthy, hs'])]

/-- Witness for C5 (amended) at a concrete record. -/
theorem C5_witness :
    canonOk (normalizeCalendarData
        { startDate := .jstr "2026-03-10T15:00", endDate := .absent }).startDate ∧
      (normalizeTaskData
          { dueDate := .jstr "20260315"
            InitialDate := .jstr "2026-03-01" }).InitialDate = .absent := by
  refine ⟨?_, ?_⟩
  · exact ((C5_postprocessed_invariant _).1
      (Or.inr ⟨_, rfl, by decide⟩) (Or.inl rfl)).1
  · exact ((C5_postprocessed_invariant _).2
      (Or.inr ⟨_, rfl, by decide⟩) (Or.inl rfl) (Or.inr ⟨_, rfl, by decide⟩)).2.2

/-- C10 counterexample: a record carrying the key `InitialDate` with the
falsy value `""` is returned with the `InitialDate` key still present and
without `initialDate` being set, because the source tests truthiness rather
than key presence. -/
theorem C10_counterexample :
    normalizeTaskDataE { InitialDate := .jstr "" } =
      some ({ InitialDate := .jstr "" } : JRec) ∧
      (.jstr "" : JField) ≠ .absent ∧
      ({ InitialDate := .jstr "" } : JRec).initialDate = .absent := by
  refine ⟨?_, by decide, rfl⟩
  decide

/-- C10 (amended): on records whose `dueDate`, `initialDate` and
`InitialDate` are strings whenever truthy, the task normalization returns a
record in which a truthy `InitialDate` value has been moved to
`initialDate` (through `normalizeCalDate`) with the `InitialDate` key
deleted, truthy `dueDate`/`initialDate` are passed through
`normalizeCalDate`, falsy ones are left as-is and every other field is
unchanged; a truthy non-string `InitialDate` instead makes the call throw a
TypeError, so no record is returned. -/
theorem C10_normalizeTaskData_coalesces (r : JRec) :
    ((truthy r.dueDate = true → ∃ s, r.dueDate = .jstr s) →
      (truthy r.initialDate = true → ∃ s, r.initialDate = .jstr s) →
      (truthy r.InitialDate = true → ∃ s, r.InitialDate = .jstr s) →
      ∃ r', normalizeTaskDataE r = some r' ∧
        (truthy r.InitialDate = true →
          r'.initialDate = normField r.InitialDate ∧ r'.InitialDate = .absent) ∧
        (truthy r.InitialDate = false → r'.InitialDate = r.InitialDate) ∧
        (truthy r.dueDate = true → r'.dueDate = normField r.dueDate) ∧
        (truthy r.dueDate = false → r'.dueDate = r.dueDate) ∧
        (truthy r.InitialDate = false → truthy r.initialDate = true →
          r'.initialDate = normField r.initialDate) ∧
        (truthy r.InitialDate = false → truthy r.initialDate = false →
          r'.initialDate = r.initialDate) ∧
        r'.startDate = r.startDate ∧ r'.endDate = r.endDate ∧
        r'.forceAllDay = r.forceAllDay ∧ r'.others = r.others) ∧
    (truthy r.InitialDate = true → (∀ s : String, ¬r.InitialDate = .jstr s) →
      normalizeTaskDataE r = none) := by
  constructor
  · intro hd hi hI
    obtain ⟨h1, h2, h3, h4⟩ := ntd_rest r
    refine ⟨normalizeTaskData r, normalizeTaskDataE_agrees r hd hi hI,
      ?_, ?_, ?_, ?_, ?_, ?_, h1, h2, h3, h4⟩
    · intro hIt
      exact ⟨by rw [ntd_initial, if_pos hIt], by rw [ntd_Initial, if_pos hIt]⟩
    · intro hIt
      rw [ntd_Initial, if_neg (by simp [hIt])]
    · intro hdt
      rw [ntd_due, if_pos hdt]
    · intro hdt
      rw [ntd_due, if_neg (by simp [hdt])]
    · intro hIt hit
      rw [ntd_initial, if_neg (by simp [hIt]), if_pos hit]
    · intro hIt hit
      rw [ntd_initial, if_neg (by simp [hIt]), if_neg (by simp [hit])]
  · intro hIt hns
    have h3 : normFieldE r.InitialDate = none := by
      rcases hf : r.InitialDate with _ | _ | s | b | n
      · rfl
      · rfl
      · exact absurd hf (hns s)
      · rfl
      · rfl
    rcases h1 : stepE r.dueDate with _ | d1
    · unfold normalizeTaskDataE
      rw [h1]
      rfl
    · rcases h2 : stepE r.initialDate with _ | d2
      · unfold normalizeTaskDataE
        rw [h1, Option.some_bind, h2]
        rfl
      · unfold normalizeTaskDataE
        rw [h1, Option.some_bind, h2, Option.some_bind, if_pos hIt, h3]
        rfl

/-- Witness for C10 (amended): both halves at concrete records — a string
`InitialDate` is coalesced and deleted, a boolean one makes the call
throw. -/
theorem C10_witness :
    (∃ r', normalizeTaskDataE { InitialDate := .jstr "2026-03-01" } = some r' ∧
      r'.initialDate = normField (.jstr "2026-03-01") ∧ r'.InitialDate = .absent) ∧
    normalizeTaskDataE { InitialDate := .jbool true } = none := by
  constructor
  · obtain ⟨r', hE, hcl⟩ :=
      (C10_normalizeTaskData_coalesces { InitialDate := .jstr "2026-03-01" }).1
        (fun hc => absurd hc (by decide)) (fun hc => absurd hc (by decide))
        (fun _ => ⟨"2026-03-01", rfl⟩)
    exact ⟨r', hE, (hcl.1 (by decide)).1, (hcl.1 (by decide)).2⟩
  · exact (C10_normalizeTaskData_coalesces { InitialDate := .jbool true }).2
      (by decide) (fun s h => JField.noConfusion h)

/-! ## Decimal digits and the proleptic Gregorian calendar

Support for the year-advancement and all-day adjustment steps of
`handleCalendar` (background.js lines 271-273 and 294-299). -/

def d2n (c : Char) : Nat := c.toNat - 48

def dg : Nat → Char
  | 0 => '0'
  | 1 => '1'
  | 2 => '2'
  | 3 => '3'
  | 4 => '4'
  | 5 => '5'
  | 6 => '6'
  | 7 => '7'
  | 8 => '8'
  | 9 => '9'
  | _ + 10 => '0'

theorem dg_isDig (k : Nat) (h : k < 10) : isDig (dg k) = true := by
  interval_cases k <;> decide

theorem d2n_dg (k : Nat) (h : k < 10) : d2n (dg k) = k := by
  interval_cases k <;> decide

def pad2 (n : Nat) : List Char := [dg (n / 10 % 10), dg (n % 10)]

def pad4 (n : Nat) : List Char :=
  [dg (n / 1000 % 10), dg (n / 100 % 10), dg (n / 10 % 10), dg (n % 10)]

def n2 (a b : Char) : Nat := d2n a * 10 + d2n b

def n4 (a b c d : Char) : Nat := ((d2n a * 10 + d2n b) * 10 + d2n c) * 10 + d2n d

theorem pad4_parse (n : Nat) (h : n < 10000) :
    n4 (dg (n / 1000 % 10)) (dg (n / 100 % 10)) (dg (n / 10 % 10)) (dg (n % 10)) = n := by
  simp only [n4]
  rw [d2n_dg _ (by omega), d2n_dg _ (by omega), d2n_dg _ (by omega), d2n_dg _ (by omega)]
  omega

theorem pad2_parse (n : Nat) (h : n < 100) :
    n2 (dg (n / 10 % 10)) (dg (n % 10)) = n := by
  simp only [n2]
  rw [d2n_dg _ (by omega), d2n_dg _ (by omega)]
  omega

def isLeap (y : Nat) : Bool := (y % 4 = 0 && !(y % 100 = 0 : Bool)) || y % 400 = 0

def daysInMonth (y m : Nat) : Nat :=
  if m = 2 then (if isLeap y then 29 else 28)
  else if m = 4 ∨ m = 6 ∨ m = 9 ∨ m = 11 then 30 else 31

def monthPre (y : Nat) : Nat → Nat
  | 0 => 0
  | 1 => 0
  | m + 1 => monthPre y m + daysInMonth y m

def daysInYear (y : Nat) : Nat := if isLeap y then 366 else 365

def daysBeforeYear : Nat → Nat
  | 0 => 0
  | y + 1 => daysBeforeYear y + daysInYear y

structure Ymd where
  y : Nat
  m : Nat
  d : Nat
deriving DecidableEq

/-- Days since the epoch (year 0, January 1) of a calendar date. -/
def eDays (x : Ymd) : Nat := daysBeforeYear x.y + monthPre x.y x.m + (x.d - 1)

def validYmd (x : Ymd) : Prop :=
  1 ≤ x.m ∧ x.m ≤ 12 ∧ 1 ≤ x.d ∧ x.d ≤ daysInMonth x.y x.m

instance (x : Ymd) : Decidable (validYmd x) := by
  unfold validYmd
  infer_instance

def nextDay (x : Ymd) : Ymd :=
  if x.d < daysInMonth x.y x.m then ⟨x.y, x.m, x.d + 1⟩
  else if x.m < 12 then ⟨x.y, x.m + 1, 1⟩
  else ⟨x.y + 1, 1, 1⟩

def addDays : Nat → Ymd → Ymd
  | 0, x => x
  | n + 1, x => addDays n (nextDay x)

theorem daysInMonth_bounds (y m : Nat) : 28 ≤ daysInMonth y m ∧ daysInMonth y m ≤ 31 := by
  unfold daysInMonth
  split_ifs <;> omega

theorem monthPre_succ (y m : Nat) (h1 : 1 ≤ m) :
    monthPre y (m + 1) = monthPre y m + daysInMonth y m := by
  match m, h1 with
  | m + 1, _ => rfl

theorem monthPre_13 (y : Nat) : monthPre y 13 = daysInYear y := by
  rcases h : isLeap y <;>
    norm_num [monthPre, daysInMonth, daysInYear, h]

theorem nextDay_valid (x : Ymd) (h : validYmd x) : validYmd (nextDay x) := by
  obtain ⟨h1, h2, h3, h4⟩ := h
  have hb1 := (daysInMonth_bounds x.y (x.m + 1)).1
  have hb2 := (daysInMonth_bounds (x.y + 1) 1).1
  unfold nextDay
  split_ifs with hd hm
  · exact ⟨h1, h2, by show 1 ≤ x.d + 1; omega,
      by show x.d + 1 ≤ daysInMonth x.y x.m; omega⟩
  · exact ⟨by show 1 ≤ x.m + 1; omega, by show x.m + 1 ≤ 12; omega, le_refl 1,
      by show 1 ≤ daysInMonth x.y (x.m + 1); omega⟩
  · exact ⟨le_refl 1, by show (1 : Nat) ≤ 12; omega, le_refl 1,
      by show 1 ≤ daysInMonth (x.y + 1) 1; omega⟩

theorem nextDay_year (x : Ymd) : (nextDay x).y ≤ x.y + 1 := by
  unfold nextDay
  split_ifs <;> simp

theorem eDays_nextDay (x : Ymd) (h : validYmd x) : eDays (nextDay x) = eDays x + 1 := by
  obtain ⟨h1, h2, h3, h4⟩ := h
  unfold nextDay
  split_ifs with hd hm
  · simp only [eDays]
    omega
  · have hdd : x.d = daysInMonth x.y x.m := by omega
    simp only [eDays, monthPre_succ x.y x.m h1]
    omega
  · have hm12 : x.m = 12 := by omega
    have hdim : daysInMonth x.y 12 = 31 := by norm_num [daysInMonth]
    have hd31 : x.d = 31 := by
      rw [hm12, hdim] at hd h4
      omega
    have h13 : monthPre x.y 13 = daysInYear x.y := monthPre_13 x.y
    have hs : monthPre x.y 13 = monthPre x.y 12 + 31 := by
      rw [monthPre_succ x.y 12 (by omega), hdim]
    simp only [eDays, daysBeforeYear]
    rw [hm12, hd31]
    have hmp1 : monthPre (x.y + 1) 1 = 0 := rfl
    omega

theorem addDays_spec : ∀ (n : Nat) (x : Ymd), validYmd x →
    eDays (addDays n x) = eDays x + n ∧ validYmd (addDays n x)
  | 0, x, h => ⟨rfl, h⟩
  | n + 1, x, h => by
    have h' := nextDay_valid x h
    have ih := addDays_spec n (nextDay x) h'
    refine ⟨?_, ih.2⟩
    show eDays (addDays n (nextDay x)) = eDays x + (n + 1)
    rw [ih.1, eDays_nextDay x h]
    omega

/-! ## `advancePastYear` and `addHoursToCalDate` (spec-modelled)

Both functions are called by background.js (and imported by the
repository's integration tests from utils.js), but their definitions are
not in the provided sources, so they are modelled from the specification. -/

def yearOfStr (s : String) : Option Nat :=
  match s.data with
  | a :: b :: c :: d :: _ =>
    if isDig a && isDig b && isDig c && isDig d then some (n4 a b c d) else none
  | _ => none

/-- Modelled from the spec: `advancePastYear` (missing from src/, called at
background.js lines 271-273).  "Given reference year Y and a normalized
date whose year < Y, the corrected date's year is the smallest year ≥ Y
such that month/day are unchanged; dates already ≥ the reference date are
left unchanged."  Since replacing the year keeps month and day, the
smallest such year is Y itself; a date on or after the reference year
passes through. -/
def advancePastYear (s : String) (refYear : Nat) : String :=
  match yearOfStr s with
  | some y =>
    if y < refYear then String.mk (pad4 refYear ++ s.data.drop 4) else s
  | none => s

def parseCompact (s : String) : Option (Ymd × Nat × List Char) :=
  match s.data with
  | y1 :: y2 :: y3 :: y4 :: mo1 :: mo2 :: d1 :: d2 :: 'T' :: h1 :: h2 :: tail =>
    if isDig y1 && isDig y2 && isDig y3 && isDig y4 && isDig mo1 && isDig mo2 &&
        isDig d1 && isDig d2 && isDig h1 && isDig h2 then
      some (⟨n4 y1 y2 y3 y4, n2 mo1 mo2, n2 d1 d2⟩, n2 h1 h2, tail)
    else none
  | _ => none

def formatCompact (x : Ymd) (hh : Nat) (tail : List Char) : String :=
  String.mk (pad4 x.y ++ pad2 x.m ++ pad2 x.d ++ 'T' :: (pad2 hh ++ tail))

/-- Modelled from the spec: `addHoursToCalDate` (missing from src/, called
at background.js line 298).  The spec requires the adjusted end date to be
"exactly 24 hours later than the pre-adjustment end date"; the model adds
whole hours to the HH component of a compact timestamp, carrying every
overflow of 24 into one calendar day on the proleptic Gregorian calendar,
and preserves the minute/second tail.  Unparseable strings are returned
unchanged. -/
def addHoursToCalDate (s : String) (h : Nat) : String :=
  match parseCompact s with
  | none => s
  | some (x, hh, tail) =>
    formatCompact (addDays ((hh + h) / 24) x) ((hh + h) % 24) tail

/-- The absolute hour count denoted by a compact timestamp (0 if unparseable). -/
def tsHours (s : String) : Nat :=
  match parseCompact s with
  | none => 0
  | some (x, hh, _) => eDays x * 24 + hh

/-- The minute/second tail of a compact timestamp ([] if unparseable). -/
def tsTail (s : String) : List Char :=
  match parseCompact s with
  | none => []
  | some (_, _, tail) => tail

theorem parse_format (x : Ymd) (hh : Nat) (tail : List Char) (hy : x.y < 10000)
    (hm : x.m < 100) (hd : x.d < 100) (hhh : hh < 100) :
    parseCompact (formatCompact x hh tail) = some (x, hh, tail) := by
  simp only [formatCompact, parseCompact, pad4, pad2, List.cons_append, List.nil_append]
  rw [if_pos]
  · rw [pad4_parse _ hy, pad2_parse _ hm, pad2_parse _ hd, pad2_parse _ hhh]
  · simp only [Bool.and_eq_true]
    refine ⟨⟨⟨⟨⟨⟨⟨⟨⟨?_, ?_⟩, ?_⟩, ?_⟩, ?_⟩, ?_⟩, ?_⟩, ?_⟩, ?_⟩, ?_⟩ <;>
      exact dg_isDig _ (by omega)

/-- C3: year-advancement.  For every date string with a 4-digit year and
every reference year Y < 10000: if the year is below Y, the corrected
date's year is the smallest year ≥ Y (namely Y) and everything after the
year — month, day and time — is unchanged; a date whose year is on or
after the reference year is returned unchanged.
(spec-modelled: `advancePastYear` is absent from the provided sources.) -/
theorem C3_advancePastYear (s : String) (y Y : Nat)
    (hy : yearOfStr s = some y) (hY : Y < 10000) :
    (y < Y → ∃ y', yearOfStr (advancePastYear s Y) = some y' ∧
      Y ≤ y' ∧ (∀ z, Y ≤ z → y' ≤ z) ∧
      (advancePastYear s Y).data.drop 4 = s.data.drop 4) ∧
    (Y ≤ y → advancePastYear s Y = s) := by
  constructor
  · intro hlt
    simp only [advancePastYear, hy, if_pos hlt]
    refine ⟨Y, ?_, le_refl Y, fun z hz => hz, ?_⟩
    · show yearOfStr (String.mk (pad4 Y ++ s.data.drop 4)) = some Y
      simp only [yearOfStr, pad4, List.cons_append]
      rw [if_pos]
      · congr 1
        exact pad4_parse Y hY
      · simp only [Bool.and_eq_true]
        refine ⟨⟨⟨?_, ?_⟩, ?_⟩, ?_⟩ <;> exact dg_isDig _ (by omega)
    · show (String.mk (pad4 Y ++ s.data.drop 4)).data.drop 4 = s.data.drop 4
      exact drop_app_len (pad4 Y) _ 4 0 (by simp [pad4])
  · intro hge
    simp only [advancePastYear, hy, if_neg (by omega : ¬y < Y)]

/-- Witness for C3: a 2024 date against reference year 2026 is advanced to
2026, month/day/time unchanged; a 2027 date is unchanged. -/
theorem C3_witness :
    (∃ y', yearOfStr (advancePastYear "20240310T150000" 2026) = some y' ∧
      2026 ≤ y' ∧ (∀ z, 2026 ≤ z → y' ≤ z) ∧
      (advancePastYear "20240310T150000" 2026).data.drop 4 =
        "20240310T150000".data.drop 4) ∧
    advancePastYear "20270310T150000" 2026 = "20270310T150000" :=
  ⟨(C3_advancePastYear "20240310T150000" 2024 2026 (by decide) (by decide)).1
      (by decide),
    (C3_advancePastYear "20270310T150000" 2027 2026 (by decide) (by decide)).2
      (by decide)⟩

/-- `addHoursToCalDate` applied to a field value (only strings are dates). -/
def addHoursField (f : JField) : JField :=
  match f with
  | .jstr s => .jstr (addHoursToCalDate s 24)
  | f => f

/-- Embedding of the all-day end-date adjustment of `handleCalendar`
(background.js lines 294-299): if the record is flagged all-day and has an
end date different from its start date, the end date is advanced by 24
hours. -/
def adjustAllDayEnd (r : JRec) : JRec :=
  if truthy r.forceAllDay && truthy r.endDate && !(r.endDate = r.startDate : Bool) then
    { r with endDate := addHoursField r.endDate }
  else r

theorem daysInMonth_lt100 (y m : Nat) : daysInMonth y m < 100 := by
  have := (daysInMonth_bounds y m).2
  omega

/-- C4: the all-day multi-day adjustment.  For every record with
`forceAllDay = true` and a present end date (a valid compact timestamp)
different from the start date, the post-processed end date denotes an
instant exactly 24 hours after the pre-adjustment end date (same
minute/second tail, hour count advanced by 24); a record whose end date
equals its start date is left unchanged.
(spec-modelled: `addHoursToCalDate` is absent from the provided sources.) -/
theorem C4_allDay_adjustment (r : JRec) :
    (∀ e x hh tail, r.forceAllDay = .jbool true → r.endDate = .jstr e →
      ¬r.endDate = r.startDate →
      parseCompact e = some (x, hh, tail) → validYmd x → hh < 24 → x.y < 9999 →
      ∃ e', (adjustAllDayEnd r).endDate = .jstr e' ∧
        tsHours e' = tsHours e + 24 ∧ tsTail e' = tsTail e) ∧
    (r.endDate = r.startDate → adjustAllDayEnd r = r) := by
  constructor
  · intro e x hh tail hf he hne hp hv hhh hy
    have hes : ¬e = "" := by
      intro h0
      rw [h0] at hp
      rw [show parseCompact "" = none from rfl] at hp
      exact Option.noConfusion hp
    have hcond : (truthy r.forceAllDay && truthy r.endDate &&
        !(r.endDate = r.startDate : Bool)) = true := by
      rw [hf, he]
      have hne' : ¬(JField.jstr e = r.startDate) := by rw [← he]; exact hne
      simp [truthy, hes, hne']
    have hstep : (adjustAllDayEnd r).endDate = .jstr (addHoursToCalDate e 24) := by
      unfold adjustAllDayEnd
      rw [if_pos hcond, he]
      rfl
    refine ⟨addHoursToCalDate e 24, hstep, ?_, ?_⟩
    all_goals
      have hq : (hh + 24) / 24 = 1 := by omega
      have hr : (hh + 24) % 24 = hh := by omega
      have hadd : addHoursToCalDate e 24 = formatCompact (nextDay x) hh tail := by
        simp only [addHoursToCalDate, hp, hq, hr]
        rfl
      have hv' : validYmd (nextDay x) := nextDay_valid x hv
      have hy' : (nextDay x).y < 10000 := by
        have := nextDay_year x
        omega
      have hpf : parseCompact (formatCompact (nextDay x) hh tail) =
          some (nextDay x, hh, tail) :=
        parse_format _ _ _ hy' (by obtain ⟨_, h2, _, _⟩ := hv'; omega)
          (by
            obtain ⟨_, _, _, h4⟩ := hv'
            have := daysInMonth_lt100 (nextDay x).y (nextDay x).m
            omega)
          (by omega)
    · rw [hadd]
      simp only [tsHours, hpf, hp]
      rw [eDays_nextDay x hv]
      ring
    · rw [hadd]
      simp only [tsTail, hpf, hp]
  · intro heq
    unfold adjustAllDayEnd
    rw [if_neg]
    simp [heq]

/-- Witness for C4 at a concrete all-day multi-day record (year-end
rollover: Dec 31 plus 24 hours is Jan 1 of the next year). -/
theorem C4_witness :
    ∃ e', (adjustAllDayEnd
        { forceAllDay := .jbool true
          startDate := .jstr "00121230T000000"
          endDate := .jstr "00121231T230000" }).endDate = .jstr e' ∧
      tsHours e' = tsHours "00121231T230000" + 24 ∧
      tsTail e' = tsTail "00121231T230000" :=
  (C4_allDay_adjustment _).1 "00121231T230000" ⟨12, 12, 31⟩ 23 "0000".data
    (by decide) (by decide) (by decide) (by decide) (by decide) (by decide) (by decide)

/-! ## Embedding of `extractJSON` (utils.js lines 66-86)

The source first strips a leading Markdown fence — the first line-start
occurrence of three backticks, an optional case-insensitive `json` tag and
following whitespace — then a trailing fence (leading whitespace, three
backticks, whitespace up to a line end), then trims; it then scans from the
first `{` tracking brace depth and returns the slice up to the brace that
returns the depth to zero.  Failure modes: no `{` at all, or no closing
brace at depth zero. -/

/-- The optional case-insensitive `json` language tag after the three
backticks: 4 consumed characters when present, 0 otherwise. -/
def tagLen (rest : List Char) : Nat :=
  match rest with
  | a :: b :: c :: d :: _ =>
    if a.toLower = 'j' ∧ b.toLower = 's' ∧ c.toLower = 'o' ∧ d.toLower = 'n' then 4 else 0
  | _ => 0

/-- Length of a leading-fence match starting at this position: three
backticks, the optional `json` tag, then greedy whitespace. -/
def matchALen (cs : List Char) : Option Nat :=
  match cs with
  | c1 :: c2 :: c3 :: rest =>
    if c1 = btick ∧ c2 = btick ∧ c3 = btick then
      some (3 + tagLen rest + ((rest.drop (tagLen rest)).takeWhile isWS).length)
    else none
  | _ => none

/-- The leading-fence replace: delete the first line-start match (the `m`
flag makes the anchor match at position 0 and after every newline). -/
def goA : List Char → Bool → List Char
  | [], _ => []
  | c :: cs, atStart =>
    if atStart then
      match matchALen (c :: cs) with
      | some k => (c :: cs).drop k
      | none => c :: goA cs (c = '\n')
    else c :: goA cs (c = '\n')

/-- Index of the last newline of a list, if any. -/
def lastNLpos : List Char → Option Nat
  | [] => none
  | c :: cs =>
    match lastNLpos cs with
    | some q => some (q + 1)
    | none => if c = '\n' then some 0 else none

/-- Length of a trailing-fence match starting at this position: greedy
whitespace, three backticks, then whitespace up to the end of the string or
(backtracking to) the last newline of that whitespace run, where the
multiline end anchor matches. -/
def matchBLen (cs : List Char) : Option Nat :=
  let w := (cs.takeWhile isWS).length
  match cs.drop w with
  | c1 :: c2 :: c3 :: r2 =>
    if c1 = btick ∧ c2 = btick ∧ c3 = btick then
      let w2 := (r2.takeWhile isWS).length
      if r2.drop w2 = [] then some (w + (3 + w2))
      else
        match lastNLpos (r2.take w2) with
        | some q => some (w + (3 + q))
        | none => none
    else none
  | _ => none

/-- The trailing-fence replace: delete the leftmost match. -/
def goB : List Char → List Char
  | [] => []
  | c :: cs =>
    match matchBLen (c :: cs) with
    | some k => (c :: cs).drop k
    | none => c :: goB cs

/-- `.trim()` (ASCII whitespace model). -/
def jsTrim (cs : List Char) : List Char :=
  ((cs.dropWhile isWS).reverse.dropWhile isWS).reverse

/-- The two failure modes of `extractJSON`: "No JSON object found in model
output" and "Unclosed JSON object in model output". -/
inductive JErr where
  | noJson
  | unclosed
deriving DecidableEq

/-- The depth scan of `extractJSON`, started at the first opening brace
with depth 0; the accumulator collects the slice. -/
def jsonSpan : List Char → Int → List Char → Option (List Char)
  | [], _, _ => none
  | c :: rest, depth, acc =>
    if c = '{' then jsonSpan rest (depth + 1) (acc ++ [c])
    else if c = '}' then
      if depth - 1 = 0 then some (acc ++ [c])
      else jsonSpan rest (depth - 1) (acc ++ [c])
    else jsonSpan rest depth (acc ++ [c])

def extractCore (cs : List Char) : Except JErr (List Char) :=
  let fenced := jsTrim (goB (goA cs true))
  if fenced.any (fun c => c = '{') then
    match jsonSpan (fenced.dropWhile (fun c => !(c = '{' : Bool))) 0 [] with
    | some span => .ok span
    | none => .error .unclosed
  else .error .noJson

def extractJSON (s : String) : Except JErr String :=
  (extractCore s.data).map String.mk

example : extractCore ('x' :: ' ' :: '{' :: '"' :: 'a' :: '"' :: ':' :: '1' :: '}' :: 'y' :: []) =
    .ok ('{' :: '"' :: 'a' :: '"' :: ':' :: '1' :: '}' :: []) := rfl

/-! ### Membership and brace-preservation lemmas for the fence strips -/

theorem mem_of_mem_drop {c : Char} {l : List Char} {k : Nat}
    (h : c ∈ l.drop k) : c ∈ l := by
  rw [← List.take_append_drop k l]
  exact List.mem_append_right _ h

theorem mem_of_mem_take {c : Char} {l : List Char} {k : Nat}
    (h : c ∈ l.take k) : c ∈ l := by
  rw [← List.take_append_drop k l]
  exact List.mem_append_left _ h

theorem mem_goA {c : Char} : ∀ (cs : List Char) (b : Bool), c ∈ goA cs b → c ∈ cs
  | [], b, h => by simp [goA] at h
  | a :: cs, b, h => by
    unfold goA at h
    split_ifs at h with hb
    · rcases hm : matchALen (a :: cs) with _ | k
      · rw [hm] at h
        rcases List.mem_cons.1 h with rfl | h
        · exact List.mem_cons_self _ _
        · exact List.mem_cons_of_mem _ (mem_goA cs _ h)
      · rw [hm] at h
        exact mem_of_mem_drop h
    · rcases List.mem_cons.1 h with rfl | h
      · exact List.mem_cons_self _ _
      · exact List.mem_cons_of_mem _ (mem_goA cs _ h)

theorem mem_goB {c : Char} : ∀ (cs : List Char), c ∈ goB cs → c ∈ cs
  | [], h => by simp [goB] at h
  | a :: cs, h => by
    unfold goB at h
    rcases hm : matchBLen (a :: cs) with _ | k
    · rw [hm] at h
      rcases List.mem_cons.1 h with rfl | h
      · exact List.mem_cons_self _ _
      · exact List.mem_cons_of_mem _ (mem_goB cs h)
    · rw [hm] at h
      exact mem_of_mem_drop h

theorem mem_dropWhile {c : Char} {p : Char → Bool} :
    ∀ (l : List Char), c ∈ l.dropWhile p → c ∈ l
  | [], h => h
  | a :: l, h => by
    rw [List.dropWhile_cons] at h
    split_ifs at h
    · exact List.mem_cons_of_mem _ (mem_dropWhile l h)
    · exact h

theorem mem_jsTrim {c : Char} (cs : List Char) (h : c ∈ jsTrim cs) : c ∈ cs := by
  unfold jsTrim at h
  rw [List.mem_reverse] at h
  have h2 := mem_dropWhile _ h
  rw [List.mem_reverse] at h2
  exact mem_dropWhile _ h2

theorem isWS_ne {c : Char} (h : isWS c = true) : c ≠ '{' ∧ c ≠ '}' ∧ c ≠ btick ∧ c ≠ '"' := by
  refine ⟨?_, ?_, ?_, ?_⟩ <;> rintro rfl <;> revert h <;> decide

theorem mem_takeWhile_ws {c : Char} :
    ∀ (l : List Char), c ∈ l.takeWhile isWS → isWS c = true
  | [], h => by simp at h
  | a :: l, h => by
    rw [List.takeWhile_cons] at h
    split_ifs at h with ha
    · rcases List.mem_cons.1 h with rfl | h
      · exact ha
      · exact mem_takeWhile_ws l h
    · simp at h

theorem take_takeWhile_len (p : Char → Bool) :
    ∀ (l : List Char), l.take (l.takeWhile p).length = l.takeWhile p
  | [] => rfl
  | a :: l => by
    rw [List.takeWhile_cons]
    split_ifs with ha
    · simp [take_takeWhile_len p l]
    · simp

theorem take_app_add {α : Type} (xs ys : List α) (n m : Nat) (h : xs.length = n) :
    (xs ++ ys).take (n + m) = xs ++ ys.take m := by
  subst h
  induction xs with
  | nil => simp
  | cons a l ih => simpa [Nat.succ_add] using ih

theorem tagLen_le (rest : List Char) : tagLen rest ≤ rest.length := by
  unfold tagLen
  split
  · split_ifs <;> simp <;> omega
  · omega

theorem tag_no_brace (rest : List Char) : '{' ∉ rest.take (tagLen rest) := by
  unfold tagLen
  split
  · next a b c d r =>
    split_ifs with hj
    · show '{' ∉ [a, b, c, d]
      intro hmem
      simp only [List.mem_cons, List.not_mem_nil, or_false] at hmem
      obtain ⟨h1, h2, h3, h4⟩ := hj
      rcases hmem with rfl | rfl | rfl | rfl
      · revert h1; decide
      · revert h2; decide
      · revert h3; decide
      · revert h4; decide
    · simp
  · simp

theorem take_split_at (l : List Char) (t m : Nat) (ht : t ≤ l.length) :
    l.take (t + m) = l.take t ++ (l.drop t).take m := by
  conv_lhs => rw [← List.take_append_drop t l]
  rw [take_app_add (l.take t) (l.drop t) t m (by simp [List.length_take]; omega)]

theorem matchA_no_brace (cs : List Char) (k : Nat) (h : matchALen cs = some k) :
    '{' ∉ cs.take k := by
  unfold matchALen at h
  split at h
  · next c1 c2 c3 rest =>
    split_ifs at h with hb
    injection h with hk
    subst hk
    obtain ⟨hb1, hb2, hb3⟩ := hb
    subst hb1; subst hb2; subst hb3
    intro hmem
    rw [show 3 + tagLen rest + ((rest.drop (tagLen rest)).takeWhile isWS).length =
        3 + (tagLen rest + ((rest.drop (tagLen rest)).takeWhile isWS).length) by omega] at hmem
    have hmem2 : '{' ∈ ([btick, btick, btick] ++ rest).take
        (3 + (tagLen rest + ((rest.drop (tagLen rest)).takeWhile isWS).length)) := hmem
    rw [take_app_add [btick, btick, btick] rest 3 _ rfl] at hmem2
    rcases List.mem_append.1 hmem2 with h3 | hrest
    · revert h3; decide
    · rw [take_split_at rest (tagLen rest) _ (tagLen_le rest)] at hrest
      rcases List.mem_append.1 hrest with htag | hws
      · exact tag_no_brace rest htag
      · rw [take_takeWhile_len] at hws
        exact (isWS_ne (mem_takeWhile_ws _ hws)).1 rfl
  · exact absurd h (by simp)

theorem lastNLpos_lt : ∀ (l : List Char) (q : Nat), lastNLpos l = some q → q < l.length
  | [], q, h => by simp [lastNLpos] at h
  | c :: l, q, h => by
    unfold lastNLpos at h
    rcases hm : lastNLpos l with _ | u
    · rw [hm] at h
      split_ifs at h
      · injection h with h
        subst h
        simp
    · rw [hm] at h
      injection h with h
      subst h
      have := lastNLpos_lt l u hm
      simp
      omega

theorem take_app_le {α : Type} (xs ys : List α) (n : Nat) (h : n ≤ xs.length) :
    (xs ++ ys).take n = xs.take n := by
  induction xs generalizing n with
  | nil =>
    simp only [List.length_nil, Nat.le_zero] at h
    simp [h]
  | cons a l ih =>
    cases n with
    | zero => simp
    | succ m => simp [ih m (by simpa using h)]

theorem matchB_core (cs r2 : List Char) (q : Nat)
    (hq : q ≤ (r2.takeWhile isWS).length) :
    '{' ∉ (cs.takeWhile isWS ++ (btick :: btick :: btick :: r2)).take
      ((cs.takeWhile isWS).length + (3 + q)) := by
  intro hmem
  rw [take_app_add (cs.takeWhile isWS) _ (cs.takeWhile isWS).length (3 + q) rfl] at hmem
  rcases List.mem_append.1 hmem with hws | hrest
  · exact (isWS_ne (mem_takeWhile_ws _ hws)).1 rfl
  · have hrest2 : '{' ∈ ([btick, btick, btick] ++ r2).take (3 + q) := hrest
    rw [take_app_add [btick, btick, btick] r2 3 q rfl] at hrest2
    rcases List.mem_append.1 hrest2 with h3 | hq2
    · revert h3; decide
    · have hqe : r2.take q = (r2.takeWhile isWS).take q := by
        conv_lhs => rw [← List.takeWhile_append_dropWhile isWS r2]
        rw [take_app_le _ _ q hq]
      rw [hqe] at hq2
      exact (isWS_ne (mem_takeWhile_ws _ (mem_of_mem_take hq2))).1 rfl

theorem matchB_no_brace (cs : List Char) (k : Nat) (h : matchBLen cs = some k) :
    '{' ∉ cs.take k := by
  simp only [matchBLen] at h
  split at h
  · next c1 c2 c3 r2 heq =>
    split_ifs at h with hb hend
    · -- match ends at the end of the string
      obtain ⟨hb1, hb2, hb3⟩ := hb
      subst hb1; subst hb2; subst hb3
      injection h with hk
      have hcs : cs = cs.takeWhile isWS ++ (btick :: btick :: btick :: r2) := by
        conv_lhs => rw [← List.take_append_drop (cs.takeWhile isWS).length cs]
        rw [take_takeWhile_len, heq]
      intro hmem
      rw [hcs, ← hk] at hmem
      exact matchB_core cs r2 (r2.takeWhile isWS).length (le_refl _) hmem
    · -- match ends at the last newline of the trailing whitespace run
      obtain ⟨hb1, hb2, hb3⟩ := hb
      subst hb1; subst hb2; subst hb3
      split at h
      · next q hq =>
        injection h with hk
        have hcs : cs = cs.takeWhile isWS ++ (btick :: btick :: btick :: r2) := by
          conv_lhs => rw [← List.take_append_drop (cs.takeWhile isWS).length cs]
          rw [take_takeWhile_len, heq]
        intro hmem
        rw [hcs, ← hk] at hmem
        have hqlt := lastNLpos_lt _ q hq
        refine matchB_core cs r2 q ?_ hmem
        simp only [List.length_take] at hqlt
        omega
      · exact absurd h (by simp)
  · exact absurd h (by simp)

theorem brace_goA : ∀ (cs : List Char) (b : Bool), '{' ∈ cs → '{' ∈ goA cs b
  | [], b, h => by simp at h
  | a :: cs, b, h => by
    unfold goA
    split_ifs with hb
    · rcases hm : matchALen (a :: cs) with _ | k
      · rcases List.mem_cons.1 h with hh | hh
        · rw [hh]; exact List.mem_cons_self _ _
        · exact List.mem_cons_of_mem _ (brace_goA cs _ hh)
      · have hnb := matchA_no_brace (a :: cs) k hm
        have := List.take_append_drop k (a :: cs)
        rcases List.mem_append.1 (this ▸ h) with hl | hr
        · exact absurd hl hnb
        · exact hr
    · rcases List.mem_cons.1 h with hh | hh
      · rw [hh]; exact List.mem_cons_self _ _
      · exact List.mem_cons_of_mem _ (brace_goA cs _ hh)

theorem brace_goB : ∀ (cs : List Char), '{' ∈ cs → '{' ∈ goB cs
  | [], h => by simp at h
  | a :: cs, h => by
    unfold goB
    rcases hm : matchBLen (a :: cs) with _ | k
    · rcases List.mem_cons.1 h with hh | hh
      · rw [hh]; exact List.mem_cons_self _ _
      · exact List.mem_cons_of_mem _ (brace_goB cs hh)
    · have hnb := matchB_no_brace (a :: cs) k hm
      have := List.take_append_drop k (a :: cs)
      rcases List.mem_append.1 (this ▸ h) with hl | hr
      · exact absurd hl hnb
      · exact hr

theorem brace_dropWhile_ws : ∀ (l : List Char), '{' ∈ l → '{' ∈ l.dropWhile isWS
  | [], h => by simp at h
  | a :: l, h => by
    rw [List.dropWhile_cons]
    split_ifs with ha
    · rcases List.mem_cons.1 h with hh | hh
      · rw [← hh] at ha
        exact absurd rfl (isWS_ne ha).1
      · exact brace_dropWhile_ws l hh
    · exact h

theorem brace_jsTrim (cs : List Char) (h : '{' ∈ cs) : '{' ∈ jsTrim cs := by
  unfold jsTrim
  rw [List.mem_reverse]
  apply brace_dropWhile_ws
  rw [List.mem_reverse]
  exact brace_dropWhile_ws cs h

theorem jsonSpan_none : ∀ (cs : List Char) (d : Int) (acc : List Char),
    '}' ∉ cs → jsonSpan cs d acc = none
  | [], d, acc, h => rfl
  | c :: cs, d, acc, h => by
    have hc : ¬c = '}' := fun hh => h (hh ▸ List.mem_cons_self _ _)
    have hcs : '}' ∉ cs := fun hh => h (List.mem_cons_of_mem _ hh)
    unfold jsonSpan
    by_cases h1 : c = '{'
    · rw [if_pos h1]
      exact jsonSpan_none cs _ _ hcs
    · rw [if_neg h1, if_neg hc]
      exact jsonSpan_none cs _ _ hcs

/-! ### Brace balance, and the depth scan on a never-closing tail

`bal` counts opening minus closing braces; the scan started at the first
opening brace returns `none` exactly when no later closing brace sees the
depth return to zero. -/

def balC (c : Char) : Int := if c = '{' then 1 else if c = '}' then -1 else 0

def bal : List Char → Int
  | [] => 0
  | c :: cs => balC c + bal cs

theorem bal_append : ∀ (xs ys : List Char), bal (xs ++ ys) = bal xs + bal ys
  | [], ys => by simp [bal]
  | c :: xs, ys => by
    show balC c + bal (xs ++ ys) = balC c + bal xs + bal ys
    rw [bal_append xs ys]
    ring

theorem jsonSpan_none_of : ∀ (cs : List Char) (d : Int) (acc : List Char),
    (∀ p q : List Char, cs = p ++ '}' :: q → ¬d + bal p = 1) →
    jsonSpan cs d acc = none
  | [], _, _, _ => rfl
  | c :: cs, d, acc, h => by
    unfold jsonSpan
    by_cases h1 : c = '{'
    · rw [if_pos h1]
      apply jsonSpan_none_of cs _ _
      intro p q hpq hc
      apply h (c :: p) q (by rw [hpq, List.cons_append])
      show d + bal (c :: p) = 1
      have hb : balC c = 1 := by rw [h1]; decide
      show d + (balC c + bal p) = 1
      rw [hb]
      omega
    · by_cases h2 : c = '}'
      · rw [if_neg h1, if_pos h2]
        have hd : ¬d + (0 : Int) = 1 := h [] cs (by rw [h2, List.nil_append])
        rw [if_neg (show ¬d - 1 = 0 by omega)]
        apply jsonSpan_none_of cs _ _
        intro p q hpq hc
        apply h (c :: p) q (by rw [hpq, List.cons_append])
        show d + bal (c :: p) = 1
        have hb : balC c = -1 := by rw [h2]; decide
        show d + (balC c + bal p) = 1
        rw [hb]
        omega
      · rw [if_neg h1, if_neg h2]
        apply jsonSpan_none_of cs _ _
        intro p q hpq hc
        apply h (c :: p) q (by rw [hpq, List.cons_append])
        show d + bal (c :: p) = 1
        have hb : balC c = 0 := by
          unfold balC
          rw [if_neg h1, if_neg h2]
        show d + (balC c + bal p) = 1
        rw [hb]
        omega

/-! #### The deleted fence chunks contain no closing brace either -/

theorem tag_no_brace2 (rest : List Char) : '}' ∉ rest.take (tagLen rest) := by
  unfold tagLen
  split
  · next a b c d r =>
    split_ifs with hj
    · show '}' ∉ [a, b, c, d]
      intro hmem
      simp only [List.mem_cons, List.not_mem_nil, or_false] at hmem
      obtain ⟨h1, h2, h3, h4⟩ := hj
      rcases hmem with rfl | rfl | rfl | rfl
      · revert h1; decide
      · revert h2; decide
      · revert h3; decide
      · revert h4; decide
    · simp
  · simp

theorem matchA_no_brace2 (cs : List Char) (k : Nat) (h : matchALen cs = some k) :
    '}' ∉ cs.take k := by
  unfold matchALen at h
  split at h
  · next c1 c2 c3 rest =>
    split_ifs at h with hb
    injection h with hk
    subst hk
    obtain ⟨hb1, hb2, hb3⟩ := hb
    subst hb1; subst hb2; subst hb3
    intro hmem
    rw [show 3 + tagLen rest + ((rest.drop (tagLen rest)).takeWhile isWS).length =
        3 + (tagLen rest + ((rest.drop (tagLen rest)).takeWhile isWS).length) by omega] at hmem
    have hmem2 : '}' ∈ ([btick, btick, btick] ++ rest).take
        (3 + (tagLen rest + ((rest.drop (tagLen rest)).takeWhile isWS).length)) := hmem
    rw [take_app_add [btick, btick, btick] rest 3 _ rfl] at hmem2
    rcases List.mem_append.1 hmem2 with h3 | hrest
    · revert h3; decide
    · rw [take_split_at rest (tagLen rest) _ (tagLen_le rest)] at hrest
      rcases List.mem_append.1 hrest with htag | hws
      · exact tag_no_brace2 rest htag
      · rw [take_takeWhile_len] at hws
        exact (isWS_ne (mem_takeWhile_ws _ hws)).2.1 rfl
  · exact absurd h (by simp)

theorem matchB_core2 (cs r2 : List Char) (q : Nat)
    (hq : q ≤ (r2.takeWhile isWS).length) :
    '}' ∉ (cs.takeWhile isWS ++ (btick :: btick :: btick :: r2)).take
      ((cs.takeWhile isWS).length + (3 + q)) := by
  intro hmem
  rw [take_app_add (cs.takeWhile isWS) _ (cs.takeWhile isWS).length (3 + q) rfl] at hmem
  rcases List.mem_append.1 hmem with hws | hrest
  · exact (isWS_ne (mem_takeWhile_ws _ hws)).2.1 rfl
  · have hrest2 : '}' ∈ ([btick, btick, btick] ++ r2).take (3 + q) := hrest
    rw [take_app_add [btick, btick, btick] r2 3 q rfl] at hrest2
    rcases List.mem_append.1 hrest2 with h3 | hq2
    · revert h3; decide
    · have hqe : r2.take q = (r2.takeWhile isWS).take q := by
        conv_lhs => rw [← List.takeWhile_append_dropWhile isWS r2]
        rw [take_app_le _ _ q hq]
      rw [hqe] at hq2
      exact (isWS_ne (mem_takeWhile_ws _ (mem_of_mem_take hq2))).2.1 rfl

theorem matchB_no_brace2 (cs : List Char) (k : Nat) (h : matchBLen cs = some k) :
    '}' ∉ cs.take k := by
  simp only [matchBLen] at h
  split at h
  · next c1 c2 c3 r2 heq =>
    split_ifs at h with hb hend
    · obtain ⟨hb1, hb2, hb3⟩ := hb
      subst hb1; subst hb2; subst hb3
      injection h with hk
      have hcs : cs = cs.takeWhile isWS ++ (btick :: btick :: btick :: r2) := by
        conv_lhs => rw [← List.take_append_drop (cs.takeWhile isWS).length cs]
        rw [take_takeWhile_len, heq]
      intro hmem
      rw [hcs, ← hk] at hmem
      exact matchB_core2 cs r2 (r2.takeWhile isWS).length (le_refl _) hmem
    · obtain ⟨hb1, hb2, hb3⟩ := hb
      subst hb1; subst hb2; subst hb3
      split at h
      · next q hq =>
        injection h with hk
        have hcs : cs = cs.takeWhile isWS ++ (btick :: btick :: btick :: r2) := by
          conv_lhs => rw [← List.take_append_drop (cs.takeWhile isWS).length cs]
          rw [take_takeWhile_len, heq]
        intro hmem
        rw [hcs, ← hk] at hmem
        have hqlt := lastNLpos_lt _ q hq
        refine matchB_core2 cs r2 q ?_ hmem
        simp only [List.length_take] at hqlt
        omega
      · exact absurd h (by simp)
  · exact absurd h (by simp)

/-! #### The brace subsequence is preserved by the whole fence/trim
pipeline -/

/-- The subsequence of brace characters of a list. -/
def braces : List Char → List Char
  | [] => []
  | c :: r => if c = '{' ∨ c = '}' then c :: braces r else braces r

theorem braces_cons (c : Char) (r : List Char) :
    braces (c :: r) = if c = '{' ∨ c = '}' then c :: braces r else braces r := rfl

theorem braces_append : ∀ (xs ys : List Char),
    braces (xs ++ ys) = braces xs ++ braces ys
  | [], _ => rfl
  | c :: xs, ys => by
    rw [List.cons_append, braces_cons, braces_cons]
    split_ifs with h
    · rw [braces_append xs ys, List.cons_append]
    · exact braces_append xs ys

theorem bal_braces : ∀ (l : List Char), bal (braces l) = bal l
  | [] => rfl
  | c :: l => by
    rw [braces_cons]
    split_ifs with h
    · show balC c + bal (braces l) = balC c + bal l
      rw [bal_braces l]
    · show bal (braces l) = balC c + bal l
      have h0 : balC c = 0 := by
        unfold balC
        rw [if_neg (fun h1 => h (Or.inl h1)), if_neg (fun h2 => h (Or.inr h2))]
      rw [bal_braces l, h0]
      ring

theorem braces_sub {c : Char} : ∀ (l : List Char), c ∈ braces l → c ∈ l
  | [], h => h
  | a :: l, h => by
    rw [braces_cons] at h
    split_ifs at h with ha
    · rcases List.mem_cons.1 h with rfl | h
      · exact List.mem_cons_self _ _
      · exact List.mem_cons_of_mem _ (braces_sub l h)
    · exact List.mem_cons_of_mem _ (braces_sub l h)

theorem braces_nil_of : ∀ (l : List Char), (∀ c ∈ l, ¬c = '{' ∧ ¬c = '}') →
    braces l = []
  | [], _ => rfl
  | a :: l, h => by
    rw [braces_cons, if_neg]
    · exact braces_nil_of l (fun c hc => h c (List.mem_cons_of_mem _ hc))
    · intro hor
      rcases hor with h1 | h2
      · exact (h a (List.mem_cons_self _ _)).1 h1
      · exact (h a (List.mem_cons_self _ _)).2 h2

theorem braces_goA : ∀ (cs : List Char) (b : Bool), braces (goA cs b) = braces cs
  | [], _ => rfl
  | c :: cs, b => by
    cases b with
    | false =>
      have hstep : goA (c :: cs) false = c :: goA cs (c = '\n') := rfl
      rw [hstep, braces_cons, braces_cons]
      split_ifs with h
      · rw [braces_goA cs]
      · exact braces_goA cs _
    | true =>
      rcases hm : matchALen (c :: cs) with _ | k
      · have hstep : goA (c :: cs) true =
            (match matchALen (c :: cs) with
             | some k => (c :: cs).drop k
             | none => c :: goA cs (c = '\n')) := rfl
        rw [hstep, hm, braces_cons, braces_cons]
        split_ifs with h
        · rw [braces_goA cs]
        · exact braces_goA cs _
      · have hstep : goA (c :: cs) true =
            (match matchALen (c :: cs) with
             | some k => (c :: cs).drop k
             | none => c :: goA cs (c = '\n')) := rfl
        rw [hstep, hm]
        have hnb : braces ((c :: cs).take k) = [] :=
          braces_nil_of _ (fun x hx =>
            ⟨fun h1 => matchA_no_brace _ k hm (h1 ▸ hx),
             fun h2 => matchA_no_brace2 _ k hm (h2 ▸ hx)⟩)
        conv_rhs => rw [← List.take_append_drop k (c :: cs)]
        rw [braces_append, hnb, List.nil_append]

theorem braces_goB : ∀ (cs : List Char), braces (goB cs) = braces cs
  | [] => rfl
  | c :: cs => by
    rcases hm : matchBLen (c :: cs) with _ | k
    · have hstep : goB (c :: cs) =
          (match matchBLen (c :: cs) with
           | some k => (c :: cs).drop k
           | none => c :: goB cs) := rfl
      rw [hstep, hm, braces_cons, braces_cons]
      split_ifs with h
      · rw [braces_goB cs]
      · exact braces_goB cs
    · have hstep : goB (c :: cs) =
          (match matchBLen (c :: cs) with
           | some k => (c :: cs).drop k
           | none => c :: goB cs) := rfl
      rw [hstep, hm]
      have hnb : braces ((c :: cs).take k) = [] :=
        braces_nil_of _ (fun x hx =>
          ⟨fun h1 => matchB_no_brace _ k hm (h1 ▸ hx),
           fun h2 => matchB_no_brace2 _ k hm (h2 ▸ hx)⟩)
      conv_rhs => rw [← List.take_append_drop k (c :: cs)]
      rw [braces_append, hnb, List.nil_append]

theorem braces_dropWhile_ws : ∀ (l : List Char),
    braces (l.dropWhile isWS) = braces l
  | [] => rfl
  | a :: l => by
    rw [List.dropWhile_cons]
    split_ifs with ha
    · rw [braces_dropWhile_ws l, braces_cons, if_neg]
      intro hor
      rcases hor with h1 | h2
      · exact (isWS_ne ha).1 h1
      · exact (isWS_ne ha).2.1 h2
    · rfl

theorem braces_reverse : ∀ (l : List Char), braces l.reverse = (braces l).reverse
  | [] => rfl
  | a :: l => by
    rw [List.reverse_cons, braces_append, braces_reverse l]
    by_cases h : a = '{' ∨ a = '}'
    · rw [show braces (a :: l) = a :: braces l from by rw [braces_cons, if_pos h],
        show braces [a] = [a] from by rw [braces_cons, if_pos h]; try rfl,
        List.reverse_cons]
    · rw [show braces (a :: l) = braces l from by rw [braces_cons, if_neg h],
        show braces [a] = ([] : List Char) from by rw [braces_cons, if_neg h]; try rfl,
        List.append_nil]

theorem braces_jsTrim (l : List Char) : braces (jsTrim l) = braces l := by
  unfold jsTrim
  rw [braces_reverse, braces_dropWhile_ws, braces_reverse, List.reverse_reverse,
    braces_dropWhile_ws]

/-- Any decomposition of the brace subsequence at a closing brace lifts to
a decomposition of the original list. -/
theorem braces_split : ∀ (y A B : List Char), braces y = A ++ '}' :: B →
    ∃ p q, y = p ++ '}' :: q ∧ braces p = A ∧ braces q = B
  | [], A, B, h => by
    rw [show braces [] = [] from rfl] at h
    exact absurd h (by simp)
  | c :: y, A, B, h => by
    rw [braces_cons] at h
    split_ifs at h with hc
    · rcases A with _ | ⟨a, A2⟩
      · injection h with h1 h2
        exact ⟨[], y, by rw [h1, List.nil_append], rfl, h2⟩
      · injection h with h1 h2
        obtain ⟨p, q, hy, hp, hq⟩ := braces_split y A2 B h2
        refine ⟨c :: p, q, by rw [hy, List.cons_append], ?_, hq⟩
        rw [braces_cons, if_pos hc, hp, h1]
    · obtain ⟨p, q, hy, hp, hq⟩ := braces_split y A B h
      refine ⟨c :: p, q, by rw [hy, List.cons_append], ?_, hq⟩
      rw [braces_cons, if_neg hc, hp]

/-- The never-closes condition depends only on the brace subsequence. -/
theorem closes_transfer (x y : List Char) (hbr : braces x = braces y)
    (hy : ∀ p q, y = p ++ '}' :: q → ¬bal p = 0) :
    ∀ p q, x = p ++ '}' :: q → ¬bal p = 0 := by
  intro p q hx hbal
  have hcons : braces ('}' :: q) = '}' :: braces q := by
    rw [braces_cons, if_pos (Or.inr rfl)]
  have h1 : braces y = braces p ++ '}' :: braces q := by
    rw [← hbr, hx, braces_append, hcons]
  obtain ⟨p2, q2, hy2, hp2, hq2⟩ := braces_split y (braces p) (braces q) h1
  apply hy p2 q2 hy2
  rw [← bal_braces p2, hp2, bal_braces]
  exact hbal

/-- Two decompositions at the first opening brace coincide. -/
theorem first_brace_align : ∀ (a c b d : List Char), '{' ∉ a → '{' ∉ c →
    a ++ '{' :: b = c ++ '{' :: d → b = d
  | [], [], b, d, _, _, h => by
    injection h with _ h2
    try exact h2
  | [], x :: c2, b, d, _, hc, h => by
    injection h with h1 _
    exact absurd (show '{' ∈ x :: c2 from by rw [← h1]; exact List.mem_cons_self _ _) hc
  | y :: a2, c, b, d, ha, hc, h => by
    rcases c with _ | ⟨x, c2⟩
    · injection h with h1 _
      exact absurd (show '{' ∈ y :: a2 from by rw [h1]; exact List.mem_cons_self _ _) ha
    · injection h with h1 h2
      subst h1
      exact first_brace_align a2 c2 b d (fun hm => ha (List.mem_cons_of_mem _ hm))
        (fun hm => hc (List.mem_cons_of_mem _ hm)) h2

theorem mem_takeWhile_pred {p : Char → Bool} {c : Char} :
    ∀ (l : List Char), c ∈ l.takeWhile p → p c = true
  | [], h => by simp at h
  | a :: l, h => by
    rw [List.takeWhile_cons] at h
    split_ifs at h with ha
    · rcases List.mem_cons.1 h with rfl | h
      · exact ha
      · exact mem_takeWhile_pred l h
    · simp at h

theorem dropWhile_head_false2 {p : Char → Bool} :
    ∀ (l : List Char) (c : Char) (t : List Char),
      l.dropWhile p = c :: t → p c = false
  | [], c, t, h => by simp at h
  | a :: l, c, t, h => by
    rw [List.dropWhile_cons] at h
    split_ifs at h with ha
    · exact dropWhile_head_false2 l c t h
    · injection h with h1 _
      rw [← h1]
      simpa using ha

/-- If the first `{` of the scanned text is never closed at depth zero, the
extraction fails with the unclosed-object error. -/
theorem extract_unclosed_core (cs u w : List Char) (hu : '{' ∉ u)
    (hbrF : braces (jsTrim (goB (goA cs true))) = braces u ++ '{' :: braces w)
    (hmem : '{' ∈ jsTrim (goB (goA cs true)))
    (hw : ∀ p q, w = p ++ '}' :: q → ¬bal p = 0) :
    extractCore cs = .error .unclosed := by
  unfold extractCore
  have hany : (jsTrim (goB (goA cs true))).any (fun c => (c = '{' : Bool)) = true := by
    rw [List.any_eq_true]
    exact ⟨'{', hmem, by decide⟩
  rw [if_pos hany]
  rcases hR : (jsTrim (goB (goA cs true))).dropWhile (fun c => !(c = '{' : Bool))
    with _ | ⟨r0, w2⟩
  · exfalso
    have hTW := List.takeWhile_append_dropWhile (fun c => !(c = '{' : Bool))
      (jsTrim (goB (goA cs true)))
    rw [hR, List.append_nil] at hTW
    have hmem2 : '{' ∈ (jsTrim (goB (goA cs true))).takeWhile
        (fun c => !(c = '{' : Bool)) := by
      rw [hTW]
      exact hmem
    exact absurd (mem_takeWhile_pred _ hmem2) (by decide)
  · have hr0 : r0 = '{' := by
      have h0 := dropWhile_head_false2 _ _ _ hR
      simpa using h0
    subst hr0
    have hsplit : jsTrim (goB (goA cs true)) =
        (jsTrim (goB (goA cs true))).takeWhile (fun c => !(c = '{' : Bool)) ++
          ('{' :: w2) := by
      conv_lhs => rw [← List.takeWhile_append_dropWhile (fun c => !(c = '{' : Bool))
        (jsTrim (goB (goA cs true)))]
      rw [hR]
    have hXnb : '{' ∉ (jsTrim (goB (goA cs true))).takeWhile
        (fun c => !(c = '{' : Bool)) := by
      intro hm
      exact absurd (mem_takeWhile_pred _ hm) (by decide)
    have h2 : braces ((jsTrim (goB (goA cs true))).takeWhile
        (fun c => !(c = '{' : Bool))) ++ '{' :: braces w2 =
        braces u ++ '{' :: braces w := by
      rw [← hbrF]
      conv_rhs => rw [hsplit]
      rw [braces_append, braces_cons, if_pos (Or.inl rfl)]
    have hw2 : braces w2 = braces w :=
      first_brace_align _ _ _ _ (fun hm => hXnb (braces_sub _ hm))
        (fun hm => hu (braces_sub _ hm)) h2
    have hw2c : ∀ p q, w2 = p ++ '}' :: q → ¬bal p = 0 :=
      closes_transfer w2 w hw2 hw
    have hnone : jsonSpan ('{' :: w2) 0 [] = none := by
      apply jsonSpan_none_of
      intro p q hpq
      rcases p with _ | ⟨p0, p2⟩
      · rw [List.nil_append] at hpq
        injection hpq with h1 _
        exact absurd h1 (by decide)
      · rw [List.cons_append] at hpq
        injection hpq with h1 h2b
        subst h1
        intro hc
        apply hw2c p2 q h2b
        have hb : balC '{' = 1 := rfl
        have hc2 : (0 : Int) + (balC '{' + bal p2) = 1 := hc
        rw [hb] at hc2
        omega
    rw [hnone]

/-- C6: `extractJSON` error behaviour.  Text with no opening brace at all
fails with `NoJsonFound`; text whose first opening brace is never matched
by a closing brace at nesting depth zero — writing the text as `u ++ '{'
:: w` with no brace in `u`, every closing brace of `w` sees a non-zero
brace balance before it — fails with `UnclosedJson`, in particular on the
claim's example; no value is returned in either case. -/
theorem C6_extractJSON_errors :
    (∀ s : String, '{' ∉ s.data → extractJSON s = .error .noJson) ∧
    (∀ u w : List Char, '{' ∉ u →
      (∀ i, i < w.length → (w.drop i).head? = some '}' → ¬bal (w.take i) = 0) →
      extractJSON (String.mk (u ++ '{' :: w)) = .error .unclosed) ∧
    extractJSON (String.mk ['{', '"', 'a', '"', ':', '1']) = .error .unclosed := by
  refine ⟨?_, ?_, rfl⟩
  · intro s hs
    have hno : '{' ∉ jsTrim (goB (goA s.data true)) := by
      intro hmem
      exact hs (mem_goA _ _ (mem_goB _ (mem_jsTrim _ hmem)))
    show (extractCore s.data).map String.mk = .error .noJson
    unfold extractCore
    have hany : ¬(jsTrim (goB (goA s.data true))).any (fun c => c = '{') = true := by
      intro hany
      rw [List.any_eq_true] at hany
      obtain ⟨x, hx, hx2⟩ := hany
      rw [decide_eq_true_eq] at hx2
      exact hno (hx2 ▸ hx)
    rw [if_neg hany]
    rfl
  · intro u w hu hw
    have hw2 : ∀ p q, w = p ++ '}' :: q → ¬bal p = 0 := by
      intro p q hpq
      have hlen : p.length < w.length := by
        rw [hpq, List.length_append, List.length_cons]
        omega
      have hhead : (w.drop p.length).head? = some '}' := by
        rw [hpq]
        have hdrop := drop_app_len p ('}' :: q) p.length 0 rfl
        rw [Nat.add_zero] at hdrop
        rw [hdrop]
        rfl
      have htake : w.take p.length = p := by
        rw [hpq]
        exact take_app_len p _ p.length rfl
      have hres := hw p.length hlen hhead
      rw [htake] at hres
      exact hres
    have hbrF : braces (jsTrim (goB (goA (u ++ '{' :: w) true))) =
        braces u ++ '{' :: braces w := by
      rw [braces_jsTrim, braces_goB, braces_goA, braces_append, braces_cons,
        if_pos (Or.inl rfl)]
    have hmem : '{' ∈ jsTrim (goB (goA (u ++ '{' :: w) true)) :=
      brace_jsTrim _ (brace_goB _ (brace_goA _ true
        (List.mem_append.2 (Or.inr (List.mem_cons_self _ _)))))
    show (extractCore (u ++ '{' :: w)).map String.mk = .error .unclosed
    rw [extract_unclosed_core (u ++ '{' :: w) u w hu hbrF hmem hw2]
    rfl

/-- Witness for C6: concrete inputs discharging both universal parts; the
second is a truncated nested object whose only closing brace sits at
depth two. -/
theorem C6_witness :
    extractJSON (String.mk ['n', 'o', ' ', 'j', 's', 'o', 'n']) = .error .noJson ∧
      extractJSON (String.mk ('{' :: '"' :: 'a' :: '"' :: ':' :: '{' :: '"' :: 'b' ::
        '"' :: ':' :: '1' :: '}' :: [])) = .error .unclosed :=
  ⟨C6_extractJSON_errors.1 (String.mk ['n', 'o', ' ', 'j', 's', 'o', 'n']) (by decide),
    C6_extractJSON_errors.2.1 []
      ('"' :: 'a' :: '"' :: ':' :: '{' :: '"' :: 'b' :: '"' :: ':' :: '1' :: '}' :: [])
      (by decide) (by decide)⟩

/-! ## Embedding of `extractTextBody` (utils.js lines 6-18)

A message part has a content type, a body and an optional list of child
parts; `extractTextBody` returns the body of a `text/plain` part with a
truthy (non-empty) body, searching the node before its children and the
children in order, and returns `""` for null input or when no such part
exists. -/

mutual
inductive MPart where
  | mk (contentType : Option String) (body : Option String) (parts : MPartsOpt)
inductive MPartsOpt where
  | none0
  | some0 (l : MParts)
inductive MParts where
  | nil
  | cons (p : MPart) (rest : MParts)
end

def bodyTruthy : Option String → Bool
  | none => false
  | some s => !(s = "" : Bool)

mutual
def etbPart : MPart → String
  | .mk ct b ps =>
    if ct = some "text/plain" ∧ bodyTruthy b = true then b.getD ""
    else etbParts ps
def etbParts : MPartsOpt → String
  | .none0 => ""
  | .some0 l => firstText l
def firstText : MParts → String
  | .nil => ""
  | .cons p rest =>
    let t := etbPart p
    if ¬t = "" then t else firstText rest
end

/-- `extractTextBody`: `""` for null input, otherwise the recursive search. -/
def extractTextBody : Option MPart → String
  | Option.none => ""
  | Option.some p => etbPart p

mutual
def preorder : MPart → List MPart
  | .mk ct b ps => .mk ct b ps :: preorderOpt ps
def preorderOpt : MPartsOpt → List MPart
  | .none0 => []
  | .some0 l => preorderL l
def preorderL : MParts → List MPart
  | .nil => []
  | .cons p rest => preorder p ++ preorderL rest
end

def isTextPart (p : MPart) : Bool :=
  match p with
  | .mk ct b _ => (ct = some "text/plain" : Bool) && bodyTruthy b

def partBody (p : MPart) : String :=
  match p with
  | .mk _ b _ => b.getD ""

/-- The specification reading of `extractTextBody`: the body of the first
part in depth-first pre-order whose content type is `text/plain` and whose
body is non-empty, `""` otherwise. -/
def specTextBody (x : Option MPart) : String :=
  match x with
  | Option.none => ""
  | Option.some p =>
    match (preorder p).find? isTextPart with
    | some q => partBody q
    | none => ""

theorem isTextPart_body {q : MPart} (h : isTextPart q = true) : ¬partBody q = "" := by
  rcases q with ⟨ct, b, ps⟩
  simp only [isTextPart, Bool.and_eq_true] at h
  rcases b with _ | s
  · exact absurd h.2 (by decide)
  · have hs : ¬s = "" := by
      have := h.2
      simp only [bodyTruthy, Bool.not_eq_true'] at this
      simpa using this
    simpa [partBody] using hs

theorem find?_app_none {α : Type} {p : α → Bool} :
    ∀ {l₁ : List α} (l₂ : List α), l₁.find? p = none →
      (l₁ ++ l₂).find? p = l₂.find? p
  | [], l₂, _ => rfl
  | a :: l₁, l₂, h => by
    cases hpa : p a with
    | true =>
      rw [List.find?_cons, hpa] at h
      exact absurd h (by simp)
    | false =>
      have h' : l₁.find? p = none := by
        rw [List.find?_cons, hpa] at h
        exact h
      show (a :: (l₁ ++ l₂)).find? p = l₂.find? p
      rw [List.find?_cons, hpa]
      exact find?_app_none l₂ h'

theorem find?_app_some {α : Type} {p : α → Bool} {a : α} :
    ∀ {l₁ : List α} (l₂ : List α), l₁.find? p = some a →
      (l₁ ++ l₂).find? p = some a
  | [], l₂, h => by simp at h
  | b :: l₁, l₂, h => by
    cases hpb : p b with
    | true =>
      have hb : some b = some a := by
        rw [List.find?_cons, hpb] at h
        exact h
      show (b :: (l₁ ++ l₂)).find? p = some a
      rw [List.find?_cons, hpb]
      exact hb
    | false =>
      have h' : l₁.find? p = some a := by
        rw [List.find?_cons, hpb] at h
        exact h
      show (b :: (l₁ ++ l₂)).find? p = some a
      rw [List.find?_cons, hpb]
      exact find?_app_some l₂ h'

mutual
theorem etb_spec : ∀ p : MPart, etbPart p =
    (match (preorder p).find? isTextPart with
     | some q => partBody q
     | none => "")
  | .mk ct b ps => by
    show (if ct = some "text/plain" ∧ bodyTruthy b = true then b.getD ""
      else etbParts ps) = _
    by_cases hc : ct = some "text/plain" ∧ bodyTruthy b = true
    · rw [if_pos hc]
      have hT : isTextPart (.mk ct b ps) = true := by
        simp [isTextPart, hc.1, hc.2]
      rw [show preorder (.mk ct b ps) = .mk ct b ps :: preorderOpt ps from rfl,
        List.find?_cons_of_pos _ hT]
      rfl
    · rw [if_neg hc]
      have hT : ¬isTextPart (.mk ct b ps) = true := by
        intro hT
        apply hc
        simp only [isTextPart, Bool.and_eq_true, decide_eq_true_eq] at hT
        exact ⟨hT.1, hT.2⟩
      rw [show preorder (.mk ct b ps) = .mk ct b ps :: preorderOpt ps from rfl,
        List.find?_cons_of_neg _ hT]
      rcases ps with _ | l
      · rfl
      · show firstText l = _
        rw [show preorderOpt (.some0 l) = preorderL l from rfl]
        exact ft_spec l
theorem ft_spec : ∀ l : MParts, firstText l =
    (match (preorderL l).find? isTextPart with
     | some q => partBody q
     | none => "")
  | .nil => by rfl
  | .cons p rest => by
    show (if ¬etbPart p = "" then etbPart p else firstText rest) = _
    rw [show preorderL (.cons p rest) = preorder p ++ preorderL rest from rfl]
    rcases hfp : (preorder p).find? isTextPart with _ | q
    · have he : etbPart p = "" := by
        rw [etb_spec p, hfp]
      rw [if_neg (by simp [he]), ft_spec rest, find?_app_none _ hfp]
    · have he : etbPart p = partBody q := by
        rw [etb_spec p, hfp]
      have hq : isTextPart q = true := List.find?_some hfp
      rw [if_pos (by rw [he]; exact isTextPart_body hq), he, find?_app_some _ hfp]
end

/-- C9: `extractTextBody` returns the body of the first part in depth-first
pre-order whose content type is `text/plain` and whose body is non-empty,
and `""` for null input or when no such part exists. -/
theorem C9_extractTextBody_preorder (x : Option MPart) :
    extractTextBody x = specTextBody x := by
  rcases x with _ | p
  · rfl
  · show etbPart p = _
    rw [show specTextBody (Option.some p) =
      (match (preorder p).find? isTextPart with
       | some q => partBody q
       | none => "") from rfl]
    exact etb_spec p

/-! ## Embedding of `isValidHostUrl` (utils.js lines 135-142) and the
pre-network part of `callOllama` (background.js lines 130-134)

`new URL` is a host-platform facility; it is modelled at the granularity
the source uses it: a string parses as a URL when it starts with a valid
scheme (a letter followed by letters, digits, `+`, `-` or `.`, terminated
by a colon); the special schemes (http, https, ws, wss, ftp) additionally
require a non-empty host, free of whitespace and backslashes, before the
next `/`, `?` or `#`.  The source checks `u.protocol`, the lowercased
scheme followed by a colon. -/

def isSchemeChar (c : Char) : Bool :=
  c.isAlpha || c.isDigit || c = '+' || c = '-' || c = '.'

def schemeAux : List Char → List Char → Option (List Char × List Char)
  | [], _ => none
  | c :: cs, acc =>
    if c = ':' then some (acc.reverse, cs)
    else if isSchemeChar c then schemeAux cs (c.toLower :: acc) else none

def splitScheme (cs : List Char) : Option (List Char × List Char) :=
  match cs with
  | c :: cs' => if c.isAlpha then schemeAux cs' [c.toLower] else none
  | [] => none

def isSpecialScheme (s : List Char) : Bool :=
  s = "http".data || s = "https".data || s = "ws".data || s = "wss".data ||
    s = "ftp".data

def hostPart (rest : List Char) : List Char :=
  (rest.dropWhile (fun c => c = '/')).takeWhile
    (fun c => !(c = '/' : Bool) && !(c = '?' : Bool) && !(c = '#' : Bool))

/-- Model of `new URL(str)`: `some scheme` when the string parses. -/
def urlParse (s : String) : Option (List Char) :=
  match splitScheme s.data with
  | none => none
  | some (sch, rest) =>
    if isSpecialScheme sch then
      if ¬hostPart rest = [] ∧
          (hostPart rest).all (fun c => !isWS c && !(c = '\\' : Bool)) then
        some sch
      else none
    else some sch

/-- Embedding of `isValidHostUrl`: the parse succeeds and the protocol is
`http:` or `https:`. -/
def isValidHostUrl (s : String) : Bool :=
  match urlParse s with
  | some sch => sch = "http".data || sch = "https".data
  | none => false

/-- The outcome of `callOllama` before any network activity: either the
invalid-host error or a request to the derived URL. -/
inductive CallPre where
  | invalidHost
  | request (url : String)
deriving DecidableEq

def stripTrailSlash (cs : List Char) : List Char :=
  match cs.reverse with
  | '/' :: r => r.reverse
  | _ => cs

/-- The pre-network part of `callOllama` (background.js lines 130-134): the
host URL is validated before the request is built; on failure the
invalid-host error is thrown and no request happens. -/
def callOllamaPre (host : String) : CallPre :=
  if isValidHostUrl host then
    .request (String.mk (stripTrailSlash host.data ++ "/api/generate".data))
  else .invalidHost

/-- C7: the model client issues a network request only for hosts that parse
as URLs with scheme http or https; any other scheme or non-URL string fails
with the invalid-host error before any request; the spec's examples behave
as stated. -/
theorem C7_host_validation :
    (∀ host url, callOllamaPre host = .request url →
      ∃ sch, urlParse host = some sch ∧ (sch = "http".data ∨ sch = "https".data)) ∧
    (∀ host, (∀ sch, urlParse host = some sch →
        ¬(sch = "http".data ∨ sch = "https".data)) →
      callOllamaPre host = .invalidHost) ∧
    isValidHostUrl "http://127.0.0.1:11434" = true ∧
    isValidHostUrl "https://example.com" = true ∧
    isValidHostUrl "ftp://x" = false ∧
    isValidHostUrl "file:///x" = false ∧
    isValidHostUrl "not a url" = false ∧
    isValidHostUrl "" = false := by
  refine ⟨?_, ?_, by decide, by decide, by decide, by decide, by decide, by decide⟩
  · intro host url hreq
    unfold callOllamaPre at hreq
    split_ifs at hreq with hv
    unfold isValidHostUrl at hv
    rcases hm : urlParse host with _ | sch
    · rw [hm] at hv
      exact absurd hv (by simp)
    · rw [hm] at hv
      rw [Bool.or_eq_true, decide_eq_true_eq, decide_eq_true_eq] at hv
      exact ⟨sch, rfl, hv⟩
  · intro host hbad
    unfold callOllamaPre
    rw [if_neg]
    unfold isValidHostUrl
    rcases hm : urlParse host with _ | sch
    · simp
    · have := hbad sch hm
      simp only [Bool.or_eq_true, decide_eq_true_eq]
      exact this

/-- Witness for C7: the default host yields a request to the generate
endpoint; an FTP host fails before the network. -/
theorem C7_witness :
    (∃ sch, urlParse "http://127.0.0.1:11434" = some sch ∧
      (sch = "http".data ∨ sch = "https".data)) ∧
    callOllamaPre "ftp://x" = .invalidHost :=
  ⟨C7_host_validation.1 "http://127.0.0.1:11434"
      (String.mk (stripTrailSlash "http://127.0.0.1:11434".data ++ "/api/generate".data))
      (by decide),
    C7_host_validation.2.1 "ftp://x" (by decide)⟩

/-! ## JSON values and `JSON.stringify`

Model of the JSON-serializable objects of the round-trip property and of
the platform's `JSON.stringify` (no indentation: objects are
`brace key colon value comma ... brace`, strings are quoted with the
standard escapes, numbers are modelled by integers). -/

mutual
inductive JVal where
  | jnull
  | jbool (b : Bool)
  | jnum (n : Int)
  | jstr (s : List Char)
  | jarr (xs : JArr)
  | jobj (kvs : JObj)
inductive JArr where
  | nil
  | cons (v : JVal) (rest : JArr)
inductive JObj where
  | nil
  | cons (k : List Char) (v : JVal) (rest : JObj)
end

def hexDig (n : Nat) : Char :=
  if n < 10 then dg n
  else if n = 10 then 'a'
  else if n = 11 then 'b'
  else if n = 12 then 'c'
  else if n = 13 then 'd'
  else if n = 14 then 'e'
  else 'f'

/-- The string escaping of `JSON.stringify`: quote, backslash, the named
control escapes, `u00XX` for the remaining control characters; every other
character — braces and backticks included — passes through unescaped. -/
def escChar (c : Char) : List Char :=
  if c = '"' then ['\\', '"']
  else if c = '\\' then ['\\', '\\']
  else if c = '\n' then ['\\', 'n']
  else if c = '\r' then ['\\', 'r']
  else if c = '\t' then ['\\', 't']
  else if c = Char.ofNat 8 then ['\\', 'b']
  else if c = Char.ofNat 12 then ['\\', 'f']
  else if c.toNat < 32 then
    ['\\', 'u', '0', '0', hexDig (c.toNat / 16), hexDig (c.toNat % 16)]
  else [c]

def quoteStr (s : List Char) : List Char := '"' :: (s.map escChar).join ++ ['"']

def natDigs : Nat → Nat → List Char
  | 0, _ => []
  | fuel + 1, n => if n < 10 then [dg n] else natDigs fuel (n / 10) ++ [dg (n % 10)]

def intChars (n : Int) : List Char :=
  if n < 0 then '-' :: natDigs (n.natAbs + 1) n.natAbs
  else natDigs (n.toNat + 1) n.toNat

mutual
def strfy : JVal → List Char
  | .jnull => ['n', 'u', 'l', 'l']
  | .jbool true => ['t', 'r', 'u', 'e']
  | .jbool false => ['f', 'a', 'l', 's', 'e']
  | .jnum n => intChars n
  | .jstr s => quoteStr s
  | .jarr xs => '[' :: strfyA xs ++ [']']
  | .jobj kvs => '{' :: strfyO kvs ++ ['}']
def strfyA : JArr → List Char
  | .nil => []
  | .cons v rest => strfy v ++ strfyA2 rest
def strfyA2 : JArr → List Char
  | .nil => []
  | .cons v rest => ',' :: (strfy v ++ strfyA2 rest)
def strfyO : JObj → List Char
  | .nil => []
  | .cons k v rest => quoteStr k ++ ':' :: (strfy v ++ strfyO2 rest)
def strfyO2 : JObj → List Char
  | .nil => []
  | .cons k v rest => ',' :: (quoteStr k ++ ':' :: (strfy v ++ strfyO2 rest))
end

example : strfy (.jobj (.cons ['a'] (.jnum 1) .nil)) =
    ['{', '"', 'a', '"', ':', '1', '}'] := by decide

example : strfy (.jarr (.cons (.jnum 1) (.cons .jnull .nil))) =
    ['[', '1', ',', 'n', 'u', 'l', 'l', ']'] := by decide

/-- A character that is safe inside a JSON string literal for the brace
scanner and the fence regexes: not a brace and not a backtick. -/
def cleanChar (c : Char) : Bool :=
  !(c = '{' : Bool) && !(c = '}' : Bool) && !(c = btick : Bool)

mutual
def CleanV : JVal → Bool
  | .jnull => true
  | .jbool _ => true
  | .jnum _ => true
  | .jstr s => s.all cleanChar
  | .jarr xs => CleanA xs
  | .jobj kvs => CleanO kvs
def CleanA : JArr → Bool
  | .nil => true
  | .cons v rest => CleanV v && CleanA rest
def CleanO : JObj → Bool
  | .nil => true
  | .cons k v rest => k.all cleanChar && CleanV v && CleanO rest
end

/-! ### Character-class facts about `strfy` output -/

theorem dg_all (k : Nat) : isDig (dg k) = true := by
  unfold dg
  split <;> decide

theorem isDig_ne2 {c : Char} (h : isDig c = true) :
    c ≠ '{' ∧ c ≠ '}' ∧ c ≠ btick ∧ c ≠ '\n' ∧ c ≠ '"' ∧ c ≠ '\\' := by
  refine ⟨?_, ?_, ?_, ?_, ?_, ?_⟩ <;> rintro rfl <;> revert h <;> decide

theorem hexDig_props (n : Nat) :
    hexDig n ≠ '{' ∧ hexDig n ≠ '}' ∧ hexDig n ≠ btick ∧ hexDig n ≠ '\n' := by
  unfold hexDig
  split_ifs with h1 h2 h3 h4 h5 h6
  · have := isDig_ne2 (dg_all n)
    exact ⟨this.1, this.2.1, this.2.2.1, this.2.2.2.1⟩
  all_goals exact ⟨by decide, by decide, by decide, by decide⟩

/-- Every character emitted by `escChar` for a clean input character is
neither a brace, nor a backtick, nor a newline. -/
theorem escChar_props {c : Char} (hc : cleanChar c = true) :
    ∀ x ∈ escChar c, x ≠ '{' ∧ x ≠ '}' ∧ x ≠ btick ∧ x ≠ '\n' := by
  intro x hx
  simp only [cleanChar, Bool.and_eq_true, Bool.not_eq_true', decide_eq_false_iff_not] at hc
  unfold escChar at hx
  split_ifs at hx with h1 h2 h3 h4 h5 h6 h7 h8
  all_goals simp only [List.mem_cons, List.not_mem_nil, or_false] at hx
  · rcases hx with rfl | rfl <;> exact ⟨by decide, by decide, by decide, by decide⟩
  · rcases hx with rfl | rfl <;> exact ⟨by decide, by decide, by decide, by decide⟩
  · rcases hx with rfl | rfl <;> exact ⟨by decide, by decide, by decide, by decide⟩
  · rcases hx with rfl | rfl <;> exact ⟨by decide, by decide, by decide, by decide⟩
  · rcases hx with rfl | rfl <;> exact ⟨by decide, by decide, by decide, by decide⟩
  · rcases hx with rfl | rfl <;> exact ⟨by decide, by decide, by decide, by decide⟩
  · rcases hx with rfl | rfl <;> exact ⟨by decide, by decide, by decide, by decide⟩
  · rcases hx with rfl | rfl | rfl | rfl | rfl | rfl
    · exact ⟨by decide, by decide, by decide, by decide⟩
    · exact ⟨by decide, by decide, by decide, by decide⟩
    · exact ⟨by decide, by decide, by decide, by decide⟩
    · exact ⟨by decide, by decide, by decide, by decide⟩
    · exact hexDig_props _
    · exact hexDig_props _
  · rcases hx with rfl
    exact ⟨hc.1.1, hc.1.2, hc.2, h3⟩

theorem natDigs_all : ∀ (fuel n : Nat), ∀ c ∈ natDigs fuel n, isDig c = true
  | 0, n, c, h => by simp [natDigs] at h
  | fuel + 1, n, c, h => by
    unfold natDigs at h
    split_ifs at h with h10
    · simp only [List.mem_singleton] at h
      subst h
      exact dg_all n
    · rcases List.mem_append.1 h with h1 | h1
      · exact natDigs_all fuel (n / 10) c h1
      · simp only [List.mem_singleton] at h1
        subst h1
        exact dg_all (n % 10)

theorem intChars_props (n : Int) :
    ∀ c ∈ intChars n, c ≠ '{' ∧ c ≠ '}' ∧ c ≠ btick ∧ c ≠ '\n' := by
  intro c hc
  unfold intChars at hc
  split_ifs at hc with hneg
  · rcases List.mem_cons.1 hc with rfl | hc
    · exact ⟨by decide, by decide, by decide, by decide⟩
    · have := isDig_ne2 (natDigs_all _ _ c hc)
      exact ⟨this.1, this.2.1, this.2.2.1, this.2.2.2.1⟩
  · have := isDig_ne2 (natDigs_all _ _ c hc)
    exact ⟨this.1, this.2.1, this.2.2.1, this.2.2.2.1⟩

theorem quoteStr_props {k : List Char} (hk : k.all cleanChar = true) :
    ∀ x ∈ quoteStr k, x ≠ '{' ∧ x ≠ '}' ∧ x ≠ btick ∧ x ≠ '\n' := by
  intro x hx
  unfold quoteStr at hx
  rcases List.mem_cons.1 hx with rfl | hx
  · exact ⟨by decide, by decide, by decide, by decide⟩
  · rcases List.mem_append.1 hx with hx | hx
    · rw [List.mem_join] at hx
      obtain ⟨l, hl, hxl⟩ := hx
      rw [List.mem_map] at hl
      obtain ⟨c, hck, rfl⟩ := hl
      exact escChar_props (List.all_eq_true.1 hk c hck) x hxl
    · simp only [List.mem_singleton] at hx
      subst hx
      exact ⟨by decide, by decide, by decide, by decide⟩

/-! For a clean value, `strfy` output contains no backtick and no newline
(newlines are always escaped; backticks in string literals are excluded by
cleanliness). -/

mutual
theorem strfy_chars : ∀ (v : JVal), CleanV v = true →
    ∀ c ∈ strfy v, c ≠ btick ∧ c ≠ '\n'
  | .jnull, _, c, hc => by
    revert hc
    show c ∈ ['n', 'u', 'l', 'l'] → _
    intro hc
    simp only [List.mem_cons, List.not_mem_nil, or_false] at hc
    rcases hc with rfl | rfl | rfl | rfl <;> exact ⟨by decide, by decide⟩
  | .jbool true, _, c, hc => by
    revert hc
    show c ∈ ['t', 'r', 'u', 'e'] → _
    intro hc
    simp only [List.mem_cons, List.not_mem_nil, or_false] at hc
    rcases hc with rfl | rfl | rfl | rfl <;> exact ⟨by decide, by decide⟩
  | .jbool false, _, c, hc => by
    revert hc
    show c ∈ ['f', 'a', 'l', 's', 'e'] → _
    intro hc
    simp only [List.mem_cons, List.not_mem_nil, or_false] at hc
    rcases hc with rfl | rfl | rfl | rfl | rfl <;> exact ⟨by decide, by decide⟩
  | .jnum n, _, c, hc => by
    have := intChars_props n c hc
    exact ⟨this.2.2.1, this.2.2.2⟩
  | .jstr s, h, c, hc => by
    have := quoteStr_props (by simpa [CleanV] using h) c hc
    exact ⟨this.2.2.1, this.2.2.2⟩
  | .jarr xs, h, c, hc => by
    revert hc
    show c ∈ '[' :: strfyA xs ++ [']'] → _
    intro hc
    rcases List.mem_cons.1 hc with rfl | hc
    · exact ⟨by decide, by decide⟩
    · rcases List.mem_append.1 hc with hc | hc
      · exact strfyA_chars xs (by simpa [CleanV] using h) c hc
      · simp only [List.mem_singleton] at hc
        subst hc
        exact ⟨by decide, by decide⟩
  | .jobj kvs, h, c, hc => by
    revert hc
    show c ∈ '{' :: strfyO kvs ++ ['}'] → _
    intro hc
    rcases List.mem_cons.1 hc with rfl | hc
    · exact ⟨by decide, by decide⟩
    · rcases List.mem_append.1 hc with hc | hc
      · exact strfyO_chars kvs (by simpa [CleanV] using h) c hc
      · simp only [List.mem_singleton] at hc
        subst hc
        exact ⟨by decide, by decide⟩
theorem strfyA_chars : ∀ (xs : JArr), CleanA xs = true →
    ∀ c ∈ strfyA xs, c ≠ btick ∧ c ≠ '\n'
  | .nil, _, c, hc => by simp [strfyA] at hc
  | .cons v rest, h, c, hc => by
    rw [show CleanA (.cons v rest) = (CleanV v && CleanA rest) from rfl,
      Bool.and_eq_true] at h
    revert hc
    show c ∈ strfy v ++ strfyA2 rest → _
    intro hc
    rcases List.mem_append.1 hc with hc | hc
    · exact strfy_chars v h.1 c hc
    · exact strfyA2_chars rest h.2 c hc
theorem strfyA2_chars : ∀ (xs : JArr), CleanA xs = true →
    ∀ c ∈ strfyA2 xs, c ≠ btick ∧ c ≠ '\n'
  | .nil, _, c, hc => by simp [strfyA2] at hc
  | .cons v rest, h, c, hc => by
    rw [show CleanA (.cons v rest) = (CleanV v && CleanA rest) from rfl,
      Bool.and_eq_true] at h
    revert hc
    show c ∈ ',' :: (strfy v ++ strfyA2 rest) → _
    intro hc
    rcases List.mem_cons.1 hc with rfl | hc
    · exact ⟨by decide, by decide⟩
    · rcases List.mem_append.1 hc with hc | hc
      · exact strfy_chars v h.1 c hc
      · exact strfyA2_chars rest h.2 c hc
theorem strfyO_chars : ∀ (kvs : JObj), CleanO kvs = true →
    ∀ c ∈ strfyO kvs, c ≠ btick ∧ c ≠ '\n'
  | .nil, _, c, hc => by simp [strfyO] at hc
  | .cons k v rest, h, c, hc => by
    rw [show CleanO (.cons k v rest) =
      (k.all cleanChar && CleanV v && CleanO rest) from rfl] at h
    simp only [Bool.and_eq_true] at h
    revert hc
    show c ∈ quoteStr k ++ ':' :: (strfy v ++ strfyO2 rest) → _
    intro hc
    rcases List.mem_append.1 hc with hc | hc
    · have := quoteStr_props h.1.1 c hc
      exact ⟨this.2.2.1, this.2.2.2⟩
    · rcases List.mem_cons.1 hc with rfl | hc
      · exact ⟨by decide, by decide⟩
      · rcases List.mem_append.1 hc with hc | hc
        · exact strfy_chars v h.1.2 c hc
        · exact strfyO2_chars rest h.2 c hc
theorem strfyO2_chars : ∀ (kvs : JObj), CleanO kvs = true →
    ∀ c ∈ strfyO2 kvs, c ≠ btick ∧ c ≠ '\n'
  | .nil, _, c, hc => by simp [strfyO2] at hc
  | .cons k v rest, h, c, hc => by
    rw [show CleanO (.cons k v rest) =
      (k.all cleanChar && CleanV v && CleanO rest) from rfl] at h
    simp only [Bool.and_eq_true] at h
    revert hc
    show c ∈ ',' :: (quoteStr k ++ ':' :: (strfy v ++ strfyO2 rest)) → _
    intro hc
    rcases List.mem_cons.1 hc with rfl | hc
    · exact ⟨by decide, by decide⟩
    · rcases List.mem_append.1 hc with hc | hc
      · have := quoteStr_props h.1.1 c hc
        exact ⟨this.2.2.1, this.2.2.2⟩
      · rcases List.mem_cons.1 hc with rfl | hc
        · exact ⟨by decide, by decide⟩
        · rcases List.mem_append.1 hc with hc | hc
          · exact strfy_chars v h.1.2 c hc
          · exact strfyO2_chars rest h.2 c hc
end

/-! ### Brace balance of `strfy` output -/

/-- Zero total balance with non-negative balance on every split point. -/
def PreOK (cs : List Char) : Prop :=
  bal cs = 0 ∧ ∀ p q : List Char, cs = p ++ q → 0 ≤ bal p

theorem balC_nobrace {c : Char} (h : c ≠ '{' ∧ c ≠ '}') : balC c = 0 := by
  simp [balC, h.1, h.2]

theorem bal_nobrace : ∀ (cs : List Char), (∀ c ∈ cs, c ≠ '{' ∧ c ≠ '}') → bal cs = 0
  | [], _ => rfl
  | c :: cs, h => by
    show balC c + bal cs = 0
    rw [balC_nobrace (h c (List.mem_cons_self _ _)),
      bal_nobrace cs (fun x hx => h x (List.mem_cons_of_mem _ hx))]
    simp

theorem PreOK_nobrace (cs : List Char) (h : ∀ c ∈ cs, c ≠ '{' ∧ c ≠ '}') :
    PreOK cs := by
  refine ⟨bal_nobrace cs h, fun p q hpq => ?_⟩
  rw [bal_nobrace p (fun c hc => h c (by rw [hpq]; exact List.mem_append_left _ hc))]

theorem PreOK_append {xs ys : List Char} (hx : PreOK xs) (hy : PreOK ys) :
    PreOK (xs ++ ys) := by
  refine ⟨by rw [bal_append, hx.1, hy.1]; simp, fun p q hpq => ?_⟩
  rcases List.append_eq_append_iff.1 hpq.symm with ⟨t, hxt, hq⟩ | ⟨t, hp, hyt⟩
  · exact hx.2 p t hxt
  · rw [hp, bal_append, hx.1]
    simpa using hy.2 t q hyt

theorem PreOK_obj {body : List Char} (h : PreOK body) :
    PreOK ('{' :: body ++ ['}']) := by
  constructor
  · show balC '{' + bal (body ++ ['}']) = 0
    rw [bal_append, h.1]
    decide
  · intro p q hpq
    rcases p with _ | ⟨c, p'⟩
    · exact le_refl 0
    · rw [List.cons_append] at hpq
      injection hpq with hc hrest
      subst hc
      show 0 ≤ balC '{' + bal p'
      have hb : (0 : Int) ≤ 1 + bal p' → 0 ≤ balC '{' + bal p' := by
        intro hh
        simpa [balC] using hh
      apply hb
      rcases List.append_eq_append_iff.1 hrest with ⟨t, hp, hyt⟩ | ⟨t, hxt, hq⟩
      · rcases t with _ | ⟨u, t'⟩
        · rw [hp, List.append_nil, h.1]; decide
        · injection hyt with hu ht'
          subst hu
          have ht'nil : t' = [] := (List.append_eq_nil.1 ht'.symm).1
          subst ht'nil
          rw [hp, bal_append, h.1]
          show (0 : Int) ≤ 1 + (0 + balC '}')
          decide
      · have := h.2 p' t hxt
        omega

theorem nb_of_props {cs : List Char}
    (h : ∀ c ∈ cs, c ≠ '{' ∧ c ≠ '}' ∧ c ≠ btick ∧ c ≠ '\n') :
    ∀ c ∈ cs, c ≠ '{' ∧ c ≠ '}' :=
  fun c hc => ⟨(h c hc).1, (h c hc).2.1⟩

mutual
theorem strfy_preok : ∀ (v : JVal), CleanV v = true → PreOK (strfy v)
  | .jnull, _ => PreOK_nobrace _ (by decide)
  | .jbool true, _ => PreOK_nobrace _ (by decide)
  | .jbool false, _ => PreOK_nobrace _ (by decide)
  | .jnum n, _ => PreOK_nobrace _ (nb_of_props (intChars_props n))
  | .jstr s, h => PreOK_nobrace _ (nb_of_props (quoteStr_props (by simpa [CleanV] using h)))
  | .jarr xs, h => by
    show PreOK ('[' :: strfyA xs ++ [']'])
    have h1 : PreOK ['['] := PreOK_nobrace _ (by decide)
    have h2 : PreOK [']'] := PreOK_nobrace _ (by decide)
    have h3 : PreOK (strfyA xs) := strfyA_preok xs (by simpa [CleanV] using h)
    have h4 : PreOK (['['] ++ (strfyA xs ++ [']'])) :=
      PreOK_append h1 (PreOK_append h3 h2)
    exact h4
  | .jobj kvs, h => by
    show PreOK ('{' :: strfyO kvs ++ ['}'])
    exact PreOK_obj (strfyO_preok kvs (by simpa [CleanV] using h))
theorem strfyA_preok : ∀ (xs : JArr), CleanA xs = true → PreOK (strfyA xs)
  | .nil, _ => ⟨rfl, fun p q hpq => by
      rw [(List.append_eq_nil.1 hpq.symm).1]
      exact le_refl 0⟩
  | .cons v rest, h => by
    rw [show CleanA (.cons v rest) = (CleanV v && CleanA rest) from rfl,
      Bool.and_eq_true] at h
    show PreOK (strfy v ++ strfyA2 rest)
    exact PreOK_append (strfy_preok v h.1) (strfyA2_preok rest h.2)
theorem strfyA2_preok : ∀ (xs : JArr), CleanA xs = true → PreOK (strfyA2 xs)
  | .nil, _ => ⟨rfl, fun p q hpq => by
      rw [(List.append_eq_nil.1 hpq.symm).1]
      exact le_refl 0⟩
  | .cons v rest, h => by
    rw [show CleanA (.cons v rest) = (CleanV v && CleanA rest) from rfl,
      Bool.and_eq_true] at h
    show PreOK ([','] ++ (strfy v ++ strfyA2 rest))
    exact PreOK_append (PreOK_nobrace _ (by decide))
      (PreOK_append (strfy_preok v h.1) (strfyA2_preok rest h.2))
theorem strfyO_preok : ∀ (kvs : JObj), CleanO kvs = true → PreOK (strfyO kvs)
  | .nil, _ => ⟨rfl, fun p q hpq => by
      rw [(List.append_eq_nil.1 hpq.symm).1]
      exact le_refl 0⟩
  | .cons k v rest, h => by
    rw [show CleanO (.cons k v rest) =
      (k.all cleanChar && CleanV v && CleanO rest) from rfl] at h
    simp only [Bool.and_eq_true] at h
    show PreOK (quoteStr k ++ ([':'] ++ (strfy v ++ strfyO2 rest)))
    refine PreOK_append (PreOK_nobrace _ (nb_of_props (quoteStr_props h.1.1))) ?_
    exact PreOK_append (PreOK_nobrace _ (by decide))
      (PreOK_append (strfy_preok v h.1.2) (strfyO2_preok rest h.2))
theorem strfyO2_preok : ∀ (kvs : JObj), CleanO kvs = true → PreOK (strfyO2 kvs)
  | .nil, _ => ⟨rfl, fun p q hpq => by
      rw [(List.append_eq_nil.1 hpq.symm).1]
      exact le_refl 0⟩
  | .cons k v rest, h => by
    rw [show CleanO (.cons k v rest) =
      (k.all cleanChar && CleanV v && CleanO rest) from rfl] at h
    simp only [Bool.and_eq_true] at h
    show PreOK ([','] ++ (quoteStr k ++ ([':'] ++ (strfy v ++ strfyO2 rest))))
    refine PreOK_append (PreOK_nobrace _ (by decide)) ?_
    refine PreOK_append (PreOK_nobrace _ (nb_of_props (quoteStr_props h.1.1))) ?_
    exact PreOK_append (PreOK_nobrace _ (by decide))
      (PreOK_append (strfy_preok v h.1.2) (strfyO2_preok rest h.2))
end

/-! ### The depth scan finds exactly a balanced span -/

theorem scan_spec : ∀ (xs : List Char), xs ≠ [] → ∀ (rest acc : List Char) (d : Int),
    (∀ p q, xs = p ++ q → p ≠ [] → p ≠ xs → 0 < d + bal p) →
    0 ≤ d → (0 < d ∨ xs.head? = some '{') →
    d + bal xs = 0 →
    jsonSpan (xs ++ rest) d acc = some (acc ++ xs)
  | [], hne, _, _, _, _, _, _, _ => absurd rfl hne
  | c :: xs', _, rest, acc, d, hpre, hd0, hd, htot => by
    have htot' : d + (balC c + bal xs') = 0 := htot
    show jsonSpan (c :: (xs' ++ rest)) d acc = some (acc ++ c :: xs')
    have hstep : jsonSpan (c :: (xs' ++ rest)) d acc =
        if c = '{' then jsonSpan (xs' ++ rest) (d + 1) (acc ++ [c])
        else if c = '}' then
          (if d - 1 = 0 then some (acc ++ [c])
           else jsonSpan (xs' ++ rest) (d - 1) (acc ++ [c]))
        else jsonSpan (xs' ++ rest) d (acc ++ [c]) := rfl
    by_cases hc : c = '{'
    · subst hc
      rw [hstep, if_pos rfl]
      have hb1 : balC '{' = 1 := by decide
      rw [hb1] at htot'
      have hxne : xs' ≠ [] := by
        intro hnil
        subst hnil
        simp only [bal] at htot'
        omega
      have hrec := scan_spec xs' hxne rest (acc ++ ['{']) (d + 1)
        (fun p q hpq hne1 hne2 => by
          have hgt := hpre ('{' :: p) q (by rw [hpq, List.cons_append])
            (by simp) (by simp [hne2])
          have hb : bal ('{' :: p) = 1 + bal p := by
            show balC '{' + bal p = 1 + bal p
            rw [hb1]
          omega)
        (by omega) (Or.inl (by omega))
        (by
          show d + 1 + bal xs' = 0
          omega)
      rw [hrec, List.append_assoc]
      rfl
    · by_cases hc2 : c = '}'
      · subst hc2
        have hb1 : balC '}' = -1 := by decide
        rw [hb1] at htot'
        by_cases hxe : xs' = []
        · subst hxe
          have hd1 : d - 1 = 0 := by
            simp only [bal] at htot'
            omega
          rw [hstep, if_neg (by decide), if_pos rfl, if_pos hd1]
        · have hgt : 0 < d - 1 := by
            have := hpre ['}'] xs' rfl (by simp) (by simp [hxe])
            have hb : bal ['}'] = -1 := by decide
            omega
          rw [hstep, if_neg (by decide), if_pos rfl, if_neg (by omega)]
          have hrec := scan_spec xs' hxe rest (acc ++ ['}']) (d - 1)
            (fun p q hpq hne1 hne2 => by
              have hgt2 := hpre ('}' :: p) q (by rw [hpq, List.cons_append])
                (by simp) (by simp [hne2])
              have hb : bal ('}' :: p) = -1 + bal p := by
                show balC '}' + bal p = -1 + bal p
                rw [hb1]
              omega)
            (by omega) (Or.inl (by omega))
            (by omega)
          rw [hrec, List.append_assoc]
          rfl
      · have hbalc : balC c = 0 := balC_nobrace ⟨hc, hc2⟩
        rw [hbalc] at htot'
        have hdpos : 0 < d := by
          rcases hd with hd | hd
          · exact hd
          · simp only [List.head?_cons, Option.some.injEq] at hd
            exact absurd hd hc
        have hxne : xs' ≠ [] := by
          intro hnil
          subst hnil
          simp only [bal] at htot'
          omega
        rw [hstep, if_neg hc, if_neg hc2]
        have hrec := scan_spec xs' hxne rest (acc ++ [c]) d
          (fun p q hpq hne1 hne2 => by
            have hgt := hpre (c :: p) q (by rw [hpq, List.cons_append])
              (by simp) (by simp [hne2])
            have hb : bal (c :: p) = bal p := by
              show balC c + bal p = bal p
              rw [hbalc]
              ring
            omega)
          hd0 (Or.inl hdpos)
          (by omega)
        rw [hrec, List.append_assoc]
        rfl

/-- The scanner applied to the serialization of a clean object followed by
anything returns exactly that serialization. -/
theorem scan_obj (kvs : JObj) (h : CleanO kvs = true) (rest acc : List Char) :
    jsonSpan (strfy (.jobj kvs) ++ rest) 0 acc = some (acc ++ strfy (.jobj kvs)) := by
  have hpre := PreOK_obj (strfyO_preok kvs h)
  show jsonSpan (('{' :: strfyO kvs ++ ['}']) ++ rest) 0 acc =
    some (acc ++ ('{' :: strfyO kvs ++ ['}']))
  apply scan_spec
  · simp
  · intro p q hpq hne1 hne2
    rcases p with _ | ⟨c, p'⟩
    · exact absurd rfl hne1
    · rw [List.cons_append] at hpq
      injection hpq with hc hrest
      subst hc
      have hb : bal ('{' :: p') = 1 + bal p' := by
        show balC '{' + bal p' = 1 + bal p'
        simp [balC]
      show 0 < 0 + bal ('{' :: p')
      rw [hb]
      rcases List.append_eq_append_iff.1 hrest with ⟨t, hp, hyt⟩ | ⟨t, hxt, hq⟩
      · rcases t with _ | ⟨u, t'⟩
        · rw [hp, List.append_nil, (strfyO_preok kvs h).1]
          omega
        · injection hyt with hu ht'
          subst hu
          have ht'nil : t' = [] := (List.append_eq_nil.1 ht'.symm).1
          subst ht'nil
          exact absurd (by rw [hp, List.cons_append]) hne2
      · have := (strfyO_preok kvs h).2 p' t hxt
        omega
  · exact le_refl 0
  · exact Or.inr rfl
  · show (0 : Int) + bal ('{' :: strfyO kvs ++ ['}']) = 0
    have hb : bal ('{' :: strfyO kvs ++ ['}']) = 0 := hpre.1
    omega

/-! ### The fence strips and the trim leave prose-plus-serialized-object
texts intact -/

theorem head?_mem {c : Char} : ∀ {l : List Char}, l.head? = some c → c ∈ l
  | [], h => by simp at h
  | a :: l, h => by
    simp only [List.head?_cons, Option.some.injEq] at h
    rw [← h]
    exact List.mem_cons_self _ _

theorem head?_append_left {c : Char} : ∀ (xs ys : List Char),
    xs.head? = some c → (xs ++ ys).head? = some c
  | [], _, h => by simp at h
  | a :: xs, ys, h => h

theorem getLast?_mem {c : Char} : ∀ (l : List Char), l.getLast? = some c → c ∈ l
  | [], h => by simp at h
  | [a], h => by
    simp only [List.getLast?_singleton, Option.some.injEq] at h
    rw [← h]
    exact List.mem_cons_self _ _
  | a :: b :: l, h => by
    rw [List.getLast?_cons_cons] at h
    exact List.mem_cons_of_mem _ (getLast?_mem (b :: l) h)

theorem getLast?_cons_ne : ∀ (a : Char) (l : List Char), l ≠ [] →
    (a :: l).getLast? = l.getLast?
  | a, [], h => absurd rfl h
  | _, _ :: _, _ => List.getLast?_cons_cons

theorem getLast?_append_ne : ∀ (xs ys : List Char), ys ≠ [] →
    (xs ++ ys).getLast? = ys.getLast?
  | [], _, _ => rfl
  | a :: xs, ys, hne => by
    have hne2 : xs ++ ys ≠ [] := by
      intro h0
      exact hne (List.append_eq_nil.1 h0).2
    rw [List.cons_append, getLast?_cons_ne a (xs ++ ys) hne2]
    exact getLast?_append_ne xs ys hne

theorem getLast?_append_right {c : Char} (xs ys : List Char) (hne : ys ≠ [])
    (h : ys.getLast? = some c) : (xs ++ ys).getLast? = some c := by
  rw [getLast?_append_ne xs ys hne]
  exact h

theorem getLast?_none_nil : ∀ (l : List Char), l.getLast? = none → l = []
  | [], _ => rfl
  | [a], h => by simp at h
  | a :: b :: l, h => by
    rw [List.getLast?_cons_cons] at h
    exact absurd (getLast?_none_nil (b :: l) h) (by simp)

theorem dropWhile_nil_all {p : Char → Bool} : ∀ (l : List Char),
    l.dropWhile p = [] → ∀ c ∈ l, p c = true
  | [], _, c, hc => by simp at hc
  | a :: l, h, c, hc => by
    rw [List.dropWhile_cons] at h
    split_ifs at h with ha
    rcases List.mem_cons.1 hc with rfl | hc
    · exact ha
    · exact dropWhile_nil_all l h c hc

theorem dropWhile_head_false {p : Char → Bool} :
    ∀ (l : List Char) (c : Char) (t : List Char),
      l.dropWhile p = c :: t → p c = false
  | [], c, t, h => by simp at h
  | a :: l, c, t, h => by
    rw [List.dropWhile_cons] at h
    split_ifs at h with ha
    · exact dropWhile_head_false l c t h
    · injection h with h1 _
      rw [← h1]
      simpa using ha

theorem dropWhile_app {p : Char → Bool} (ys : List Char)
    (hy : ys.dropWhile p = ys) :
    ∀ (xs : List Char), (xs ++ ys).dropWhile p = xs.dropWhile p ++ ys
  | [] => by simpa using hy
  | a :: xs => by
    rw [List.cons_append, List.dropWhile_cons, List.dropWhile_cons]
    split_ifs with ha
    · exact dropWhile_app ys hy xs
    · rfl

theorem dropWhile_head_eq {l : List Char} {c : Char} {p : Char → Bool}
    (hh : l.head? = some c) (hc : p c = false) : l.dropWhile p = l := by
  rcases l with _ | ⟨a, t⟩
  · simp at hh
  · simp only [List.head?_cons, Option.some.injEq] at hh
    subst hh
    rw [List.dropWhile_cons, if_neg (by simp [hc])]

theorem dropWhile_brace : ∀ (X J : List Char), '{' ∉ X → J.head? = some '{' →
    (X ++ J).dropWhile (fun c => !(c = '{' : Bool)) = J
  | [], J, _, hJ => by
    rcases J with _ | ⟨a, t⟩
    · simp at hJ
    · simp only [List.head?_cons, Option.some.injEq] at hJ
      subst hJ
      rw [List.nil_append, List.dropWhile_cons, if_neg (by simp)]
  | a :: X, J, hX, hJ => by
    have ha : ¬a = '{' := fun h0 => hX (h0 ▸ List.mem_cons_self _ _)
    rw [List.cons_append, List.dropWhile_cons, if_pos (by simp [ha])]
    exact dropWhile_brace X J (fun hm => hX (List.mem_cons_of_mem _ hm)) hJ

/-- `.trim()` on a string ending in a closing brace only strips from the
left. -/
theorem jsTrim_eq (cs : List Char) (hl : cs.getLast? = some '}') :
    jsTrim cs = cs.dropWhile isWS := by
  have hmem : '}' ∈ cs := getLast?_mem cs hl
  have hune : cs.dropWhile isWS ≠ [] := by
    intro h0
    have := dropWhile_nil_all cs h0 '}' hmem
    exact absurd this (by decide)
  have hulast : (cs.dropWhile isWS).getLast? = some '}' := by
    rw [← hl]
    conv_rhs => rw [← List.takeWhile_append_dropWhile isWS cs]
    exact (getLast?_append_ne _ _ hune).symm
  rcases hrev : (cs.dropWhile isWS).reverse with _ | ⟨c, r⟩
  · exact absurd (by simpa using congrArg List.reverse hrev) hune
  · have hcs2 : cs.dropWhile isWS = r.reverse ++ [c] := by
      have := congrArg List.reverse hrev
      simpa using this
    have hc : c = '}' := by
      rw [hcs2, List.getLast?_concat] at hulast
      exact Option.some_injective _ hulast
    subst hc
    unfold jsTrim
    rw [hrev, List.dropWhile_cons, if_neg (by decide)]
    rw [← hrev, List.reverse_reverse]

/-! #### Leading-fence behaviour -/

theorem matchALen_none_head {c : Char} (t : List Char) (hc : ¬c = btick) :
    matchALen (c :: t) = none := by
  unfold matchALen
  split
  · next c1 c2 c3 rest heq =>
    injection heq with h1 _
    rw [if_neg]
    intro hcond
    exact hc (h1 ▸ hcond.1)
  · rfl

/-- The line-start flag after processing a character list. -/
def flagAfter (ps : List Char) (b : Bool) : Bool :=
  match ps.getLast? with
  | some c => (c = '\n' : Bool)
  | none => b

theorem flagAfter_nil (b : Bool) : flagAfter [] b = b := rfl

theorem flagAfter_cons (a : Char) (ps : List Char) (b : Bool) :
    flagAfter (a :: ps) b = flagAfter ps (a = '\n') := by
  rcases ps with _ | ⟨x, t⟩
  · rfl
  · unfold flagAfter
    rw [List.getLast?_cons_cons]
    rcases hx : (x :: t).getLast? with _ | c
    · exact absurd (getLast?_none_nil (x :: t) hx) (by simp)
    · rfl

theorem goA_app : ∀ (ps : List Char), (∀ c ∈ ps, ¬c = btick) →
    ∀ (rest : List Char) (b : Bool),
      goA (ps ++ rest) b = ps ++ goA rest (flagAfter ps b)
  | [], _, rest, b => by rw [flagAfter_nil]; rfl
  | a :: ps, h, rest, b => by
    have ha : ¬a = btick := h a (List.mem_cons_self _ _)
    have hm := matchALen_none_head (ps ++ rest) ha
    rw [List.cons_append]
    have hstep : goA (a :: (ps ++ rest)) b =
        (if b then
          match matchALen (a :: (ps ++ rest)) with
          | some k => (a :: (ps ++ rest)).drop k
          | none => a :: goA (ps ++ rest) (a = '\n')
        else a :: goA (ps ++ rest) (a = '\n')) := rfl
    rw [hstep]
    rw [flagAfter_cons]
    rcases b with _ | _
    · rw [if_neg (by simp)]
      rw [goA_app ps (fun c hc => h c (List.mem_cons_of_mem _ hc)) rest (a = '\n')]
      rfl
    · rw [if_pos rfl, hm]
      rw [goA_app ps (fun c hc => h c (List.mem_cons_of_mem _ hc)) rest (a = '\n')]
      rfl

theorem goA_false_noNL : ∀ (xs : List Char), '\n' ∉ xs → goA xs false = xs
  | [], _ => rfl
  | a :: xs, h => by
    have ha : ¬a = '\n' := fun h0 => h (h0 ▸ List.mem_cons_self _ _)
    have hstep : goA (a :: xs) false = a :: goA xs (a = '\n') := rfl
    rw [hstep, show (a = '\n' : Bool) = false by simp [ha],
      goA_false_noNL xs (fun hm => h (List.mem_cons_of_mem _ hm))]

theorem goA_keep (xs : List Char) (b : Bool)
    (hh : ∀ c, xs.head? = some c → ¬c = btick) (hnl : '\n' ∉ xs) :
    goA xs b = xs := by
  rcases xs with _ | ⟨a, t⟩
  · cases b <;> rfl
  · have ha : ¬a = btick := hh a rfl
    have hat : ¬a = '\n' := fun h0 => hnl (h0 ▸ List.mem_cons_self _ _)
    have htail : goA t (a = '\n') = t := by
      rw [show (a = '\n' : Bool) = false by simp [hat]]
      exact goA_false_noNL t (fun hm => hnl (List.mem_cons_of_mem _ hm))
    rcases b with _ | _
    · have hstep : goA (a :: t) false = a :: goA t (a = '\n') := rfl
      rw [hstep, htail]
    · have hstep : goA (a :: t) true =
          (match matchALen (a :: t) with
           | some k => (a :: t).drop k
           | none => a :: goA t (a = '\n')) := rfl
      rw [hstep, matchALen_none_head t ha, htail]

/-! #### A leading fence directly followed by a brace is deleted exactly -/

theorem takeWhile_ws_head_brace {tail : List Char} (hh : tail.head? = some '{') :
    tail.takeWhile isWS = [] := by
  rcases tail with _ | ⟨a, t⟩
  · rfl
  · simp only [List.head?_cons, Option.some.injEq] at hh
    subst hh
    rw [List.takeWhile_cons, if_neg (by decide)]

theorem goA_step {c : Char} {cs : List Char} {k : Nat}
    (h : matchALen (c :: cs) = some k) : goA (c :: cs) true = (c :: cs).drop k := by
  have h0 : goA (c :: cs) true =
      (match matchALen (c :: cs) with
       | some k => (c :: cs).drop k
       | none => c :: goA cs (c = '\n')) := rfl
  rw [h0, h]

theorem matchALen_cons3 (c1 c2 c3 : Char) (rest : List Char) :
    matchALen (c1 :: c2 :: c3 :: rest) =
      if c1 = btick ∧ c2 = btick ∧ c3 = btick then
        some (3 + tagLen rest + ((rest.drop (tagLen rest)).takeWhile isWS).length)
      else none := rfl

theorem tagLen_head_ne (a : Char) (rest : List Char) (ha : ¬a.toLower = 'j') :
    tagLen (a :: rest) = 0 := by
  rcases rest with _ | ⟨b, rest⟩
  · rfl
  rcases rest with _ | ⟨c, rest⟩
  · rfl
  rcases rest with _ | ⟨d, rest⟩
  · rfl
  show (if a.toLower = 'j' ∧ b.toLower = 's' ∧ c.toLower = 'o' ∧ d.toLower = 'n'
      then 4 else 0) = 0
  rw [if_neg (fun hcond => ha hcond.1)]

theorem tagLen_json (rest : List Char) : tagLen ('j' :: 's' :: 'o' :: 'n' :: rest) = 4 := by
  show (if 'j'.toLower = 'j' ∧ 's'.toLower = 's' ∧ 'o'.toLower = 'o' ∧ 'n'.toLower = 'n'
      then 4 else 0) = 4
  rw [if_pos (by decide)]

theorem matchALen_plain (tail : List Char) (hh : tail.head? = some '{') :
    matchALen (btick :: btick :: btick :: '\n' :: tail) = some 4 := by
  rw [matchALen_cons3, if_pos ⟨rfl, rfl, rfl⟩, tagLen_head_ne '\n' tail (by decide)]
  show some (3 + 0 + (('\n' :: tail).takeWhile isWS).length) = some 4
  rw [List.takeWhile_cons, if_pos (by decide), takeWhile_ws_head_brace hh]
  rfl

theorem matchALen_tagged (tail : List Char) (hh : tail.head? = some '{') :
    matchALen (btick :: btick :: btick :: 'j' :: 's' :: 'o' :: 'n' :: '\n' :: tail) =
      some 8 := by
  rw [matchALen_cons3, if_pos ⟨rfl, rfl, rfl⟩, tagLen_json ('\n' :: tail)]
  show some (3 + 4 + (('\n' :: tail).takeWhile isWS).length) = some 8
  rw [List.takeWhile_cons, if_pos (by decide), takeWhile_ws_head_brace hh]
  rfl

/-- The three ways the model's answer may wrap the serialized object: no
fence, a bare fence, or a fence with the `json` language tag. -/
inductive FenceKind where
  | noFence
  | plain
  | tagged
deriving DecidableEq

def fenceOpen : FenceKind → List Char
  | .noFence => []
  | .plain => [btick, btick, btick, '\n']
  | .tagged => [btick, btick, btick, 'j', 's', 'o', 'n', '\n']

def fenceClose : FenceKind → List Char
  | .noFence => []
  | .plain => ['\n', btick, btick, btick]
  | .tagged => ['\n', btick, btick, btick]

/-- A model answer: leading prose, an optional opening fence, the
serialized object, an optional closing fence. -/
def mkText (prose : List Char) (f : FenceKind) (body : List Char) : List Char :=
  prose ++ fenceOpen f ++ body ++ fenceClose f

theorem goA_fence (f : FenceKind) (hf : ¬f = FenceKind.noFence) (tail : List Char)
    (hh : tail.head? = some '{') : goA (fenceOpen f ++ tail) true = tail := by
  rcases f with _ | _ | _
  · exact absurd rfl hf
  · show goA (btick :: btick :: btick :: '\n' :: tail) true = tail
    rw [goA_step (matchALen_plain tail hh)]
    rfl
  · show goA (btick :: btick :: btick :: 'j' :: 's' :: 'o' :: 'n' :: '\n' :: tail) true = tail
    rw [goA_step (matchALen_tagged tail hh)]
    rfl

/-! #### The trailing-fence replace does not fire inside prose or the
serialized object -/

theorem matchB_none (v rest : List Char) (hnw : ∃ c ∈ v, isWS c = false)
    (hnb : ∀ c ∈ v, ¬c = btick) : matchBLen (v ++ rest) = none := by
  obtain ⟨cw, hcwm, hcww⟩ := hnw
  have hune : v.dropWhile isWS ≠ [] := by
    intro h0
    have := dropWhile_nil_all v h0 cw hcwm
    rw [this] at hcww
    exact Bool.noConfusion hcww
  rcases hu : v.dropWhile isWS with _ | ⟨c0, t0⟩
  · exact absurd hu hune
  have hc0ws : isWS c0 = false := dropWhile_head_false v c0 t0 hu
  have hc0b : ¬c0 = btick :=
    hnb c0 (mem_dropWhile v (by rw [hu]; exact List.mem_cons_self _ _))
  have htwall : (v.takeWhile isWS).all isWS = true :=
    List.all_eq_true.2 fun c hc => mem_takeWhile_ws v hc
  have hsplit : v ++ rest = v.takeWhile isWS ++ ((c0 :: t0) ++ rest) := by
    rw [← hu, ← List.append_assoc, List.takeWhile_append_dropWhile]
  have htw : (v ++ rest).takeWhile isWS = v.takeWhile isWS := by
    rw [hsplit, takeWhile_app_all isWS _ _ htwall, List.cons_append, List.takeWhile_cons,
      if_neg (by simp [hc0ws]), List.append_nil]
  have hdr : (v ++ rest).drop ((v ++ rest).takeWhile isWS).length = c0 :: (t0 ++ rest) := by
    rw [htw, hsplit]
    have h2 := drop_app_len (v.takeWhile isWS) ((c0 :: t0) ++ rest)
      (v.takeWhile isWS).length 0 rfl
    rw [Nat.add_zero] at h2
    rw [h2]
    rfl
  simp only [matchBLen]
  rw [hdr]
  split
  · next c1 c2 c3 r2 heq =>
    injection heq with h1 _
    rw [if_neg (fun hcond => hc0b (h1.trans hcond.1))]
  · rfl

theorem goB_app : ∀ (xs ys : List Char),
    (∀ n, n < xs.length → matchBLen (xs.drop n ++ ys) = none) →
    goB (xs ++ ys) = xs ++ goB ys
  | [], _, _ => rfl
  | x :: xs, ys, h => by
    rw [List.cons_append]
    have hstep : goB (x :: (xs ++ ys)) =
        (match matchBLen (x :: (xs ++ ys)) with
         | some k => (x :: (xs ++ ys)).drop k
         | none => x :: goB (xs ++ ys)) := rfl
    have h0 : matchBLen (x :: (xs ++ ys)) = none := h 0 (Nat.succ_pos _)
    rw [hstep, h0, goB_app xs ys (fun n hn => h (n + 1) (Nat.succ_lt_succ hn))]
    rfl

theorem getLast?_mem_drop {c : Char} : ∀ (l : List Char) (n : Nat), n < l.length →
    l.getLast? = some c → c ∈ l.drop n
  | [], _, hn, _ => absurd hn (by simp)
  | a :: l, 0, _, h => getLast?_mem _ h
  | a :: l, n + 1, hn, h => by
    rcases l with _ | ⟨b, l⟩
    · simp at hn
    · show c ∈ (b :: l).drop n
      exact getLast?_mem_drop (b :: l) n (Nat.lt_of_succ_lt_succ hn)
        (by rw [← getLast?_cons_ne a (b :: l) (by simp)]; exact h)

/-- The trailing-fence replace is the identity on a list ending in a
closing brace with no backticks, followed by a closing fence. -/
theorem goB_noop (xs close : List Char) (hlast : xs.getLast? = some '}')
    (hnb : ∀ c ∈ xs, ¬c = btick) (hc : goB close = []) :
    goB (xs ++ close) = xs := by
  have hcond : ∀ n, n < xs.length → matchBLen (xs.drop n ++ close) = none := by
    intro n hn
    exact matchB_none _ _ ⟨'}', getLast?_mem_drop xs n hn hlast, by decide⟩
      (fun c hm => hnb c (mem_of_mem_drop hm))
  rw [goB_app xs close hcond, hc, List.append_nil]

/-! #### The tail of the extraction: trim, locate the brace, scan -/

theorem extractCore_of_reduced (kvs : JObj) (prose cs : List Char)
    (hclean : CleanO kvs = true) (hpb : '{' ∉ prose)
    (hred : goB (goA cs true) = prose ++ strfy (.jobj kvs)) :
    extractCore cs = .ok (strfy (.jobj kvs)) := by
  have hJhead : (strfy (.jobj kvs)).head? = some '{' := rfl
  have hJne : strfy (.jobj kvs) ≠ [] := by
    intro h0
    rw [h0] at hJhead
    exact Option.noConfusion hJhead
  have hJlast : (strfy (.jobj kvs)).getLast? = some '}' := by
    show (('{' :: strfyO kvs) ++ ['}']).getLast? = some '}'
    exact List.getLast?_concat _
  have hlast : (prose ++ strfy (.jobj kvs)).getLast? = some '}' :=
    getLast?_append_right prose _ hJne hJlast
  have htr : jsTrim (goB (goA cs true)) =
      prose.dropWhile isWS ++ strfy (.jobj kvs) := by
    rw [hred, jsTrim_eq _ hlast]
    exact dropWhile_app _ (dropWhile_head_eq hJhead (by decide)) prose
  have hanyT : (prose.dropWhile isWS ++ strfy (.jobj kvs)).any
      (fun c => (c = '{' : Bool)) = true := by
    rw [List.any_eq_true]
    exact ⟨'{', List.mem_append.2 (Or.inr (head?_mem hJhead)), by decide⟩
  have hbr : (prose.dropWhile isWS ++ strfy (.jobj kvs)).dropWhile
      (fun c => !(c = '{' : Bool)) = strfy (.jobj kvs) :=
    dropWhile_brace _ _ (fun hm => hpb (mem_dropWhile prose hm)) hJhead
  have hspan : jsonSpan (strfy (.jobj kvs)) 0 [] = some (strfy (.jobj kvs)) := by
    have h2 := scan_obj kvs hclean [] []
    simpa using h2
  simp only [extractCore]
  rw [htr, if_pos hanyT, hbr, hspan]

/-! #### Shape preservation: each pipeline stage maps a text of the form
`junk ++ object ++ tail` (no opening brace in the junk) to a text of the
same form, with the serialized object passed through untouched.  The
deleted fence chunks contain no opening brace, so a chunk starting in the
junk ends there; and no fence match starts inside the backtick-free,
newline-free object. -/

theorem drop_app_le {α : Type} : ∀ (xs ys : List α) (n : Nat), n ≤ xs.length →
    (xs ++ ys).drop n = xs.drop n ++ ys
  | _, _, 0, _ => rfl
  | [], _, n + 1, h => by simp at h
  | x :: xs, ys, n + 1, h => by
    show (xs ++ ys).drop n = xs.drop n ++ ys
    exact drop_app_le xs ys n (Nat.le_of_succ_le_succ h)

/-- A fence chunk that would extend past the opening brace of the object
would have to contain it. -/
theorem chunk_le (x : Char) (X J t : List Char) (k : Nat)
    (hnb : '{' ∉ (x :: (X ++ (J ++ t))).take k) (hJh : J.head? = some '{') :
    k ≤ (x :: X).length := by
  by_contra hgt
  push_neg at hgt
  apply hnb
  rw [show x :: (X ++ (J ++ t)) = (x :: X) ++ (J ++ t) from rfl,
    show k = (x :: X).length + (k - (x :: X).length) from by omega,
    take_app_add (x :: X) (J ++ t) (x :: X).length _ rfl]
  apply List.mem_append.2
  right
  rcases hJ2 : J with _ | ⟨j0, J3⟩
  · rw [hJ2] at hJh
    simp at hJh
  · have hj0 : j0 = '{' := by
      rw [hJ2] at hJh
      simpa using hJh
    rcases hk2 : k - (x :: X).length with _ | m
    · omega
    · show '{' ∈ ((j0 :: J3) ++ t).take (m + 1)
      rw [List.cons_append]
      show '{' ∈ j0 :: ((J3 ++ t).take m)
      rw [hj0]
      exact List.mem_cons_self _ _

theorem goA_shape : ∀ (X J t : List Char) (b : Bool), '{' ∉ X →
    (∀ c ∈ J, ¬c = btick) → J.head? = some '{' →
    ∃ X2 t2, '{' ∉ X2 ∧ goA (X ++ (J ++ t)) b = X2 ++ (J ++ t2)
  | [], J, t, b, _, hJb, _ => by
    refine ⟨[], goA t (flagAfter J b), by simp, ?_⟩
    show goA (J ++ t) b = J ++ goA t (flagAfter J b)
    exact goA_app J hJb t b
  | x :: X, J, t, b, hX0, hJb, hJh => by
    have hXr : '{' ∉ X := fun hm => hX0 (List.mem_cons_of_mem _ hm)
    have hx : ¬x = '{' := fun h0 => hX0 (h0 ▸ List.mem_cons_self x X)
    rcases b with _ | _
    · have hstep : goA (x :: (X ++ (J ++ t))) false =
          x :: goA (X ++ (J ++ t)) (x = '\n') := rfl
      obtain ⟨X2, t2, hX2, heq⟩ := goA_shape X J t (x = '\n') hXr hJb hJh
      refine ⟨x :: X2, t2, ?_, ?_⟩
      · intro hm
        rcases List.mem_cons.1 hm with h0 | h0
        · exact hx h0.symm
        · exact hX2 h0
      · rw [List.cons_append, hstep, heq, List.cons_append]
    · rcases hm : matchALen (x :: (X ++ (J ++ t))) with _ | k
      · have hstep : goA (x :: (X ++ (J ++ t))) true =
            (match matchALen (x :: (X ++ (J ++ t))) with
             | some k => (x :: (X ++ (J ++ t))).drop k
             | none => x :: goA (X ++ (J ++ t)) (x = '\n')) := rfl
        obtain ⟨X2, t2, hX2, heq⟩ := goA_shape X J t (x = '\n') hXr hJb hJh
        refine ⟨x :: X2, t2, ?_, ?_⟩
        · intro hm2
          rcases List.mem_cons.1 hm2 with h0 | h0
          · exact hx h0.symm
          · exact hX2 h0
        · rw [List.cons_append, hstep, hm, heq, List.cons_append]
      · have hk : k ≤ (x :: X).length :=
          chunk_le x X J t k (matchA_no_brace _ k hm) hJh
        refine ⟨(x :: X).drop k, t, fun hm2 => hX0 (mem_of_mem_drop hm2), ?_⟩
        rw [show (x :: X) ++ (J ++ t) = x :: (X ++ (J ++ t)) from rfl, goA_step hm,
          show x :: (X ++ (J ++ t)) = (x :: X) ++ (J ++ t) from rfl,
          drop_app_le (x :: X) (J ++ t) k hk]

theorem goB_shape : ∀ (X J t : List Char), '{' ∉ X →
    (∀ c ∈ J, ¬c = btick) → J.getLast? = some '}' → J.head? = some '{' →
    ∃ X2 t2, '{' ∉ X2 ∧ goB (X ++ (J ++ t)) = X2 ++ (J ++ t2)
  | [], J, t, _, hJb, hJl, _ => by
    have hcond : ∀ n, n < J.length → matchBLen (J.drop n ++ t) = none := by
      intro n hn
      exact matchB_none _ _ ⟨'}', getLast?_mem_drop J n hn hJl, by decide⟩
        (fun c hm => hJb c (mem_of_mem_drop hm))
    refine ⟨[], goB t, by simp, ?_⟩
    show goB (J ++ t) = J ++ goB t
    exact goB_app J t hcond
  | x :: X, J, t, hX0, hJb, hJl, hJh => by
    have hXr : '{' ∉ X := fun hm => hX0 (List.mem_cons_of_mem _ hm)
    have hx : ¬x = '{' := fun h0 => hX0 (h0 ▸ List.mem_cons_self x X)
    rcases hm : matchBLen (x :: (X ++ (J ++ t))) with _ | k
    · have hstep : goB (x :: (X ++ (J ++ t))) =
          (match matchBLen (x :: (X ++ (J ++ t))) with
           | some k => (x :: (X ++ (J ++ t))).drop k
           | none => x :: goB (X ++ (J ++ t))) := rfl
      obtain ⟨X2, t2, hX2, heq⟩ := goB_shape X J t hXr hJb hJl hJh
      refine ⟨x :: X2, t2, ?_, ?_⟩
      · intro hm2
        rcases List.mem_cons.1 hm2 with h0 | h0
        · exact hx h0.symm
        · exact hX2 h0
      · rw [List.cons_append, hstep, hm, heq, List.cons_append]
    · have hk : k ≤ (x :: X).length :=
        chunk_le x X J t k (matchB_no_brace _ k hm) hJh
      refine ⟨(x :: X).drop k, t, fun hm2 => hX0 (mem_of_mem_drop hm2), ?_⟩
      have hstepB : goB (x :: (X ++ (J ++ t))) = (x :: (X ++ (J ++ t))).drop k := by
        have hstep : goB (x :: (X ++ (J ++ t))) =
            (match matchBLen (x :: (X ++ (J ++ t))) with
             | some k => (x :: (X ++ (J ++ t))).drop k
             | none => x :: goB (X ++ (J ++ t))) := rfl
        rw [hstep, hm]
      rw [show (x :: X) ++ (J ++ t) = x :: (X ++ (J ++ t)) from rfl, hstepB,
        show x :: (X ++ (J ++ t)) = (x :: X) ++ (J ++ t) from rfl,
        drop_app_le (x :: X) (J ++ t) k hk]

theorem jsTrim_shape (X J t : List Char) (hX : '{' ∉ X) (hJh : J.head? = some '{')
    (hJr : J.reverse.head? = some '}') :
    ∃ X2 t2, '{' ∉ X2 ∧ jsTrim (X ++ (J ++ t)) = X2 ++ (J ++ t2) := by
  unfold jsTrim
  have h1 : (X ++ (J ++ t)).dropWhile isWS = X.dropWhile isWS ++ (J ++ t) :=
    dropWhile_app _ (dropWhile_head_eq (head?_append_left J t hJh) (by decide)) X
  have h2 : (X.dropWhile isWS ++ (J ++ t)).reverse =
      t.reverse ++ (J.reverse ++ (X.dropWhile isWS).reverse) := by
    rw [List.reverse_append, List.reverse_append, List.append_assoc]
  have h3 : (t.reverse ++ (J.reverse ++ (X.dropWhile isWS).reverse)).dropWhile isWS =
      t.reverse.dropWhile isWS ++ (J.reverse ++ (X.dropWhile isWS).reverse) :=
    dropWhile_app _ (dropWhile_head_eq (head?_append_left _ _ hJr) (by decide)) _
  have h4 : (t.reverse.dropWhile isWS ++
        (J.reverse ++ (X.dropWhile isWS).reverse)).reverse =
      X.dropWhile isWS ++ (J ++ (t.reverse.dropWhile isWS).reverse) := by
    rw [List.reverse_append, List.reverse_append, List.reverse_reverse,
      List.reverse_reverse, List.append_assoc]
  rw [h1, h2, h3, h4]
  exact ⟨X.dropWhile isWS, (t.reverse.dropWhile isWS).reverse,
    fun hm => hX (mem_dropWhile _ hm), rfl⟩

/-- The tail of the extraction on a shaped text: trim already done, locate
the first brace, scan exactly the serialized object. -/
theorem extractCore_of_shape (kvs : JObj) (X t cs : List Char)
    (hclean : CleanO kvs = true) (hX : '{' ∉ X)
    (hred : jsTrim (goB (goA cs true)) = X ++ (strfy (.jobj kvs) ++ t)) :
    extractCore cs = .ok (strfy (.jobj kvs)) := by
  have hJhead : (strfy (.jobj kvs)).head? = some '{' := rfl
  have hJTh : (strfy (.jobj kvs) ++ t).head? = some '{' :=
    head?_append_left _ _ hJhead
  have hany : (jsTrim (goB (goA cs true))).any (fun c => (c = '{' : Bool)) = true := by
    rw [List.any_eq_true]
    refine ⟨'{', ?_, by decide⟩
    rw [hred]
    exact List.mem_append.2 (Or.inr (head?_mem hJTh))
  have hbr : (jsTrim (goB (goA cs true))).dropWhile (fun c => !(c = '{' : Bool)) =
      strfy (.jobj kvs) ++ t := by
    rw [hred]
    exact dropWhile_brace _ _ hX hJTh
  have hspan : jsonSpan (strfy (.jobj kvs) ++ t) 0 [] = some (strfy (.jobj kvs)) := by
    have h2 := scan_obj kvs hclean t []
    simpa using h2
  unfold extractCore
  rw [if_pos hany, hbr, hspan]

/-! ## A model of the platform `JSON.parse`

Modelled from the spec: `JSON.parse` is the platform JSON parser the
pipeline applies to the extracted span.  It is modelled on the JSON
grammar as emitted by `JSON.stringify` (which never emits insignificant
whitespace), which covers every input this development applies it to; the
roundtrip `jsonParse (strfy o) = some o` below corresponds to the
platform's parse–stringify roundtrip. -/

def hexVal (c : Char) : Option Nat :=
  if 48 ≤ c.toNat ∧ c.toNat ≤ 57 then some (c.toNat - 48)
  else if 97 ≤ c.toNat ∧ c.toNat ≤ 102 then some (c.toNat - 87)
  else if 65 ≤ c.toNat ∧ c.toNat ≤ 70 then some (c.toNat - 55)
  else none

/-- Parse a JSON string body (after the opening quote) up to and past the
closing quote, unescaping the escapes `JSON.stringify` emits. -/
def parseStr : List Char → Option (List Char × List Char)
  | [] => none
  | c :: r =>
    if c = '"' then some ([], r)
    else if c = '\\' then
      match r with
      | [] => none
      | e :: r2 =>
        if e = '"' then (parseStr r2).map (fun p => ('"' :: p.1, p.2))
        else if e = '\\' then (parseStr r2).map (fun p => ('\\' :: p.1, p.2))
        else if e = 'n' then (parseStr r2).map (fun p => ('\n' :: p.1, p.2))
        else if e = 'r' then (parseStr r2).map (fun p => ('\r' :: p.1, p.2))
        else if e = 't' then (parseStr r2).map (fun p => ('\t' :: p.1, p.2))
        else if e = 'b' then (parseStr r2).map (fun p => (Char.ofNat 8 :: p.1, p.2))
        else if e = 'f' then (parseStr r2).map (fun p => (Char.ofNat 12 :: p.1, p.2))
        else if e = 'u' then
          match r2 with
          | h1 :: h2 :: h3 :: h4 :: r3 =>
            match hexVal h1, hexVal h2, hexVal h3, hexVal h4 with
            | some a, some b, some c2, some d =>
              (parseStr r3).map (fun p =>
                (Char.ofNat (((a * 16 + b) * 16 + c2) * 16 + d) :: p.1, p.2))
            | _, _, _, _ => none
          | _ => none
        else none
    else (parseStr r).map (fun p => (c :: p.1, p.2))

/-- Read a maximal run of decimal digits. -/
def rdDigs : List Char → Nat → Nat × List Char
  | [], acc => (acc, [])
  | c :: r, acc => if isDig c then rdDigs r (acc * 10 + (c.toNat - 48)) else (acc, c :: r)

def parseNum (cs : List Char) : Option (Nat × List Char) :=
  match cs with
  | c :: r => if isDig c then some (rdDigs (c :: r) 0) else none
  | [] => none

def parseNull : List Char → Option (JVal × List Char)
  | 'u' :: 'l' :: 'l' :: r2 => some (.jnull, r2)
  | _ => none

def parseTrue : List Char → Option (JVal × List Char)
  | 'r' :: 'u' :: 'e' :: r2 => some (.jbool true, r2)
  | _ => none

def parseFalse : List Char → Option (JVal × List Char)
  | 'a' :: 'l' :: 's' :: 'e' :: r2 => some (.jbool false, r2)
  | _ => none

mutual
/-- Parse one JSON value; the fuel bounds the nesting depth. -/
def parseV : Nat → List Char → Option (JVal × List Char)
  | 0, _ => none
  | fuel + 1, cs =>
    match cs with
    | [] => none
    | c :: r =>
      if c = 'n' then parseNull r
      else if c = 't' then parseTrue r
      else if c = 'f' then parseFalse r
      else if c = '"' then (parseStr r).map (fun p => (.jstr p.1, p.2))
      else if c = '[' then
        if r.head? = some ']' then some (.jarr .nil, r.tail)
        else (parseElems fuel r).map (fun p => (.jarr p.1, p.2))
      else if c = '{' then
        if r.head? = some '}' then some (.jobj .nil, r.tail)
        else (parseMems fuel r).map (fun p => (.jobj p.1, p.2))
      else if c = '-' then (parseNum r).map (fun p => (.jnum (-(p.1 : Int)), p.2))
      else (parseNum (c :: r)).map (fun p => (.jnum (p.1 : Int), p.2))
/-- Parse the elements of a non-empty array up to and past the `]`. -/
def parseElems : Nat → List Char → Option (JArr × List Char)
  | 0, _ => none
  | fuel + 1, cs =>
    (parseV fuel cs).bind fun p =>
      match p.2 with
      | ']' :: r3 => some (.cons p.1 .nil, r3)
      | ',' :: r3 => (parseElems fuel r3).map (fun q => (.cons p.1 q.1, q.2))
      | _ => none
/-- Parse the members of a non-empty object up to and past the closing
brace. -/
def parseMems : Nat → List Char → Option (JObj × List Char)
  | 0, _ => none
  | fuel + 1, cs =>
    match cs with
    | '"' :: r =>
      (parseStr r).bind fun pk =>
        match pk.2 with
        | ':' :: r3 =>
          (parseV fuel r3).bind fun pv =>
            match pv.2 with
            | ',' :: r5 =>
              (parseMems fuel r5).map (fun q => (.cons pk.1 pv.1 q.1, q.2))
            | '}' :: r5 => some (.cons pk.1 pv.1 .nil, r5)
            | _ => none
        | _ => none
    | _ => none
end

/-- The platform `JSON.parse`: a full-input parse of one value. -/
def jsonParse (cs : List Char) : Option JVal :=
  match parseV (cs.length + 1) cs with
  | some (v, []) => some v
  | _ => none

example : jsonParse (strfy (.jobj (.cons ['a'] (.jnum 1) .nil))) =
    some (.jobj (.cons ['a'] (.jnum 1) .nil)) := rfl

example : jsonParse ('{' :: '"' :: 'a' :: '"' :: ':' :: '1' :: []) = none := rfl

/-! ### The parse–stringify roundtrip

`jsonParse (strfy o) = some o`: strings unescape to themselves, digit runs
read back to the same number, and the sequence parsers retrace the
comma-separated serialized forms. -/

theorem hexVal_hexDig : ∀ x, x < 16 → hexVal (hexDig x) = some x := by decide

theorem parseStr_cons (c : Char) (r : List Char) :
    parseStr (c :: r) =
      (if c = '"' then some ([], r)
       else if c = '\\' then
         (match r with
          | [] => none
          | e :: r2 =>
            if e = '"' then (parseStr r2).map (fun p => ('"' :: p.1, p.2))
            else if e = '\\' then (parseStr r2).map (fun p => ('\\' :: p.1, p.2))
            else if e = 'n' then (parseStr r2).map (fun p => ('\n' :: p.1, p.2))
            else if e = 'r' then (parseStr r2).map (fun p => ('\r' :: p.1, p.2))
            else if e = 't' then (parseStr r2).map (fun p => ('\t' :: p.1, p.2))
            else if e = 'b' then (parseStr r2).map (fun p => (Char.ofNat 8 :: p.1, p.2))
            else if e = 'f' then (parseStr r2).map (fun p => (Char.ofNat 12 :: p.1, p.2))
            else if e = 'u' then
              match r2 with
              | h1 :: h2 :: h3 :: h4 :: r3 =>
                match hexVal h1, hexVal h2, hexVal h3, hexVal h4 with
                | some a, some b, some c2, some d =>
                  (parseStr r3).map (fun p =>
                    (Char.ofNat (((a * 16 + b) * 16 + c2) * 16 + d) :: p.1, p.2))
                | _, _, _, _ => none
              | _ => none
            else none)
       else (parseStr r).map (fun p => (c :: p.1, p.2))) := by
  conv_lhs => rw [parseStr.eq_def]

theorem parseStr_other (c : Char) (r : List Char) (h1 : ¬c = '"') (h2 : ¬c = '\\') :
    parseStr (c :: r) = (parseStr r).map (fun p => (c :: p.1, p.2)) := by
  rw [parseStr_cons, if_neg h1, if_neg h2]

theorem parseStr_esc1 (r : List Char) :
    parseStr ('\\' :: '"' :: r) = (parseStr r).map (fun p => ('"' :: p.1, p.2)) := by
  rw [parseStr_cons]
  rfl

theorem parseStr_esc2 (r : List Char) :
    parseStr ('\\' :: '\\' :: r) = (parseStr r).map (fun p => ('\\' :: p.1, p.2)) := by
  rw [parseStr_cons]
  rfl

theorem parseStr_esc3 (r : List Char) :
    parseStr ('\\' :: 'n' :: r) = (parseStr r).map (fun p => ('\n' :: p.1, p.2)) := by
  rw [parseStr_cons]
  rfl

theorem parseStr_esc4 (r : List Char) :
    parseStr ('\\' :: 'r' :: r) = (parseStr r).map (fun p => ('\r' :: p.1, p.2)) := by
  rw [parseStr_cons]
  rfl

theorem parseStr_esc5 (r : List Char) :
    parseStr ('\\' :: 't' :: r) = (parseStr r).map (fun p => ('\t' :: p.1, p.2)) := by
  rw [parseStr_cons]
  rfl

theorem parseStr_esc6 (r : List Char) :
    parseStr ('\\' :: 'b' :: r) =
      (parseStr r).map (fun p => (Char.ofNat 8 :: p.1, p.2)) := by
  rw [parseStr_cons]
  rfl

theorem parseStr_esc7 (r : List Char) :
    parseStr ('\\' :: 'f' :: r) =
      (parseStr r).map (fun p => (Char.ofNat 12 :: p.1, p.2)) := by
  rw [parseStr_cons]
  rfl

theorem parseStr_u (a b : Nat) (r : List Char) (ha : a < 16) (hb : b < 16) :
    parseStr ('\\' :: 'u' :: '0' :: '0' :: hexDig a :: hexDig b :: r) =
      (parseStr r).map (fun p => (Char.ofNat (a * 16 + b) :: p.1, p.2)) := by
  rw [parseStr_cons]
  show (match hexVal '0', hexVal '0', hexVal (hexDig a), hexVal (hexDig b) with
       | some a1, some b1, some c1, some d1 =>
         (parseStr r).map (fun p : List Char × List Char =>
           (Char.ofNat (((a1 * 16 + b1) * 16 + c1) * 16 + d1) :: p.1, p.2))
       | _, _, _, _ => none) = _
  rw [hexVal_hexDig a ha, hexVal_hexDig b hb]
  show (parseStr r).map
      (fun p : List Char × List Char =>
        (Char.ofNat (((0 * 16 + 0) * 16 + a) * 16 + b) :: p.1, p.2)) = _
  rw [show ((0 * 16 + 0) * 16 + a) * 16 + b = a * 16 + b from by ring]

/-- Unescaping inverts the escaping of `JSON.stringify`, character by
character. -/
theorem parse_quoteStr : ∀ (s rest : List Char),
    parseStr ((s.map escChar).join ++ '"' :: rest) = some (s, rest)
  | [], rest => by
    show parseStr ('"' :: rest) = some ([], rest)
    rw [parseStr_cons, if_pos rfl]
  | c :: s, rest => by
    show parseStr ((escChar c ++ (s.map escChar).join) ++ '"' :: rest) = _
    rw [List.append_assoc]
    by_cases h1 : c = '"'
    · rw [show escChar c = ['\\', '"'] from by unfold escChar; rw [if_pos h1]]
      show parseStr ('\\' :: '"' :: ((s.map escChar).join ++ '"' :: rest)) = _
      rw [parseStr_esc1, parse_quoteStr s rest, h1]
      rfl
    · by_cases h2 : c = '\\'
      · rw [show escChar c = ['\\', '\\'] from by
          unfold escChar; rw [if_neg h1, if_pos h2]]
        show parseStr ('\\' :: '\\' :: ((s.map escChar).join ++ '"' :: rest)) = _
        rw [parseStr_esc2, parse_quoteStr s rest, h2]
        rfl
      · by_cases h3 : c = '\n'
        · rw [show escChar c = ['\\', 'n'] from by
            unfold escChar; rw [if_neg h1, if_neg h2, if_pos h3]]
          show parseStr ('\\' :: 'n' :: ((s.map escChar).join ++ '"' :: rest)) = _
          rw [parseStr_esc3, parse_quoteStr s rest, h3]
          rfl
        · by_cases h4 : c = '\r'
          · rw [show escChar c = ['\\', 'r'] from by
              unfold escChar; rw [if_neg h1, if_neg h2, if_neg h3, if_pos h4]]
            show parseStr ('\\' :: 'r' :: ((s.map escChar).join ++ '"' :: rest)) = _
            rw [parseStr_esc4, parse_quoteStr s rest, h4]
            rfl
          · by_cases h5 : c = '\t'
            · rw [show escChar c = ['\\', 't'] from by
                unfold escChar
                rw [if_neg h1, if_neg h2, if_neg h3, if_neg h4, if_pos h5]]
              show parseStr ('\\' :: 't' :: ((s.map escChar).join ++ '"' :: rest)) = _
              rw [parseStr_esc5, parse_quoteStr s rest, h5]
              rfl
            · by_cases h6 : c = Char.ofNat 8
              · rw [show escChar c = ['\\', 'b'] from by
                  unfold escChar
                  rw [if_neg h1, if_neg h2, if_neg h3, if_neg h4, if_neg h5, if_pos h6]]
                show parseStr ('\\' :: 'b' ::
                  ((s.map escChar).join ++ '"' :: rest)) = _
                rw [parseStr_esc6, parse_quoteStr s rest, h6]
                rfl
              · by_cases h7 : c = Char.ofNat 12
                · rw [show escChar c = ['\\', 'f'] from by
                    unfold escChar
                    rw [if_neg h1, if_neg h2, if_neg h3, if_neg h4, if_neg h5,
                      if_neg h6, if_pos h7]]
                  show parseStr ('\\' :: 'f' ::
                    ((s.map escChar).join ++ '"' :: rest)) = _
                  rw [parseStr_esc7, parse_quoteStr s rest, h7]
                  rfl
                · by_cases h8 : c.toNat < 32
                  · rw [show escChar c = ['\\', 'u', '0', '0',
                        hexDig (c.toNat / 16), hexDig (c.toNat % 16)] from by
                      unfold escChar
                      rw [if_neg h1, if_neg h2, if_neg h3, if_neg h4, if_neg h5,
                        if_neg h6, if_neg h7, if_pos h8]]
                    show parseStr ('\\' :: 'u' :: '0' :: '0' ::
                      hexDig (c.toNat / 16) :: hexDig (c.toNat % 16) ::
                      ((s.map escChar).join ++ '"' :: rest)) = _
                    rw [parseStr_u (c.toNat / 16) (c.toNat % 16) _
                        (by omega) (by omega),
                      parse_quoteStr s rest,
                      show c.toNat / 16 * 16 + c.toNat % 16 = c.toNat from by omega,
                      Char.ofNat_toNat]
                    rfl
                  · rw [show escChar c = [c] from by
                      unfold escChar
                      rw [if_neg h1, if_neg h2, if_neg h3, if_neg h4, if_neg h5,
                        if_neg h6, if_neg h7, if_neg h8]]
                    show parseStr (c :: ((s.map escChar).join ++ '"' :: rest)) = _
                    rw [parseStr_other c _ h1 h2, parse_quoteStr s rest]
                    rfl

def dsVal : List Char → Nat → Nat
  | [], acc => acc
  | c :: r, acc => dsVal r (acc * 10 + (c.toNat - 48))

theorem dsVal_append : ∀ (xs ys : List Char) (acc : Nat),
    dsVal (xs ++ ys) acc = dsVal ys (dsVal xs acc)
  | [], _, _ => rfl
  | c :: xs, ys, acc => dsVal_append xs ys _

theorem rdDigs_app : ∀ (ds : List Char), (∀ c ∈ ds, isDig c = true) →
    ∀ (rest : List Char), (∀ c, rest.head? = some c → isDig c = false) →
    ∀ (acc : Nat), rdDigs (ds ++ rest) acc = (dsVal ds acc, rest)
  | [], _, rest, hrest, acc => by
    rcases rest with _ | ⟨c, r⟩
    · rfl
    · show (if isDig c then rdDigs r (acc * 10 + (c.toNat - 48)) else (acc, c :: r)) =
        (acc, c :: r)
      rw [if_neg (by simp [hrest c rfl])]
  | d :: ds, hds, rest, hrest, acc => by
    have hd : isDig d = true := hds d (List.mem_cons_self _ _)
    show (if isDig d then rdDigs (ds ++ rest) (acc * 10 + (d.toNat - 48))
        else (acc, d :: (ds ++ rest))) = (dsVal ds (acc * 10 + (d.toNat - 48)), rest)
    rw [if_pos hd]
    exact rdDigs_app ds (fun c hc => hds c (List.mem_cons_of_mem _ hc)) rest hrest _

theorem natDigs_ne_nil (n : Nat) : natDigs (n + 1) n ≠ [] := by
  unfold natDigs
  split_ifs
  · simp
  · intro h0
    have h1 := (List.append_eq_nil.1 h0).2
    simp at h1

theorem natDigs_sval : ∀ (fuel n : Nat), n < fuel → ∀ (acc : Nat),
    dsVal (natDigs fuel n) acc = acc * 10 ^ (natDigs fuel n).length + n
  | 0, n, h, _ => absurd h (Nat.not_lt_zero n)
  | fuel + 1, n, h, acc => by
    unfold natDigs
    split_ifs with h10
    · show dsVal [] (acc * 10 + ((dg n).toNat - 48)) = acc * 10 ^ 1 + n
      show acc * 10 + ((dg n).toNat - 48) = acc * 10 ^ 1 + n
      rw [show (dg n).toNat - 48 = n from d2n_dg n h10, pow_one]
    · have hlt : n / 10 < fuel := by omega
      rw [dsVal_append, List.length_append]
      show dsVal [dg (n % 10)] (dsVal (natDigs fuel (n / 10)) acc) =
        acc * 10 ^ ((natDigs fuel (n / 10)).length + 1) + n
      show dsVal (natDigs fuel (n / 10)) acc * 10 + ((dg (n % 10)).toNat - 48) =
        acc * 10 ^ ((natDigs fuel (n / 10)).length + 1) + n
      rw [natDigs_sval fuel (n / 10) hlt acc,
        show (dg (n % 10)).toNat - 48 = n % 10 from d2n_dg _ (by omega), pow_succ]
      have hdm : n / 10 * 10 + n % 10 = n := by omega
      calc (acc * 10 ^ (natDigs fuel (n / 10)).length + n / 10) * 10 + n % 10
          = acc * (10 ^ (natDigs fuel (n / 10)).length * 10) +
              (n / 10 * 10 + n % 10) := by ring
        _ = acc * (10 ^ (natDigs fuel (n / 10)).length * 10) + n := by rw [hdm]

theorem parseNum_natDigs (n : Nat) (rest : List Char)
    (hrest : ∀ c, rest.head? = some c → isDig c = false) :
    parseNum (natDigs (n + 1) n ++ rest) = some (n, rest) := by
  have hall : ∀ c ∈ natDigs (n + 1) n, isDig c = true :=
    fun c hc => natDigs_all (n + 1) n c hc
  have hrd : rdDigs (natDigs (n + 1) n ++ rest) 0 = (n, rest) := by
    rw [rdDigs_app _ hall rest hrest 0, natDigs_sval (n + 1) n (Nat.lt_succ_self n) 0]
    simp
  rcases hD : natDigs (n + 1) n with _ | ⟨d0, ds⟩
  · exact absurd hD (natDigs_ne_nil n)
  · rw [hD] at hrd hall
    have hd0 : isDig d0 = true := hall d0 (List.mem_cons_self _ _)
    show (if isDig d0 then some (rdDigs (d0 :: (ds ++ rest)) 0) else none) =
      some (n, rest)
    rw [if_pos hd0, show d0 :: (ds ++ rest) = (d0 :: ds) ++ rest from rfl, hrd]

theorem isDig_ne3 {c : Char} (h : isDig c = true) :
    ¬c = 'n' ∧ ¬c = 't' ∧ ¬c = 'f' ∧ ¬c = '"' ∧ ¬c = '[' ∧ ¬c = '{' ∧ ¬c = '-' ∧
      ¬c = ']' ∧ ¬c = ',' ∧ ¬c = ':' ∧ ¬c = '}' := by
  refine ⟨?_, ?_, ?_, ?_, ?_, ?_, ?_, ?_, ?_, ?_, ?_⟩ <;> rintro rfl <;>
    revert h <;> decide

/-- The one-value parser on a non-empty input, as an equation. -/
theorem parseV_cons1 (fuel : Nat) (c : Char) (r : List Char) :
    parseV (fuel + 1) (c :: r) =
      (if c = 'n' then parseNull r
      else if c = 't' then parseTrue r
      else if c = 'f' then parseFalse r
      else if c = '"' then (parseStr r).map (fun p => (.jstr p.1, p.2))
      else if c = '[' then
        if r.head? = some ']' then some (.jarr .nil, r.tail)
        else (parseElems fuel r).map (fun p => (.jarr p.1, p.2))
      else if c = '{' then
        if r.head? = some '}' then some (.jobj .nil, r.tail)
        else (parseMems fuel r).map (fun p => (.jobj p.1, p.2))
      else if c = '-' then (parseNum r).map (fun p => (.jnum (-(p.1 : Int)), p.2))
      else (parseNum (c :: r)).map (fun p => (.jnum (p.1 : Int), p.2))) := by
  conv_lhs => rw [parseV.eq_def]

theorem parseElems_eq (fuel : Nat) (cs : List Char) :
    parseElems (fuel + 1) cs =
      (parseV fuel cs).bind fun p =>
        match p.2 with
        | ']' :: r3 => some (.cons p.1 .nil, r3)
        | ',' :: r3 => (parseElems fuel r3).map (fun q => (.cons p.1 q.1, q.2))
        | _ => none := by
  conv_lhs => rw [parseElems.eq_def]

theorem parseMems_eq (fuel : Nat) (r : List Char) :
    parseMems (fuel + 1) ('"' :: r) =
      ((parseStr r).bind fun pk =>
        match pk.2 with
        | ':' :: r3 =>
          (parseV fuel r3).bind fun pv =>
            match pv.2 with
            | ',' :: r5 =>
              (parseMems fuel r5).map (fun q => (.cons pk.1 pv.1 q.1, q.2))
            | '}' :: r5 => some (.cons pk.1 pv.1 .nil, r5)
            | _ => none
        | _ => none) := by
  conv_lhs => rw [parseMems.eq_def]
  rfl

theorem parseV_digit (fuel : Nat) (c : Char) (r : List Char) (hc : isDig c = true) :
    parseV (fuel + 1) (c :: r) =
      (parseNum (c :: r)).map (fun p => (.jnum (p.1 : Int), p.2)) := by
  obtain ⟨h1, h2, h3, h4, h5, h6, h7, _⟩ := isDig_ne3 hc
  rw [parseV_cons1, if_neg h1, if_neg h2, if_neg h3, if_neg h4, if_neg h5,
    if_neg h6, if_neg h7]

theorem parseV_num (n : Int) (fuel : Nat) (rest : List Char)
    (hrest : ∀ c, rest.head? = some c → isDig c = false) :
    parseV (fuel + 1) (intChars n ++ rest) = some (.jnum n, rest) := by
  by_cases hneg : n < 0
  · rw [show intChars n = '-' :: natDigs (n.natAbs + 1) n.natAbs from by
      unfold intChars; rw [if_pos hneg]]
    rw [List.cons_append, parseV_cons1, if_neg (by decide), if_neg (by decide),
      if_neg (by decide), if_neg (by decide), if_neg (by decide),
      if_neg (by decide), if_pos rfl, parseNum_natDigs _ _ hrest]
    show some (JVal.jnum (-((n.natAbs : Nat) : Int)), rest) = some (JVal.jnum n, rest)
    rw [show -(((n.natAbs : Nat)) : Int) = n from by omega]
  · rw [show intChars n = natDigs (n.toNat + 1) n.toNat from by
      unfold intChars; rw [if_neg hneg]]
    rcases hD : natDigs (n.toNat + 1) n.toNat with _ | ⟨d0, ds⟩
    · exact absurd hD (natDigs_ne_nil n.toNat)
    · have hnum := parseNum_natDigs n.toNat rest hrest
      rw [hD] at hnum
      have hd0 : isDig d0 = true := by
        have h2 := natDigs_all (n.toNat + 1) n.toNat d0
        rw [hD] at h2
        exact h2 (List.mem_cons_self _ _)
      rw [show (d0 :: ds) ++ rest = d0 :: (ds ++ rest) from rfl,
        parseV_digit fuel d0 (ds ++ rest) hd0,
        show d0 :: (ds ++ rest) = (d0 :: ds) ++ rest from rfl, hnum]
      show some (JVal.jnum ((n.toNat : Nat) : Int), rest) = some (JVal.jnum n, rest)
      rw [show ((n.toNat : Nat) : Int) = n from by omega]

/-! #### Fuel bounds for the nesting depth -/

mutual
def vsize : JVal → Nat
  | .jarr .nil => 1
  | .jarr (.cons v a) => 2 + vsize v + asum a
  | .jobj .nil => 1
  | .jobj (.cons _ v o) => 2 + vsize v + osum o
  | _ => 1
def asum : JArr → Nat
  | .nil => 0
  | .cons v a => 1 + vsize v + asum a
def osum : JObj → Nat
  | .nil => 0
  | .cons _ v o => 1 + vsize v + osum o
end

theorem vsize_pos : ∀ v : JVal, 1 ≤ vsize v
  | .jnull => le_refl 1
  | .jbool _ => le_refl 1
  | .jnum _ => le_refl 1
  | .jstr _ => le_refl 1
  | .jarr .nil => le_refl 1
  | .jarr (.cons v a) => by
    show 1 ≤ 2 + vsize v + asum a
    omega
  | .jobj .nil => le_refl 1
  | .jobj (.cons k v o) => by
    show 1 ≤ 2 + vsize v + osum o
    omega

theorem intChars_ne_nil (n : Int) : intChars n ≠ [] := by
  unfold intChars
  split_ifs
  · simp
  · exact natDigs_ne_nil n.toNat

mutual
theorem vsize_le : ∀ v : JVal, vsize v ≤ (strfy v).length
  | .jnull => by decide
  | .jbool true => by decide
  | .jbool false => by decide
  | .jnum n => by
    show 1 ≤ (intChars n).length
    have h1 := List.length_pos.2 (intChars_ne_nil n)
    omega
  | .jstr s => by
    show 1 ≤ ('"' :: ((s.map escChar).join ++ ['"'])).length
    show 1 ≤ ((s.map escChar).join ++ ['"']).length + 1
    omega
  | .jarr .nil => by decide
  | .jarr (.cons v a) => by
    show 2 + vsize v + asum a ≤ ('[' :: ((strfy v ++ strfyA2 a) ++ [']'])).length
    have h1 := vsize_le v
    have h2 := asum_le a
    simp only [List.length_cons, List.length_append, List.length_singleton]
    omega
  | .jobj .nil => by decide
  | .jobj (.cons k v o) => by
    show 2 + vsize v + osum o ≤
      ('{' :: ((quoteStr k ++ ':' :: (strfy v ++ strfyO2 o)) ++ ['}'])).length
    have h1 := vsize_le v
    have h2 := osum_le o
    simp only [List.length_cons, List.length_append, List.length_singleton]
    omega
theorem asum_le : ∀ a : JArr, asum a ≤ (strfyA2 a).length
  | .nil => Nat.zero_le _
  | .cons v a => by
    show 1 + vsize v + asum a ≤ (',' :: (strfy v ++ strfyA2 a)).length
    have h1 := vsize_le v
    have h2 := asum_le a
    simp only [List.length_cons, List.length_append]
    omega
theorem osum_le : ∀ o : JObj, osum o ≤ (strfyO2 o).length
  | .nil => Nat.zero_le _
  | .cons k v o => by
    show 1 + vsize v + osum o ≤
      (',' :: (quoteStr k ++ ':' :: (strfy v ++ strfyO2 o))).length
    have h1 := vsize_le v
    have h2 := osum_le o
    simp only [List.length_cons, List.length_append]
    omega
end

/-- A serialized value never starts with a closing bracket or brace. -/
theorem strfy_head_not : ∀ (v : JVal) (c : Char),
    (strfy v).head? = some c → ¬c = ']' ∧ ¬c = '}' := by
  intro v c hc
  rcases v with _ | b | n | s | xs | kvs
  · have h : some 'n' = some c := hc
    have h2 := Option.some_injective _ h
    rw [← h2]
    exact ⟨by decide, by decide⟩
  · rcases b with _ | _
    · have h : some 'f' = some c := hc
      have h2 := Option.some_injective _ h
      rw [← h2]
      exact ⟨by decide, by decide⟩
    · have h : some 't' = some c := hc
      have h2 := Option.some_injective _ h
      rw [← h2]
      exact ⟨by decide, by decide⟩
  · have hc2 : (intChars n).head? = some c := hc
    by_cases hn : n < 0
    · have he : intChars n = '-' :: natDigs (n.natAbs + 1) n.natAbs := by
        unfold intChars
        rw [if_pos hn]
      rw [he] at hc2
      have h : some '-' = some c := hc2
      have h2 := Option.some_injective _ h
      rw [← h2]
      exact ⟨by decide, by decide⟩
    · have he : intChars n = natDigs (n.toNat + 1) n.toNat := by
        unfold intChars
        rw [if_neg hn]
      rw [he] at hc2
      rcases hD : natDigs (n.toNat + 1) n.toNat with _ | ⟨d0, ds⟩
      · exact absurd hD (natDigs_ne_nil n.toNat)
      · rw [hD] at hc2
        have h : some d0 = some c := hc2
        have h2 := Option.some_injective _ h
        have hd : isDig c = true := by
          rw [← h2]
          exact natDigs_all _ _ d0 (by rw [hD]; exact List.mem_cons_self _ _)
        constructor
        · intro habs
          rw [habs] at hd
          exact absurd hd (by decide)
        · intro habs
          rw [habs] at hd
          exact absurd hd (by decide)
  · have h : some '"' = some c := hc
    have h2 := Option.some_injective _ h
    rw [← h2]
    exact ⟨by decide, by decide⟩
  · have h : some '[' = some c := hc
    have h2 := Option.some_injective _ h
    rw [← h2]
    exact ⟨by decide, by decide⟩
  · have h : some '{' = some c := hc
    have h2 := Option.some_injective _ h
    rw [← h2]
    exact ⟨by decide, by decide⟩

/-- The joint parse–stringify roundtrip, by induction on the fuel. -/
theorem parse_strfy_joint : ∀ fuel : Nat,
    (∀ (v : JVal) (rest : List Char), vsize v ≤ fuel →
      (∀ c, rest.head? = some c → isDig c = false) →
      parseV fuel (strfy v ++ rest) = some (v, rest)) ∧
    (∀ (v : JVal) (a : JArr) (rest : List Char), 1 + vsize v + asum a ≤ fuel →
      parseElems fuel (strfy v ++ (strfyA2 a ++ (']' :: rest))) =
        some (.cons v a, rest)) ∧
    (∀ (k : List Char) (v : JVal) (o : JObj) (rest : List Char),
      1 + vsize v + osum o ≤ fuel →
      parseMems fuel
          (quoteStr k ++ (':' :: (strfy v ++ (strfyO2 o ++ ('}' :: rest))))) =
        some (.cons k v o, rest)) := by
  intro fuel
  induction fuel with
  | zero =>
    refine ⟨fun v rest hle _ => ?_, fun v a rest hle => ?_, fun k v o rest hle => ?_⟩
    · have := vsize_pos v
      omega
    · omega
    · omega
  | succ fuel ih =>
    obtain ⟨ihV, ihE, ihM⟩ := ih
    refine ⟨?_, ?_, ?_⟩
    · intro v rest hle hrest
      rcases v with _ | b | n | s | xs | kvs
      · show parseV (fuel + 1) ('n' :: 'u' :: 'l' :: 'l' :: rest) = some (.jnull, rest)
        rw [parseV_cons1, if_pos rfl]
        rfl
      · rcases b with _ | _
        · show parseV (fuel + 1) ('f' :: 'a' :: 'l' :: 's' :: 'e' :: rest) =
            some (.jbool false, rest)
          rw [parseV_cons1, if_neg (by decide), if_neg (by decide), if_pos rfl]
          rfl
        · show parseV (fuel + 1) ('t' :: 'r' :: 'u' :: 'e' :: rest) =
            some (.jbool true, rest)
          rw [parseV_cons1, if_neg (by decide), if_pos rfl]
          rfl
      · exact parseV_num n fuel rest hrest
      · have hassoc : strfy (JVal.jstr s) ++ rest =
            '"' :: ((s.map escChar).join ++ '"' :: rest) := by
          show ('"' :: ((s.map escChar).join ++ ['"'])) ++ rest = _
          rw [List.cons_append, List.append_assoc]
          rfl
        rw [hassoc, parseV_cons1, if_neg (by decide), if_neg (by decide),
          if_neg (by decide), if_pos rfl, parse_quoteStr s rest]
        rfl
      · rcases xs with _ | ⟨v, a⟩
        · show parseV (fuel + 1) ('[' :: ']' :: rest) = some (.jarr .nil, rest)
          rw [parseV_cons1, if_neg (by decide), if_neg (by decide),
            if_neg (by decide), if_neg (by decide), if_pos rfl,
            if_pos (show (']' :: rest).head? = some ']' from rfl)]
          rfl
        · have hassoc : strfy (JVal.jarr (.cons v a)) ++ rest =
              '[' :: (strfy v ++ (strfyA2 a ++ (']' :: rest))) := by
            show ('[' :: ((strfy v ++ strfyA2 a) ++ [']'])) ++ rest = _
            rw [List.cons_append, List.append_assoc, List.append_assoc,
              List.cons_append, List.nil_append]
          obtain ⟨c0, hc0⟩ : ∃ c0, (strfy v).head? = some c0 := by
            rcases hsv : strfy v with _ | ⟨c0, sv⟩
            · have h1 := vsize_le v
              rw [hsv] at h1
              have h2 := vsize_pos v
              exact absurd h2 (by simp at h1; omega)
            · exact ⟨c0, by simp [hsv]⟩
          have hne : ¬(strfy v ++ (strfyA2 a ++ (']' :: rest))).head? = some ']' := by
            intro habs
            rw [head?_append_left _ _ hc0] at habs
            have h3 := Option.some_injective _ habs
            have h4 := strfy_head_not v c0 hc0
            exact h4.1 h3
          have hsz : vsize (JVal.jarr (JArr.cons v a)) = 2 + vsize v + asum a := rfl
          rw [hsz] at hle
          rw [hassoc, parseV_cons1, if_neg (by decide), if_neg (by decide),
            if_neg (by decide), if_neg (by decide), if_pos rfl, if_neg hne,
            ihE v a rest (by omega)]
          rfl
      · rcases kvs with _ | ⟨k, v, o⟩
        · show parseV (fuel + 1) ('{' :: '}' :: rest) = some (.jobj .nil, rest)
          rw [parseV_cons1, if_neg (by decide), if_neg (by decide),
            if_neg (by decide), if_neg (by decide), if_neg (by decide),
            if_pos rfl, if_pos (show ('}' :: rest).head? = some '}' from rfl)]
          rfl
        · have hassoc : strfy (JVal.jobj (.cons k v o)) ++ rest =
              '{' :: (quoteStr k ++ (':' :: (strfy v ++ (strfyO2 o ++ ('}' :: rest))))) := by
            show ('{' :: ((quoteStr k ++ ':' :: (strfy v ++ strfyO2 o)) ++ ['}'])) ++ rest = _
            rw [List.cons_append, List.append_assoc, List.append_assoc,
              List.cons_append, List.append_assoc, List.cons_append,
              List.nil_append]
          have hne : ¬(quoteStr k ++
              (':' :: (strfy v ++ (strfyO2 o ++ ('}' :: rest))))).head? = some '}' := by
            intro habs
            rw [head?_append_left _ _ (show (quoteStr k).head? = some '"' from rfl)]
              at habs
            have h3 := Option.some_injective _ habs
            exact absurd h3 (by decide)
          have hsz : vsize (JVal.jobj (JObj.cons k v o)) = 2 + vsize v + osum o := rfl
          rw [hsz] at hle
          rw [hassoc, parseV_cons1, if_neg (by decide), if_neg (by decide),
            if_neg (by decide), if_neg (by decide), if_neg (by decide),
            if_pos rfl, if_neg hne, ihM k v o rest (by omega)]
          rfl
    · intro v a rest hle
      have hhd : ∀ c, (strfyA2 a ++ (']' :: rest)).head? = some c →
          isDig c = false := by
        rcases a with _ | ⟨v2, a2⟩
        · intro c hc
          have h2 : (strfyA2 JArr.nil ++ (']' :: rest)).head? = some ']' := rfl
          have h3 := Option.some_injective _ (h2.symm.trans hc)
          rw [← h3]
          decide
        · intro c hc
          have h2 : (strfyA2 (JArr.cons v2 a2) ++ (']' :: rest)).head? =
              some ',' := rfl
          have h3 := Option.some_injective _ (h2.symm.trans hc)
          rw [← h3]
          decide
      have hV := ihV v (strfyA2 a ++ (']' :: rest)) (by have := vsize_pos v; omega) hhd
      rw [parseElems_eq, hV, Option.some_bind]
      rcases a with _ | ⟨v2, a2⟩
      · rfl
      · show (parseElems fuel ((strfy v2 ++ strfyA2 a2) ++ (']' :: rest))).map
            (fun q => (JArr.cons v q.1, q.2)) = some (.cons v (.cons v2 a2), rest)
        have hsz : asum (JArr.cons v2 a2) = 1 + vsize v2 + asum a2 := rfl
        rw [hsz] at hle
        have hp := vsize_pos v
        rw [List.append_assoc, ihE v2 a2 rest (by omega)]
        rfl
    · intro k v o rest hle
      have hassoc : quoteStr k ++ (':' :: (strfy v ++ (strfyO2 o ++ ('}' :: rest)))) =
          '"' :: ((k.map escChar).join ++ '"' ::
            (':' :: (strfy v ++ (strfyO2 o ++ ('}' :: rest))))) := by
        show ('"' :: ((k.map escChar).join ++ ['"'])) ++ _ = _
        rw [List.cons_append, List.append_assoc]
        rfl
      have hhd : ∀ c, (strfyO2 o ++ ('}' :: rest)).head? = some c →
          isDig c = false := by
        rcases o with _ | ⟨k2, v2, o2⟩
        · intro c hc
          have h2 : (strfyO2 JObj.nil ++ ('}' :: rest)).head? = some '}' := rfl
          have h3 := Option.some_injective _ (h2.symm.trans hc)
          rw [← h3]
          decide
        · intro c hc
          have h2 : (strfyO2 (JObj.cons k2 v2 o2) ++ ('}' :: rest)).head? =
              some ',' := rfl
          have h3 := Option.some_injective _ (h2.symm.trans hc)
          rw [← h3]
          decide
      have hV := ihV v (strfyO2 o ++ ('}' :: rest)) (by have := vsize_pos v; omega) hhd
      rw [hassoc, parseMems_eq, parse_quoteStr k _, Option.some_bind]
      show ((parseV fuel (strfy v ++ (strfyO2 o ++ ('}' :: rest)))).bind fun pv =>
        match pv.2 with
        | ',' :: r5 =>
          (parseMems fuel r5).map (fun q => (JObj.cons k pv.1 q.1, q.2))
        | '}' :: r5 => some (JObj.cons k pv.1 JObj.nil, r5)
        | _ => none) = some (.cons k v o, rest)
      rw [hV, Option.some_bind]
      rcases o with _ | ⟨k2, v2, o2⟩
      · rfl
      · show (parseMems fuel ((quoteStr k2 ++ ':' :: (strfy v2 ++ strfyO2 o2)) ++
            ('}' :: rest))).map (fun q => (JObj.cons k v q.1, q.2)) =
          some (.cons k v (.cons k2 v2 o2), rest)
        have hassoc2 : (quoteStr k2 ++ ':' :: (strfy v2 ++ strfyO2 o2)) ++
            ('}' :: rest) =
            quoteStr k2 ++ (':' :: (strfy v2 ++ (strfyO2 o2 ++ ('}' :: rest)))) := by
          rw [List.append_assoc]
          congr 1
          rw [List.cons_append]
          congr 1
          rw [List.append_assoc]
        have hsz : osum (JObj.cons k2 v2 o2) = 1 + vsize v2 + osum o2 := rfl
        rw [hsz] at hle
        have hp := vsize_pos v
        rw [hassoc2, ihM k2 v2 o2 rest (by omega)]
        rfl

/-- The platform parse–stringify roundtrip. -/
theorem jsonParse_strfy (v : JVal) : jsonParse (strfy v) = some v := by
  unfold jsonParse
  have hfuel : vsize v ≤ (strfy v).length + 1 :=
    le_trans (vsize_le v) (Nat.le_succ _)
  have h := (parse_strfy_joint ((strfy v).length + 1)).1 v [] hfuel
    (fun c hc => Option.noConfusion hc)
  rw [List.append_nil] at h
  rw [h]

/-- C1 (amended): for every object whose keys and string values contain no
brace and no backtick, and every text formed by prepending arbitrary prose
free of opening braces and optionally wrapping the serialized object in a
Markdown code fence — bare or with the `json` language tag — `extractJSON`
of that text returns exactly `JSON.stringify` of the object, and the
modelled platform `JSON.parse` of that span is deep-equal to the object. -/
theorem C1_extractJSON_roundtrip (kvs : JObj) (prose : List Char) (f : FenceKind)
    (hclean : CleanO kvs = true) (hprose : '{' ∉ prose) :
    extractJSON (String.mk (mkText prose f (strfy (.jobj kvs)))) =
      .ok (String.mk (strfy (.jobj kvs))) ∧
    jsonParse (strfy (.jobj kvs)) = some (.jobj kvs) := by
  have hJW : ∀ c ∈ strfy (.jobj kvs), c ≠ btick ∧ c ≠ '\n' :=
    strfy_chars (.jobj kvs) hclean
  have hJb : ∀ c ∈ strfy (.jobj kvs), ¬c = btick := fun c hm => (hJW c hm).1
  have hJhead : (strfy (.jobj kvs)).head? = some '{' := rfl
  have hJlast : (strfy (.jobj kvs)).getLast? = some '}' := by
    show (('{' :: strfyO kvs) ++ ['}']).getLast? = some '}'
    exact List.getLast?_concat _
  have hJr : (strfy (.jobj kvs)).reverse.head? = some '}' := by
    rw [List.head?_reverse]
    exact hJlast
  have hX0 : '{' ∉ prose ++ fenceOpen f := by
    intro hm
    rcases List.mem_append.1 hm with h0 | h0
    · exact hprose h0
    · rcases f with _ | _ | _ <;> exact absurd h0 (by decide)
  have hstart : mkText prose f (strfy (.jobj kvs)) =
      (prose ++ fenceOpen f) ++ (strfy (.jobj kvs) ++ fenceClose f) := by
    simp [mkText, List.append_assoc]
  obtain ⟨X2, t2, hX2, h1⟩ :=
    goA_shape (prose ++ fenceOpen f) (strfy (.jobj kvs)) (fenceClose f) true
      hX0 hJb hJhead
  obtain ⟨X3, t3, hX3, h2⟩ := goB_shape X2 (strfy (.jobj kvs)) t2 hX2 hJb hJlast hJhead
  obtain ⟨X4, t4, hX4, h3⟩ := jsTrim_shape X3 (strfy (.jobj kvs)) t3 hX3 hJhead hJr
  have hcore : extractCore (mkText prose f (strfy (.jobj kvs))) =
      .ok (strfy (.jobj kvs)) := by
    apply extractCore_of_shape kvs X4 t4 _ hclean hX4
    rw [hstart, h1, h2, h3]
  constructor
  · show (extractCore (mkText prose f (strfy (.jobj kvs)))).map String.mk = _
    rw [hcore]
    rfl
  · exact jsonParse_strfy (.jobj kvs)

/-- C1 counterexample: the claim fails without a cleanliness condition on
string values.  For the object with single key `a` and string value `\x7d`
(a lone closing brace), the depth scan — which is blind to JSON string
literals — stops at the brace inside the string, so `extractJSON` returns
a strict prefix of the stringified object. -/
theorem C1_counterexample :
    extractJSON (String.mk (strfy (.jobj (.cons ['a'] (.jstr ['}']) .nil)))) =
      .ok (String.mk ['{', '"', 'a', '"', ':', '"', '}']) ∧
    String.mk ['{', '"', 'a', '"', ':', '"', '}'] ≠
      String.mk (strfy (.jobj (.cons ['a'] (.jstr ['}']) .nil))) := by
  constructor
  · rfl
  · decide

/-- C1 witness: the bare-fenced form with prose `Hi `&#96; — containing a
backtick and not ending in a newline — and the clean object with key `a`
and value `1` extracts to exactly its stringification, which parses back
to the object. -/
theorem C1_witness :
    CleanO (JObj.cons ['a'] (.jnum 1) .nil) = true ∧
    '{' ∉ ['H', 'i', btick, ' '] ∧
    (extractJSON (String.mk (mkText ['H', 'i', btick, ' '] .plain
        (strfy (.jobj (JObj.cons ['a'] (.jnum 1) .nil))))) =
      .ok (String.mk (strfy (.jobj (JObj.cons ['a'] (.jnum 1) .nil)))) ∧
    jsonParse (strfy (.jobj (JObj.cons ['a'] (.jnum 1) .nil))) =
      some (.jobj (JObj.cons ['a'] (.jnum 1) .nil))) :=
  ⟨by decide, by decide,
    C1_extractJSON_roundtrip (JObj.cons ['a'] (.jnum 1) .nil)
      ['H', 'i', btick, ' '] .plain (by decide) (by decide)⟩

end TClerk
